import Mathlib

/-!
Verification of the gTree generalized tree library (`src/gtree.h`).

The tree is a first-child / next-sibling structure whose nodes live in an
object pool ("arena") addressed by `size_t` ids, with `(size_t)-1` as the
NONE sentinel.  In this development ids are `Nat` and the sentinel is
modelled by `Option Nat` (`none` standing for `-1`).  `FILE *` streams are
modelled as `List String` (one element per line, without the newline),
and the user supplied payload hooks `gTree_storeData` / `gTree_restoreData`
are parameters of the store/restore functions.

C loops over sibling links terminate iff the chain is acyclic, and an
acyclic chain has at most as many nodes as the pool has slots, so those
loops are run with fuel `slots.length + 1`: exhausting it reproduces the
C non-termination exactly, as the dedicated outcome `Res.dv`.  Recursive
subtree functions take explicit fuel instead, with the same reading of
`Res.dv`.
-/

namespace GT

/-- Status codes, translated from `enum gTree_status` in src/gtree.h. -/
inductive Status where
  | OK
  | AllocErr
  | BadCapacity
  | BadStructPtr
  | BadId
  | BadPos
  | BadOutPtr
  | BadNodePtr
  | BadDumpOutPtr
  | BadData
  | BadRestoration
  | FileErr
deriving DecidableEq, Repr

/-- Outcome of running a piece of the C code: a value, an error-status
early return (`GTREE_ASSERT_LOG` / `GTREE_CHECK_POOL_STATUS`), or
divergence (`dv`), i.e. the C code would loop forever. -/
inductive Res (α : Type) where
  | ok : α → Res α
  | err : Status → Res α
  | dv : Res α
deriving DecidableEq, Repr

def Res.bind {α β : Type} : Res α → (α → Res β) → Res β
  | .ok a, f => f a
  | .err e, _ => .err e
  | .dv, _ => .dv

instance : Monad Res where
  pure := Res.ok
  bind := Res.bind

@[simp] theorem Res.bind_ok {α β : Type} (a : α) (f : α → Res β) :
    Res.bind (.ok a) f = f a := rfl

@[simp] theorem Res.bind_err {α β : Type} (e : Status) (f : α → Res β) :
    Res.bind (.err e) f = .err e := rfl

@[simp] theorem Res.bind_dv {α β : Type} (f : α → Res β) :
    Res.bind .dv f = .dv := rfl

@[simp] theorem Res.bind_eq_bind {α β : Type} (x : Res α) (f : α → Res β) :
    x >>= f = Res.bind x f := rfl

@[simp] theorem Res.pure_eq_ok {α : Type} (a : α) :
    (pure a : Res α) = Res.ok a := rfl

/-- Tree node, translated from `struct gTree_Node` in src/gtree.h.
`child` is the first child, `sibling` the right sibling, `parent` the
parent; the C sentinel `-1` is `none`. -/
structure Node (α : Type) where
  data : α
  child : Option Nat
  parent : Option Nat
  sibling : Option Nat
deriving DecidableEq, Repr

/-- Modelled from the spec: the object pool (`gobjpool.h` is not under
src/).  Spec §3/§4.1 describe an arena of slots, each either occupied or
free, with a LIFO free list threaded through the free slots; `alloc` pops
the free-list head or grows storage, `free` marks the slot free and pushes
it (most recently freed slot is reused first), `get` fails on a free or
out-of-range id.  The intrusive next-free links are modelled as the
explicit list `freeList` of free slot indices, in chain order.  The slot
sequence is `slots`, with `none` for a free slot. -/
structure Pool (α : Type) where
  slots : List (Option (Node α))
  freeList : List Nat
deriving DecidableEq, Repr

def defaultNode {α : Type} [Inhabited α] : Node α :=
  { data := default, child := none, parent := none, sibling := none }

/-- Modelled from the spec: `get(id)` fails (returns `none`) iff the id is
the NONE sentinel, out of range, or its slot is free. -/
def Pool.get {α : Type} (p : Pool α) : Option Nat → Option (Node α)
  | none => none
  | some i => p.slots.getD i none

/-- Modelled from the spec: `isValid(id)` is a bounds + occupied check. -/
def Pool.idValid {α : Type} (p : Pool α) (id : Option Nat) : Bool :=
  (p.get id).isSome

/-- Modelled from the spec: `alloc` pops the free-list head if non-empty,
otherwise grows storage by one slot.  Every gTree allocation goes through
the `GTREE_POOL_ALLOC` macro, which immediately resets the link fields of
the fresh node to NONE, so the fresh slot is modelled as holding
`defaultNode` directly. -/
def Pool.alloc {α : Type} [Inhabited α] (p : Pool α) : Pool α × Nat :=
  match p.freeList with
  | h :: tl => ({ slots := p.slots.set h (some defaultNode), freeList := tl }, h)
  | [] => ({ slots := p.slots ++ [some defaultNode], freeList := [] }, p.slots.length)

/-- Modelled from the spec: `free(id)` fails if the id is out of range or
already free, otherwise marks the slot free and pushes it onto the
free-list head. -/
def Pool.free {α : Type} (p : Pool α) : Option Nat → Option (Pool α)
  | none => none
  | some i =>
    match p.slots.getD i none with
    | some _ => some { slots := p.slots.set i none, freeList := i :: p.freeList }
    | none => none

/-- The tree structure, translated from `struct gTree` in src/gtree.h
(the log stream is omitted: it only receives diagnostic text). -/
structure Tree (α : Type) where
  root : Nat
  pool : Pool α
deriving DecidableEq, Repr

/-- Fuel that makes a sibling-chain walk exactly faithful: an acyclic
chain has at most `slots.length` nodes, and a longer walk means a cycle,
on which the C loop never exits. -/
def Tree.cfuel {α : Type} (t : Tree α) : Nat :=
  t.pool.slots.length + 1

def Tree.getNode {α : Type} (t : Tree α) (id : Option Nat) : Res (Node α) :=
  match t.pool.get id with
  | some n => .ok n
  | none => .err .BadId

/-- In-place update of one field of an occupied slot; a no-op on a free
or out-of-range id (every use in the operations below follows a
successful fetch of the same id, mirroring a C pointer write). -/
def Tree.modify {α : Type} (t : Tree α) (i : Nat) (f : Node α → Node α) : Tree α :=
  match t.pool.slots.getD i none with
  | some n => { t with pool := { t.pool with slots := t.pool.slots.set i (some (f n)) } }
  | none => t

/-- C statement `node->data = v` for the node in slot `i`. -/
def Tree.wData {α : Type} (t : Tree α) (i : Nat) (v : α) : Tree α :=
  t.modify i fun n => { n with data := v }

/-- C statement `node->child = v` for the node in slot `i`. -/
def Tree.wChild {α : Type} (t : Tree α) (i : Nat) (v : Option Nat) : Tree α :=
  t.modify i fun n => { n with child := v }

/-- C statement `node->parent = v` for the node in slot `i`. -/
def Tree.wParent {α : Type} (t : Tree α) (i : Nat) (v : Option Nat) : Tree α :=
  t.modify i fun n => { n with parent := v }

/-- C statement `node->sibling = v` for the node in slot `i`. -/
def Tree.wSibling {α : Type} (t : Tree α) (i : Nat) (v : Option Nat) : Tree α :=
  t.modify i fun n => { n with sibling := v }

/-- The `GTREE_POOL_ALLOC` macro: allocate and reset links to NONE. -/
def Tree.allocNode {α : Type} [Inhabited α] (t : Tree α) : Tree α × Nat :=
  let (p, i) := t.pool.alloc
  ({ t with pool := p }, i)

/-- The `GTREE_POOL_FREE` macro: deallocate, converting a pool failure to
a status (`gObjPool` status codes coincide with the low gTree ones). -/
def Tree.poolFree {α : Type} (t : Tree α) (id : Option Nat) : Res (Tree α) :=
  match t.pool.free id with
  | some p => .ok { t with pool := p }
  | none => .err .BadId

/-- The loop `while (sibling->sibling != -1) ...` of gTree_addSibling /
gTree_addExistChild: walk to the last node of the sibling chain starting
at `id`. -/
def lastSibF {α : Type} : Nat → Tree α → Nat → Res Nat
  | 0, _, _ => .dv
  | fuel + 1, t, id => do
    let n ← t.getNode (some id)
    match n.sibling with
    | none => .ok id
    | some nxt => lastSibF fuel t nxt

/-- The loop `for (i = 0; i + 1 < pos; ++i) siblingId = BY_ID(siblingId)->sibling`
of gTree_delChild: advance `steps` times along sibling links. -/
def walkSteps {α : Type} (t : Tree α) : Option Nat → Nat → Res (Option Nat)
  | id, 0 => .ok id
  | id, steps + 1 => do
    let n ← t.getNode id
    walkSteps t n.sibling steps

/-- The loop `while (BY_ID(childId)->sibling != currentId) ...` of
gTree_replaceNode and gTree_delSubtree: find the chain member whose
sibling is `target`, starting from `cid`. -/
def findPrevSib {α : Type} : Nat → Tree α → Option Nat → Nat → Res Nat
  | 0, _, _, _ => .dv
  | _ + 1, _, none, _ => .err .BadId
  | fuel + 1, t, some c, target => do
    let child ← t.getNode (some c)
    if child.sibling = some target then .ok c
    else findPrevSib fuel t child.sibling target

/-- A run of `n` tab characters, as printed by the indentation loops of
gTree_storeSubTree. -/
def tabs (n : Nat) : String :=
  String.mk (List.replicate n '\t')

/-- C `isspace` on the default locale: space, tab, newline, vertical tab,
form feed, carriage return. -/
def isSpaceC (c : Char) : Bool :=
  c = ' ' || c = '\t' || c = '\n' || c = '\x0b' || c = '\x0c' || c = '\r'

/-- The matching loop of consistsOnly (src/gtree.h:653): consume `needle`
from the front of the haystack remainder, or fail. -/
def consumeNeedle : List Char → List Char → Option (List Char)
  | [], h => some h
  | _ :: _, [] => none
  | n :: ns, c :: cs => if n = c then consumeNeedle ns cs else none

/-- consistsOnly (src/gtree.h:643) on character lists: the haystack is
`needle` surrounded by whitespace only. -/
def consistsOnlyL (haystack needle : List Char) : Bool :=
  let h := haystack.dropWhile isSpaceC
  match consumeNeedle needle h with
  | none => false
  | some rest =>
    if rest = [] then true
    else (rest.dropWhile isSpaceC) = []

/-- consistsOnly (src/gtree.h:643): a line is a pure structural token if,
after trimming surrounding whitespace, it equals exactly that token. -/
def consistsOnly (haystack needle : String) : Bool :=
  consistsOnlyL haystack.toList needle.toList

/-- gTree_ctor (src/gtree.h:176): construct the pool and allocate the
root node with all links NONE.  The pool constructor is modelled from the
spec (fresh arena, empty free list); the first allocation yields id 0. -/
def gTree_ctor (α : Type) [Inhabited α] : Tree α :=
  let p : Pool α := { slots := [], freeList := [] }
  let (p1, rootId) := p.alloc
  let t : Tree α := { root := rootId, pool := p1 }
  ((t.wParent rootId none).wChild rootId none).wSibling rootId none

/-- gTree_addSibling (src/gtree.h:237): allocate a node, walk to the last
sibling of the chain containing `siblingId`, link the new node there, and
let it inherit that last sibling's parent. -/
def gTree_addSibling {α : Type} [Inhabited α] (t : Tree α)
    (siblingId : Nat) (d : α) : Res (Tree α × Nat) := do
  if t.pool.idValid (some siblingId) then
    let (t1, childId) := t.allocNode
    let _ ← t1.getNode (some siblingId)
    let _ ← t1.getNode (some childId)
    let lastId ← lastSibF t1.cfuel t1 siblingId
    let t2 := t1.wSibling lastId (some childId)
    let lastNow ← t2.getNode (some lastId)
    let t3 := ((t2.wParent childId lastNow.parent).wChild childId none).wSibling childId none
    let t4 := t3.wData childId d
    .ok (t4, childId)
  else .err .BadId

/-- gTree_addExistChild (src/gtree.h:277): append the already-allocated
node `childId` as the last child of `nodeId`, then overwrite the child's
parent with `nodeId` and its sibling with NONE.  No detachment check is
performed. -/
def gTree_addExistChild {α : Type} (t : Tree α)
    (nodeId childId : Nat) : Res (Tree α) := do
  if t.pool.idValid (some nodeId) then
    if t.pool.idValid (some childId) then
      let node ← t.getNode (some nodeId)
      let _ ← t.getNode (some childId)
      let t1 ← match node.child with
        | none => Res.ok (t.wChild nodeId (some childId))
        | some s => do
          let lastId ← lastSibF t.cfuel t s
          Res.ok (t.wSibling lastId (some childId))
      .ok ((t1.wParent childId (some nodeId)).wSibling childId none)
    else .err .BadId
  else .err .BadId

/-- gTree_replaceNode (src/gtree.h:320): splice `replaceId` into
`currentId`'s place in its parent's child chain; when `currentId` is
parentless the function only prints a warning and mutates nothing. -/
def gTree_replaceNode {α : Type} (t : Tree α)
    (currentId replaceId : Nat) : Res (Tree α) := do
  if t.pool.idValid (some currentId) then
    if t.pool.idValid (some replaceId) then
      let current ← t.getNode (some currentId)
      let _ ← t.getNode (some replaceId)
      match current.parent with
      | none => .ok t
      | some pId => do
        let parent ← t.getNode (some pId)
        let t1 ← if parent.child = some currentId then
            Res.ok (t.wChild pId (some replaceId))
          else do
            let prevId ← findPrevSib t.cfuel t parent.child currentId
            Res.ok (t.wSibling prevId (some replaceId))
        let curNow ← t1.getNode (some currentId)
        let t2 := (t1.wParent replaceId (some pId)).wSibling replaceId curNow.sibling
        let t3 := (t2.wParent currentId none).wSibling currentId none
        .ok t3
    else .err .BadId
  else .err .BadId

/-- gTree_addChild (src/gtree.h:366): allocate a node carrying `d` and
attach it through gTree_addExistChild. -/
def gTree_addChild {α : Type} [Inhabited α] (t : Tree α)
    (nodeId : Nat) (d : α) : Res (Tree α × Nat) := do
  if t.pool.idValid (some nodeId) then
    let (t1, childId) := t.allocNode
    let _ ← t1.getNode (some childId)
    let t2 := t1.wData childId d
    let t3 ← gTree_addExistChild t2 nodeId childId
    .ok (t3, childId)
  else .err .BadId

/-- The promotion loop of gTree_delChild (src/gtree.h:431): reparent every
node of the removed node's child chain to `parentId`, returning the last
chain member's id. -/
def promoteLoop {α : Type} : Nat → Tree α → Nat → Nat → Res (Tree α × Nat)
  | 0, _, _, _ => .dv
  | fuel + 1, t, c, parentId => do
    let n ← t.getNode (some c)
    let t1 := t.wParent c (some parentId)
    match n.sibling with
    | none => .ok (t1, c)
    | some nxt => promoteLoop fuel t1 nxt parentId

/-- gTree_delChild (src/gtree.h:399): remove the child of `parentId` at
zero-based position `pos`, splicing the removed node's own children into
its place, and free the removed node's slot; the removed payload is
returned. -/
def gTree_delChild {α : Type} (t : Tree α)
    (parentId : Nat) (pos : Nat) : Res (Tree α × α) := do
  if t.pool.idValid (some parentId) then
    let parent ← t.getNode (some parentId)
    let step1 ←
      if pos = 0 then
        match parent.child with
        | none => (.err .BadId : Res (Tree α × Nat × Nat × Option Nat))
        | some nId => do
          let node ← t.getNode (some nId)
          let _ ← t.getNode (some nId)
          let childId := node.child
          let t1 := t.wChild parentId childId
          .ok (t1, nId, nId, childId)
      else do
        let sibOpt ← walkSteps t parent.child (pos - 1)
        match sibOpt with
        | none => (.err .BadId : Res (Tree α × Nat × Nat × Option Nat))
        | some sibId => do
          let sibling ← t.getNode (some sibId)
          match sibling.sibling with
          | none => (.err .BadId : Res (Tree α × Nat × Nat × Option Nat))
          | some nId => do
            let node ← t.getNode (some nId)
            let childId := node.child
            let t1 := t.wSibling sibId childId
            .ok (t1, sibId, nId, childId)
    let (t1, sibPtrId, nId, childId) := step1
    let t2 ←
      match childId with
      | some c => do
        let (tp, lastSub) ← promoteLoop t1.cfuel t1 c parentId
        let nodeNow ← tp.getNode (some nId)
        Res.ok (tp.wSibling lastSub nodeNow.sibling)
      | none => do
        let nodeNow ← t1.getNode (some nId)
        Res.ok ((t1.wSibling sibPtrId nodeNow.sibling).wSibling nId none)
    let nodeFinal ← t2.getNode (some nId)
    let t3 ← t2.poolFree (some nId)
    .ok (t3, nodeFinal.data)
  else .err .BadId

mutual

/-- gTree_killSubtree (src/gtree.h:457): free every node of the subtree
rooted at `rootId`, including `rootId`, without touching its external
links. -/
def gTree_killSubtree {α : Type} : Nat → Tree α → Nat → Res (Tree α)
  | 0, _, _ => .dv
  | fuel + 1, t, rootId => do
    if t.pool.idValid (some rootId) then
      let n ← t.getNode (some rootId)
      let t1 ← killChain fuel t n.child
      t1.poolFree (some rootId)
    else .err .BadId

/-- The child loop shared by gTree_killSubtree and gTree_delSubtree: the
next sibling is read before the child subtree is killed. -/
def killChain {α : Type} : Nat → Tree α → Option Nat → Res (Tree α)
  | 0, _, _ => .dv
  | _ + 1, t, none => .ok t
  | fuel + 1, t, some c => do
    let n ← t.getNode (some c)
    let t1 ← gTree_killSubtree fuel t c
    killChain fuel t1 n.sibling

end

/-- gTree_delSubtree (src/gtree.h:480): kill all child subtrees, unlink
`rootId` from its parent's child chain when it has a parent, and free
`rootId` itself. -/
def gTree_delSubtree {α : Type} (fuel : Nat) (t : Tree α) (rootId : Nat) :
    Res (Tree α) := do
  if t.pool.idValid (some rootId) then
    let node0 ← t.getNode (some rootId)
    let t1 ← killChain fuel t node0.child
    let t2 := t1.wChild rootId none
    let node ← t2.getNode (some rootId)
    match node.parent with
    | none => t2.poolFree (some rootId)
    | some pId => do
      let parent ← t2.getNode (some pId)
      let t3 ←
        if parent.child = some rootId then
          Res.ok (t2.wChild pId node.sibling)
        else do
          let prevId ← findPrevSib t2.cfuel t2 parent.child rootId
          Res.ok (t2.wSibling prevId node.sibling)
      t3.poolFree (some rootId)
  else .err .BadId

mutual

/-- gTree_storeSubTree (src/gtree.h:602): emit the subtree rooted at
`nodeId` in the bracketed line format; `w` is the user hook
`gTree_storeData` (its boolean result is ignored by the C code), handed
the data and the indentation level `level + 2`. -/
def gTree_storeSubTree {α : Type} (w : α → Nat → List String) :
    Nat → Tree α → Nat → Nat → Res (List String)
  | 0, _, _, _ => .dv
  | fuel + 1, t, nodeId, level => do
    if t.pool.idValid (some nodeId) then
      let n ← t.getNode (some nodeId)
      let kidLines ← storeChildren w fuel t n.child (level + 1)
      .ok ((tabs level ++ "\x7b") :: (tabs (level + 1) ++ "[") ::
        (w n.data (level + 2) ++ ((tabs (level + 1) ++ "]") ::
          (kidLines ++ [tabs level ++ "\x7d"]))))
    else .err .BadId

/-- The child loop of gTree_storeSubTree, in sibling order. -/
def storeChildren {α : Type} (w : α → Nat → List String) :
    Nat → Tree α → Option Nat → Nat → Res (List String)
  | 0, _, _, _ => .dv
  | _ + 1, _, none, _ => .ok []
  | fuel + 1, t, some c, level => do
    let lines ← gTree_storeSubTree w fuel t c level
    let n ← t.getNode (some c)
    let rest ← storeChildren w fuel t n.sibling level
    .ok (lines ++ rest)

end

mutual

/-- gTree_cloneSubtree (src/gtree.h:521): deep-copy the subtree rooted at
`nodeId` into freshly allocated nodes; the returned clone root is
parentless and siblingless. -/
def gTree_cloneSubtree {α : Type} [Inhabited α] : Nat → Tree α → Nat → Res (Tree α × Nat)
  | 0, _, _ => .dv
  | fuel + 1, t, nodeId =>
    if t.pool.idValid (some nodeId) then
      let (t1, newId) := t.allocNode
      match t1.pool.get (some nodeId) with
      | none => .err .BadId
      | some node => do
        let t2 := (((t1.wData newId node.data).wChild newId none).wSibling newId none).wParent newId none
        let t3 ← cloneChildren fuel t2 newId node.child
        .ok (t3, newId)
    else .err .BadId

/-- The child loop of gTree_cloneSubtree: clone each original child and
append it to the new node via gTree_addExistChild; the next original
sibling is read after the mutation (the original slots are untouched). -/
def cloneChildren {α : Type} [Inhabited α] : Nat → Tree α → Nat → Option Nat → Res (Tree α)
  | 0, _, _, _ => .dv
  | _ + 1, t, _, none => .ok t
  | fuel + 1, t, newNodeId, some c => do
    let (t1, newChildId) ← gTree_cloneSubtree fuel t c
    let t2 ← gTree_addExistChild t1 newNodeId newChildId
    let cn ← t2.getNode (some c)
    cloneChildren fuel t2 newNodeId cn.sibling

end

mutual

/-- gTree_restoreSubTree (src/gtree.h:680): read lines and rebuild the
children of `nodeId`; `r` is the user hook `gTree_restoreData`, which
consumes the payload lines (including the closing `]` line) and returns
the value and the remaining input, or `none` on failure.  Entry checks
and the initial node fetch precede the loop. -/
def gTree_restoreSubTree {α : Type} [Inhabited α]
    (r : List String → Option (α × List String)) :
    Nat → Tree α → Nat → List String → Res (Tree α × List String)
  | 0, _, _, _ => .dv
  | fuel + 1, t, nodeId, input => do
    if t.pool.idValid (some nodeId) then
      let _ ← t.getNode (some nodeId)
      restoreLoop r fuel t nodeId none 1 input
    else .err .BadId

/-- The `while ((bracketCnt > 0) && !feof(in))` loop of
gTree_restoreSubTree.  `curChild` is the id of the most recently restored
child (`curChildId`; NONE before the first one).  A `{` line appends a
fresh child (dummy data), recurses into it, and re-links it behind the
previous child; a `}` line decrements the bracket counter, ending the
loop at zero; a `[` line hands the following lines to the data hook,
whose failure is `BadData`; any other line is skipped.  Running out of
input with a positive counter is the post-loop `BadRestoration` assert. -/
def restoreLoop {α : Type} [Inhabited α]
    (r : List String → Option (α × List String)) :
    Nat → Tree α → Nat → Option Nat → Nat → List String → Res (Tree α × List String)
  | 0, _, _, _, _, _ => .dv
  | fuel + 1, t, nodeId, curChild, bracketCnt, input =>
    if bracketCnt = 0 then .ok (t, input)
    else
      match input with
      | [] => .err .BadRestoration
      | line :: rest =>
        if consistsOnly line "\x7b" then do
          let (t1, newId) ← gTree_addChild t nodeId default
          let t2 := (t1.wParent newId (some nodeId)).wChild newId none
          let (t3, rest1) ← gTree_restoreSubTree r fuel t2 newId rest
          let t4 :=
            match curChild with
            | some prev => t3.wSibling prev (some newId)
            | none => t3.wChild nodeId (some newId)
          restoreLoop r fuel t4 nodeId (some newId) (bracketCnt + 1 - 1) rest1
        else if consistsOnly line "\x7d" then
          restoreLoop r fuel t nodeId curChild (bracketCnt - 1) rest
        else if consistsOnly line "[" then
          match r rest with
          | some (v, rest1) => restoreLoop r fuel (t.wData nodeId v) nodeId curChild bracketCnt rest1
          | none => .err .BadData
        else
          restoreLoop r fuel t nodeId curChild bracketCnt rest

end

/-- gTree_restoreTree (src/gtree.h:746): construct a fresh tree, read the
first line, and when it is a `{` token restore into the existing root;
otherwise the bare constructed tree is returned.  An empty input fails
the first `getline`, i.e. `FileErr`. -/
def gTree_restoreTree {α : Type} [Inhabited α]
    (r : List String → Option (α × List String)) (fuel : Nat)
    (input : List String) : Res (Tree α) :=
  let t : Tree α := gTree_ctor α
  match input with
  | [] => .err .FileErr
  | line :: rest =>
    if consistsOnly line "\x7b" then do
      let (t1, _) ← gTree_restoreSubTree r fuel t t.root rest
      .ok t1
    else .ok t

/-- Rose tree abstraction of a subtree: a value and the children in
sibling order.  Used with values `Nat × α` (slot id and payload). -/
inductive Rose (β : Type) where
  | node : β → List (Rose β) → Rose β
deriving Repr

mutual

def Rose.sizeR {β : Type} : Rose β → Nat
  | .node _ cs => 1 + Rose.sizeL cs

def Rose.sizeL {β : Type} : List (Rose β) → Nat
  | [] => 0
  | c :: cs => 1 + Rose.sizeR c + Rose.sizeL cs

end

mutual

def Rose.mapR {β γ : Type} (f : β → γ) : Rose β → Rose γ
  | .node b cs => .node (f b) (Rose.mapRL f cs)

def Rose.mapRL {β γ : Type} (f : β → γ) : List (Rose β) → List (Rose γ)
  | [] => []
  | c :: cs => Rose.mapR f c :: Rose.mapRL f cs

end

/-- Forget the slot ids of an id-carrying rose tree, keeping the shape,
the child order and the payloads. -/
def Rose.strip {α : Type} : Rose (Nat × α) → Rose α :=
  Rose.mapR Prod.snd

def Rose.stripL {α : Type} : List (Rose (Nat × α)) → List (Rose α) :=
  Rose.mapRL Prod.snd

/-- The slot id at the root of an id-carrying rose tree. -/
def Rose.topId {α : Type} : Rose (Nat × α) → Nat
  | .node (i, _) _ => i

mutual

/-- Ids of all nodes of an id-carrying rose tree, in preorder. -/
def Rose.ids {α : Type} : Rose (Nat × α) → List Nat
  | .node (i, _) cs => i :: Rose.idsL cs

def Rose.idsL {α : Type} : List (Rose (Nat × α)) → List Nat
  | [] => []
  | c :: cs => Rose.ids c ++ Rose.idsL cs

end

mutual

/-- Abstraction: read the subtree rooted at the occupied slot `id` off
the pool as a rose tree carrying slot ids and payloads.  The recursion
mirrors gTree_storeSubTree, so the same fuel drives both. -/
def extractF {α : Type} : Nat → Tree α → Nat → Option (Rose (Nat × α))
  | 0, _, _ => none
  | fuel + 1, t, id => do
    let n ← t.pool.get (some id)
    let cs ← extractChainF fuel t n.child
    some (.node (id, n.data) cs)

/-- Abstraction of a full sibling chain of subtrees, head first. -/
def extractChainF {α : Type} : Nat → Tree α → Option Nat → Option (List (Rose (Nat × α)))
  | 0, _, _ => none
  | _ + 1, _, none => some []
  | fuel + 1, t, some c => do
    let rt ← extractF fuel t c
    let n ← t.pool.get (some c)
    let rest ← extractChainF fuel t n.sibling
    some (rt :: rest)

end

/-- The sibling chain of slot ids starting at `id` (`none` gives `[]`);
fails (`Option.none`) if the walk runs out of fuel or meets an invalid
slot. -/
def chainF {α : Type} : Nat → Tree α → Option Nat → Option (List Nat)
  | _, _, none => some []
  | 0, _, some _ => none
  | fuel + 1, t, some i => do
    let n ← t.pool.get (some i)
    let rest ← chainF fuel t n.sibling
    some (i :: rest)

/-- The child sequence of `nodeId`: ids of its children in sibling order,
read with the canonical fuel. -/
def childSeq {α : Type} (t : Tree α) (nodeId : Nat) : Option (List Nat) :=
  match t.pool.get (some nodeId) with
  | none => none
  | some n => chainF t.cfuel t n.child

mutual

/-- The lines gTree_storeSubTree prints for a subtree with the given
shape and payloads, as a pure function of the rose tree. -/
def roseStore {α : Type} (w : α → Nat → List String) : Rose α → Nat → List String
  | .node v cs, lvl =>
    (tabs lvl ++ "\x7b") :: (tabs (lvl + 1) ++ "[") ::
      (w v (lvl + 2) ++ ((tabs (lvl + 1) ++ "]") ::
        (roseStoreList w cs (lvl + 1) ++ [tabs lvl ++ "\x7d"])))

def roseStoreList {α : Type} (w : α → Nat → List String) : List (Rose α) → Nat → List String
  | [], _ => []
  | c :: cs, lvl => roseStore w c lvl ++ roseStoreList w cs lvl

end

/-- The lines of `roseStore` after the opening brace line: what
gTree_restoreSubTree consumes when restoring this subtree. -/
def roseBody {α : Type} (w : α → Nat → List String) (v : α) (cs : List (Rose α))
    (lvl : Nat) : List String :=
  (tabs (lvl + 1) ++ "[") :: (w v (lvl + 2) ++ ((tabs (lvl + 1) ++ "]") ::
    (roseStoreList w cs (lvl + 1) ++ [tabs lvl ++ "\x7d"])))

/-- A write/read payload hook pair is lossless when reading back what was
written (followed by the `]` line gTree_storeSubTree emits) recovers the
value and consumes exactly those lines. -/
def Lossless {α : Type} (w : α → Nat → List String)
    (r : List String → Option (α × List String)) : Prop :=
  ∀ (v : α) (lvl : Nat) (rest : List String),
    r (w v (lvl + 2) ++ ((tabs (lvl + 1) ++ "]") :: rest)) = some (v, rest)

/-- Fuel-free description of a sibling chain: `ChainRel t c L` holds when
walking sibling links from `c` visits exactly the occupied slots `L` and
ends at NONE. -/
inductive ChainRel {α : Type} (t : Tree α) : Option Nat → List Nat → Prop
  | nil : ChainRel t none []
  | cons {i : Nat} {n : Node α} {L : List Nat} :
      t.pool.get (some i) = some n → ChainRel t n.sibling L →
      ChainRel t (some i) (i :: L)

/-- Well-formedness of the pool bookkeeping (spec §3, invariant 4): the
free list holds in-range, currently-free slot indices, without
duplicates. -/
def PoolWF {α : Type} (p : Pool α) : Prop :=
  p.freeList.Nodup ∧
  ∀ i ∈ p.freeList, i < p.slots.length ∧ p.slots.getD i none = none

/-- A payload writer for `α := String`: the value itself on one line. -/
def hookW : String → Nat → List String := fun v _ => [v]

/-- The matching reader: take the first line as the value and consume the
following `]` line. -/
def hookR : List String → Option (String × List String)
  | a :: _ :: rest => some (a, rest)
  | _ => none

/-- A tree with root 0 (payload 0) and two leaf children 1 (payload 11)
and 2 (payload 22), as built by gTree_ctor and two gTree_addChild calls. -/
def exTree1 : Tree Int :=
  ⟨0, ⟨[some ⟨0, some 1, none, none⟩,
        some ⟨11, none, some 0, some 2⟩,
        some ⟨22, none, some 0, none⟩], []⟩⟩

/-- The pool state gTree_delChild(exTree1, 0, 0) leaves behind: slot 1 is
freed, the root's child field is NONE, and node 2 is orphaned. -/
def exTree1del : Tree Int :=
  ⟨0, ⟨[some ⟨0, none, none, none⟩,
        none,
        some ⟨22, none, some 0, none⟩], [1]⟩⟩

/-- A tree with root 0 and one child 1 (payload 7). -/
def exTree2 : Tree Int :=
  ⟨0, ⟨[some ⟨0, some 1, none, none⟩,
        some ⟨7, none, some 0, none⟩], []⟩⟩

/-- A tree with root 0, child 1, and grandchild 2 under node 1. -/
def exTree3 : Tree Int :=
  ⟨0, ⟨[some ⟨0, some 1, none, none⟩,
        some ⟨11, some 2, some 0, none⟩,
        some ⟨22, none, some 1, none⟩], []⟩⟩

/-- A String-payload tree with root 0 (payload "r") and one child 1
(payload "a"), for exercising the store/restore hooks. -/
def exTree4 : Tree String :=
  ⟨0, ⟨[some ⟨"r", some 1, none, none⟩,
        some ⟨"a", none, some 0, none⟩], []⟩⟩

/-- The root invariant of spec §5: the pool bookkeeping is sound, the
root slot is occupied with parent and sibling NONE, and no occupied
slot's child or sibling pointer names the root (so the root heads no
sibling chain and belongs to none). -/
def RootInv {α : Type} (t : Tree α) : Prop :=
  PoolWF t.pool ∧
  (∃ rn, t.pool.get (some t.root) = some rn ∧
    rn.parent = none ∧ rn.sibling = none) ∧
  (∀ i n, t.pool.get (some i) = some n →
    n.child ≠ some t.root ∧ n.sibling ≠ some t.root)

/-- One public mutating operation of the gTree API with its arguments
(the store operations build no tree and are omitted). -/
inductive Op (α : Type) where
  | addChild (nodeId : Nat) (d : α)
  | addSibling (siblingId : Nat) (d : α)
  | addExistChild (nodeId childId : Nat)
  | replaceNode (currentId replaceId : Nat)
  | delChild (parentId pos : Nat)
  | delSubtree (fuel rootId : Nat)
  | cloneSubtree (fuel nodeId : Nat)
  | restoreSubTree (fuel nodeId : Nat) (input : List String)

/-- Run one public operation, keeping only the resulting tree. -/
def applyOp {α : Type} [Inhabited α]
    (r : List String → Option (α × List String)) (t : Tree α) :
    Op α → Res (Tree α)
  | .addChild n d => do
    let (t1, _) ← gTree_addChild t n d
    .ok t1
  | .addSibling s d => do
    let (t1, _) ← gTree_addSibling t s d
    .ok t1
  | .addExistChild n c => gTree_addExistChild t n c
  | .replaceNode a b => gTree_replaceNode t a b
  | .delChild p pos => do
    let (t1, _) ← gTree_delChild t p pos
    .ok t1
  | .delSubtree f rid => gTree_delSubtree f t rid
  | .cloneSubtree f n => do
    let (t1, _) ← gTree_cloneSubtree f t n
    .ok t1
  | .restoreSubTree f n input => do
    let (t1, _) ← gTree_restoreSubTree r f t n input
    .ok t1

/-- The amended side condition: the root id is never handed to the four
argument positions that would link or kill the root itself. -/
def allowedOp {α : Type} (rootId : Nat) : Op α → Bool
  | .addSibling s _ => s ≠ rootId
  | .addExistChild _ c => c ≠ rootId
  | .replaceNode _ rep => rep ≠ rootId
  | .delSubtree _ rid => rid ≠ rootId
  | _ => true

/-- Run a sequence of public operations, stopping at the first failure. -/
def runOps {α : Type} [Inhabited α]
    (r : List String → Option (α × List String)) :
    List (Op α) → Tree α → Res (Tree α)
  | [], t => .ok t
  | op :: ops, t => do
    let t1 ← applyOp r t op
    runOps r ops t1

-- ===================================================================
-- Theorems
-- ===================================================================

theorem getD_set_self {β : Type} (l : List β) (i : Nat) (v d : β)
    (h : i < l.length) : (l.set i v).getD i d = v := by
  simp [List.getD_eq_getElem?_getD, List.getElem?_set_self, h]

theorem getD_set_ne {β : Type} (l : List β) {i j : Nat} (v d : β)
    (h : i ≠ j) : (l.set i v).getD j d = l.getD j d := by
  simp [List.getD_eq_getElem?_getD, List.getElem?_set_ne h]

theorem getD_append_left {β : Type} (l l2 : List β) (i : Nat) (d : β)
    (h : i < l.length) : (l ++ l2).getD i d = l.getD i d := by
  simp [List.getD_eq_getElem?_getD, List.getElem?_append_left h]

theorem getD_append_len {β : Type} (l : List β) (v d : β) :
    (l ++ [v]).getD l.length d = v := by
  simp [List.getD_eq_getElem?_getD, List.getElem?_append_right (Nat.le_refl _)]

theorem getD_lt_length {β : Type} (l : List (Option β)) (i : Nat) (x : β)
    (h : l.getD i none = some x) : i < l.length := by
  by_contra hc
  rw [List.getD_eq_getElem?_getD, List.getElem?_eq_none (by omega)] at h
  simp at h

@[simp] theorem Pool.get_some {α : Type} (p : Pool α) (i : Nat) :
    p.get (some i) = p.slots.getD i none := rfl

@[simp] theorem Pool.get_none {α : Type} (p : Pool α) :
    p.get none = none := rfl

theorem Pool.get_lt_length {α : Type} (p : Pool α) (i : Nat) (n : Node α)
    (h : p.get (some i) = some n) : i < p.slots.length :=
  getD_lt_length _ _ _ h

@[simp] theorem Tree.root_modify {α : Type} (t : Tree α) (i : Nat) (f : Node α → Node α) :
    (t.modify i f).root = t.root := by
  unfold Tree.modify; cases t.pool.slots.getD i none <;> rfl

@[simp] theorem Tree.freeList_modify {α : Type} (t : Tree α) (i : Nat) (f : Node α → Node α) :
    (t.modify i f).pool.freeList = t.pool.freeList := by
  unfold Tree.modify; cases t.pool.slots.getD i none <;> rfl

@[simp] theorem Tree.length_modify {α : Type} (t : Tree α) (i : Nat) (f : Node α → Node α) :
    (t.modify i f).pool.slots.length = t.pool.slots.length := by
  unfold Tree.modify; cases t.pool.slots.getD i none <;> simp

theorem Tree.get_modify_self {α : Type} (t : Tree α) (i : Nat) (f : Node α → Node α)
    (n : Node α) (h : t.pool.get (some i) = some n) :
    (t.modify i f).pool.get (some i) = some (f n) := by
  have hl : i < t.pool.slots.length := t.pool.get_lt_length i n h
  simp only [Pool.get_some] at h ⊢
  unfold Tree.modify
  rw [h]
  simpa using getD_set_self _ _ _ _ hl

theorem Tree.get_modify_ne {α : Type} (t : Tree α) (i : Nat) (f : Node α → Node α)
    {j : Nat} (h : i ≠ j) :
    (t.modify i f).pool.get (some j) = t.pool.get (some j) := by
  unfold Tree.modify
  cases hg : t.pool.slots.getD i none with
  | none => rfl
  | some n => simpa using getD_set_ne _ _ _ h

theorem Tree.get_modify_free {α : Type} (t : Tree α) (i : Nat) (f : Node α → Node α)
    (h : t.pool.get (some i) = none) : t.modify i f = t := by
  simp only [Pool.get_some] at h
  unfold Tree.modify
  rw [h]

theorem Tree.getNode_eq_ok {α : Type} (t : Tree α) (id : Option Nat) (n : Node α)
    (h : t.pool.get id = some n) : t.getNode id = .ok n := by
  unfold Tree.getNode; rw [h]

theorem Tree.getNode_eq_err {α : Type} (t : Tree α) (id : Option Nat)
    (h : t.pool.get id = none) : t.getNode id = .err .BadId := by
  unfold Tree.getNode; rw [h]

theorem Pool.idValid_true {α : Type} (p : Pool α) (id : Option Nat) (n : Node α)
    (h : p.get id = some n) : p.idValid id = true := by
  unfold Pool.idValid; rw [h]; rfl

/-- C8: gTree_replaceNode on a parentless node (in particular the root)
is a successful no-op: it returns OK and the tree is unchanged, so no
parent, child or sibling field changes and no slot is freed or
allocated; only the warning is printed. -/
theorem gTree_replaceNode_parentless_noop {α : Type} (t : Tree α)
    (currentId replaceId : Nat) (n m : Node α)
    (hc : t.pool.get (some currentId) = some n)
    (hr : t.pool.get (some replaceId) = some m)
    (hp : n.parent = none) :
    gTree_replaceNode t currentId replaceId = .ok t := by
  unfold gTree_replaceNode
  rw [if_pos (t.pool.idValid_true _ n hc), if_pos (t.pool.idValid_true _ m hr),
    Res.bind_eq_bind, t.getNode_eq_ok _ n hc, Res.bind_ok,
    Res.bind_eq_bind, t.getNode_eq_ok _ m hr, Res.bind_ok, hp]

/-- Witness for C8 on a concrete tree: the root of a two-node tree is
parentless, and replacing it by its child changes nothing. -/
theorem gTree_replaceNode_parentless_noop_witness :
    exTree2.pool.get (some 0) = some ⟨0, some 1, none, none⟩ ∧
    exTree2.pool.get (some 1) = some ⟨7, none, some 0, none⟩ ∧
    gTree_replaceNode exTree2 0 1 = .ok exTree2 :=
  ⟨by decide, by decide,
    gTree_replaceNode_parentless_noop exTree2 0 1 ⟨0, some 1, none, none⟩
      ⟨7, none, some 0, none⟩ (by decide) (by decide) (by decide)⟩

/-- C9: when the first input line is not a `{` token, gTree_restoreTree
succeeds and returns the freshly constructed tree: just the root node
with parent, child and sibling NONE and the default payload. -/
theorem gTree_restoreTree_nonBrace {α : Type} [Inhabited α]
    (r : List String → Option (α × List String)) (fuel : Nat)
    (line : String) (rest : List String)
    (h : consistsOnly line "\x7b" = false) :
    gTree_restoreTree r fuel (line :: rest) = .ok (gTree_ctor α) ∧
    (gTree_ctor α).root = 0 ∧
    (gTree_ctor α).pool.slots =
      [some { data := default, child := none, parent := none, sibling := none }] ∧
    (gTree_ctor α).pool.freeList = [] := by
  refine ⟨?_, rfl, rfl, rfl⟩
  unfold gTree_restoreTree
  simp [h]

/-- Witness for C9: a concrete non-brace first line. -/
theorem gTree_restoreTree_nonBrace_witness :
    consistsOnly "hello" "\x7b" = false ∧
    gTree_restoreTree hookR 5 ["hello", "\x7b"] = .ok (gTree_ctor String) :=
  ⟨by decide,
    (gTree_restoreTree_nonBrace hookR 5 "hello" ["\x7b"] (by decide)).1⟩

/-- C1, failing input: in exTree1 the root has two children, the first
one childless; `gTree_delChild(tree, 0, 0)` succeeds and pops child 1
(payload 11), but it sets the root's child field to NONE instead of to
the removed node's next sibling 2, so the remaining child 2 is orphaned:
the child sequence of the root becomes `[]` instead of `[2]`, while node
2 still sits in its slot with its parent field pointing at the root. -/
theorem gTree_delChild_pos0_orphans_siblings :
    childSeq exTree1 0 = some [1, 2] ∧
    (exTree1.pool.get (some 1)).map Node.child = some none ∧
    gTree_delChild exTree1 0 0 = .ok (exTree1del, 11) ∧
    childSeq exTree1del 0 = some [] ∧
    exTree1del.pool.get (some 2) = some ⟨22, none, some 0, none⟩ := by
  refine ⟨by decide, by decide, by decide, by decide, by decide⟩

/-- C3, counterexample: gTree_addSibling applied to the root id succeeds
and links the new node as the root's sibling, so after this public
operation the root's sibling field is no longer NONE. -/
theorem root_sibling_set_by_addSibling :
    gTree_addSibling (gTree_ctor Int) 0 5 =
      .ok (⟨0, ⟨[some ⟨0, none, none, some 1⟩, some ⟨5, none, none, none⟩], []⟩⟩, 1) := by
  decide

/-- C5, counterexample: gTree_delSubtree applied to the root of a freshly
constructed tree does not fail (there is no CannotDeleteRoot status in
`gTree_status` at all): it returns OK and frees the root's slot. -/
theorem gTree_delSubtree_frees_root :
    gTree_delSubtree 10 (gTree_ctor Int) 0 = .ok ⟨0, ⟨[none], [0]⟩⟩ := by
  decide

theorem ChainRel.none_eq_nil {α : Type} {t : Tree α} {L : List Nat}
    (h : ChainRel t none L) : L = [] := by
  cases h; rfl

theorem ChainRel.deterministic {α : Type} {t : Tree α} {c : Option Nat}
    {L L' : List Nat} (h : ChainRel t c L) (h' : ChainRel t c L') : L = L' := by
  induction h generalizing L' with
  | nil => exact (h'.none_eq_nil).symm
  | cons hg _ ih =>
    cases h' with
    | cons hg' htail' =>
      rw [hg] at hg'
      cases hg'
      rw [ih htail']

theorem ChainRel.suffix_of_mem {α : Type} {t : Tree α} {c : Option Nat}
    {L : List Nat} (h : ChainRel t c L) :
    ∀ i ∈ L, ∃ B, ChainRel t (some i) (i :: B) ∧ ∃ P, L = P ++ i :: B := by
  induction h with
  | nil => intro i hi; cases hi
  | cons hg htail ih =>
    intro j hj
    rcases List.mem_cons.mp hj with hj | hj
    · subst hj
      exact ⟨_, .cons hg htail, [], rfl⟩
    · rcases ih j hj with ⟨B, hB, P, hP⟩
      exact ⟨B, hB, _ :: P, by rw [hP]; rfl⟩

theorem ChainRel.nodup {α : Type} {t : Tree α} {c : Option Nat}
    {L : List Nat} (h : ChainRel t c L) : L.Nodup := by
  induction h with
  | nil => exact List.nodup_nil
  | cons hg htail ih =>
    refine List.nodup_cons.mpr ⟨?_, ih⟩
    intro hmem
    rcases htail.suffix_of_mem _ hmem with ⟨B, hB, P, hP⟩
    have hfull := ChainRel.cons hg htail
    have := hB.deterministic hfull
    have hlen : (_ :: B).length = _ := congrArg List.length this
    simp only [List.length_cons] at hlen
    rw [hP] at hlen
    simp [List.length_append] at hlen
    omega

theorem ChainRel.mem_get {α : Type} {t : Tree α} {c : Option Nat}
    {L : List Nat} (h : ChainRel t c L) :
    ∀ i ∈ L, ∃ n, t.pool.get (some i) = some n := by
  intro i hi
  rcases h.suffix_of_mem i hi with ⟨B, hB, _, _⟩
  cases hB with
  | cons hg _ => exact ⟨_, hg⟩

theorem ChainRel.mem_lt {α : Type} {t : Tree α} {c : Option Nat}
    {L : List Nat} (h : ChainRel t c L) :
    ∀ i ∈ L, i < t.pool.slots.length := by
  intro i hi
  rcases h.mem_get i hi with ⟨n, hn⟩
  exact t.pool.get_lt_length i n hn

theorem ChainRel.length_le {α : Type} {t : Tree α} {c : Option Nat}
    {L : List Nat} (h : ChainRel t c L) : L.length ≤ t.pool.slots.length := by
  classical
  have hn := h.nodup
  have hsub : ∀ i ∈ L, i ∈ List.range t.pool.slots.length := by
    intro i hi
    exact List.mem_range.mpr (h.mem_lt i hi)
  calc L.length = L.toFinset.card := (List.toFinset_card_of_nodup hn).symm
    _ ≤ (Finset.range t.pool.slots.length).card := by
        apply Finset.card_le_card
        intro i hi
        rcases List.mem_toFinset.mp hi with hi'
        exact Finset.mem_range.mpr (h.mem_lt i (List.mem_toFinset.mp hi))
    _ = t.pool.slots.length := Finset.card_range _

theorem chainF_sound {α : Type} {t : Tree α} :
    ∀ {f : Nat} {c : Option Nat} {L : List Nat},
      chainF f t c = some L → ChainRel t c L := by
  intro f
  induction f with
  | zero =>
    intro c L h
    cases c with
    | none => cases h; exact .nil
    | some i => cases h
  | succ k ih =>
    intro c L h
    cases c with
    | none => cases h; exact .nil
    | some i =>
      unfold chainF at h
      cases hg : t.pool.get (some i) with
      | none => rw [hg] at h; cases h
      | some n =>
        rw [hg] at h
        simp only [Option.bind_eq_bind, Option.some_bind] at h
        cases hr : chainF k t n.sibling with
        | none => rw [hr] at h; cases h
        | some rest =>
          rw [hr] at h
          simp only [Option.some_bind, Option.some_inj] at h
          cases h
          exact .cons hg (ih hr)

theorem chainF_complete {α : Type} {t : Tree α} {c : Option Nat} {L : List Nat}
    (h : ChainRel t c L) : ∀ f : Nat, L.length < f → chainF f t c = some L := by
  induction h with
  | nil => intro f _; cases f <;> rfl
  | cons hg htail ih =>
    intro f hf
    cases f with
    | zero => omega
    | succ k =>
      unfold chainF
      rw [hg]
      simp only [Option.bind_eq_bind, Option.some_bind]
      rw [ih k (by simpa using Nat.lt_of_succ_lt_succ hf)]
      simp only [Option.some_bind]

theorem childSeq_sound {α : Type} {t : Tree α} {id : Nat} {L : List Nat}
    (h : childSeq t id = some L) :
    ∃ n, t.pool.get (some id) = some n ∧ ChainRel t n.child L := by
  unfold childSeq at h
  cases hg : t.pool.get (some id) with
  | none => rw [hg] at h; cases h
  | some n => rw [hg] at h; exact ⟨n, rfl, chainF_sound h⟩

theorem childSeq_complete {α : Type} {t : Tree α} {id : Nat} {n : Node α}
    {L : List Nat} (hg : t.pool.get (some id) = some n)
    (h : ChainRel t n.child L) : childSeq t id = some L := by
  unfold childSeq
  rw [hg]
  exact chainF_complete h t.cfuel (by
    have := h.length_le
    unfold Tree.cfuel
    omega)

theorem ChainRel.congr {α : Type} {t t' : Tree α} {c : Option Nat} {L : List Nat}
    (h : ChainRel t c L)
    (hfr : ∀ i ∈ L, t'.pool.get (some i) = t.pool.get (some i)) :
    ChainRel t' c L := by
  induction h with
  | nil => exact .nil
  | cons hg htail ih =>
    refine .cons (n := _) ?_ (ih fun i hi => hfr i (List.mem_cons_of_mem _ hi))
    rw [hfr _ (List.mem_cons_self _ _)]
    exact hg

theorem lastSibF_spec {α : Type} {t : Tree α} :
    ∀ {c : Option Nat} {M : List Nat}, ChainRel t c M →
      ∀ {s last : Nat}, c = some s → M.getLast? = some last →
      ∀ f : Nat, M.length < f → lastSibF f t s = .ok last := by
  intro c M h
  induction h with
  | nil => intro s last hc; cases hc
  | @cons i n L hg htail ih =>
    intro s last hc hlast f hf
    cases hc
    cases f with
    | zero => omega
    | succ k =>
      unfold lastSibF
      rw [Res.bind_eq_bind, Tree.getNode_eq_ok _ _ _ hg, Res.bind_ok]
      cases hs : n.sibling with
      | none =>
        rw [hs] at htail
        cases htail.none_eq_nil
        simp only [List.getLast?_singleton, Option.some_inj] at hlast
        rw [hlast]
      | some nxt =>
        have hne : L ≠ [] := by
          rw [hs] at htail
          cases htail
          exact List.cons_ne_nil _ _
        have hlast2 : L.getLast? = some last := by
          cases L with
          | nil => exact absurd rfl hne
          | cons x xs => rwa [List.getLast?_cons_cons] at hlast
        have hlen : L.length < k := by
          simp only [List.length_cons] at hf
          omega
        exact ih hs hlast2 k hlen

theorem getD_none_of_le {β : Type} (l : List (Option β)) {i : Nat}
    (h : l.length ≤ i) : l.getD i none = none := by
  rw [List.getD_eq_getElem?_getD, List.getElem?_eq_none h]
  rfl

theorem Tree.get_wData_self {α : Type} (t : Tree α) (i : Nat) (v : α)
    (n : Node α) (h : t.pool.get (some i) = some n) :
    (t.wData i v).pool.get (some i) = some { n with data := v } :=
  t.get_modify_self i _ n h

theorem Tree.get_wChild_self {α : Type} (t : Tree α) (i : Nat) (v : Option Nat)
    (n : Node α) (h : t.pool.get (some i) = some n) :
    (t.wChild i v).pool.get (some i) = some { n with child := v } :=
  t.get_modify_self i _ n h

theorem Tree.get_wParent_self {α : Type} (t : Tree α) (i : Nat) (v : Option Nat)
    (n : Node α) (h : t.pool.get (some i) = some n) :
    (t.wParent i v).pool.get (some i) = some { n with parent := v } :=
  t.get_modify_self i _ n h

theorem Tree.get_wSibling_self {α : Type} (t : Tree α) (i : Nat) (v : Option Nat)
    (n : Node α) (h : t.pool.get (some i) = some n) :
    (t.wSibling i v).pool.get (some i) = some { n with sibling := v } :=
  t.get_modify_self i _ n h

theorem Tree.get_wData_ne {α : Type} (t : Tree α) (i : Nat) (v : α)
    {j : Nat} (h : i ≠ j) :
    (t.wData i v).pool.get (some j) = t.pool.get (some j) :=
  t.get_modify_ne i _ h

theorem Tree.get_wChild_ne {α : Type} (t : Tree α) (i : Nat) (v : Option Nat)
    {j : Nat} (h : i ≠ j) :
    (t.wChild i v).pool.get (some j) = t.pool.get (some j) :=
  t.get_modify_ne i _ h

theorem Tree.get_wParent_ne {α : Type} (t : Tree α) (i : Nat) (v : Option Nat)
    {j : Nat} (h : i ≠ j) :
    (t.wParent i v).pool.get (some j) = t.pool.get (some j) :=
  t.get_modify_ne i _ h

theorem Tree.get_wSibling_ne {α : Type} (t : Tree α) (i : Nat) (v : Option Nat)
    {j : Nat} (h : i ≠ j) :
    (t.wSibling i v).pool.get (some j) = t.pool.get (some j) :=
  t.get_modify_ne i _ h

theorem mem_of_getLast?_eq {β : Type} {l : List β} {a : β}
    (h : l.getLast? = some a) : a ∈ l := by
  have hx : a ∈ l.getLast? := by rw [h]; rfl
  rcases List.mem_getLast?_eq_getLast hx with ⟨hne, he⟩
  rw [he]
  exact List.getLast_mem hne

/-- Appending a fresh, terminal node behind the last element of a chain
extends the chain by exactly that node, provided the other chain slots
are untouched. -/
theorem ChainRel.snoc {α : Type} {t t' : Tree α} :
    ∀ {c : Option Nat} {L : List Nat}, ChainRel t c L →
    ∀ {last cNew : Nat} {m : Node α}, L.getLast? = some last →
      (∀ i ∈ L, i ≠ last → t'.pool.get (some i) = t.pool.get (some i)) →
      (∀ n : Node α, t.pool.get (some last) = some n →
        t'.pool.get (some last) = some { n with sibling := some cNew }) →
      t'.pool.get (some cNew) = some m → m.sibling = none → cNew ∉ L →
      ChainRel t' c (L ++ [cNew]) := by
  intro c L h
  induction h with
  | nil => intro last cNew m hlast; cases hlast
  | @cons i n L' hg htail ih =>
    intro last cNew m hlast hframe hlastslot hnew hm hfresh
    cases hL' : L' with
    | nil =>
      subst hL'
      simp only [List.getLast?_singleton, Option.some_inj] at hlast
      subst hlast
      refine .cons (hlastslot n hg) ?_
      simp only
      refine .cons hnew ?_
      rw [hm]
      exact .nil
    | cons x xs =>
      have hlast2 : L'.getLast? = some last := by
        rw [hL'] at hlast ⊢
        rwa [List.getLast?_cons_cons] at hlast
      have hne : i ≠ last := by
        have hmem : last ∈ L' := mem_of_getLast?_eq hlast2
        have hnd := (ChainRel.cons hg htail).nodup
        rcases List.nodup_cons.mp hnd with ⟨hnotin, _⟩
        intro he
        exact hnotin (he ▸ hmem)
      rw [← hL'] at *
      have hgi : t'.pool.get (some i) = some n := by
        rw [hframe i (List.mem_cons_self _ _) hne]
        exact hg
      refine .cons hgi ?_
      exact ih hlast2
        (fun j hj hjne => hframe j (List.mem_cons_of_mem _ hj) hjne)
        hlastslot hnew hm (fun hc => hfresh (List.mem_cons_of_mem _ hc))

theorem allocNode_empty {α : Type} [Inhabited α] (t : Tree α)
    (h : t.pool.freeList = []) :
    t.allocNode = ({ t with pool :=
      { slots := t.pool.slots ++ [some defaultNode], freeList := [] } },
      t.pool.slots.length) := by
  unfold Tree.allocNode Pool.alloc
  rw [h]

/-- What `GTREE_POOL_ALLOC` guarantees on a well-formed pool: the
returned id was a free (or fresh) slot, now holds a default node, and
everything else is untouched. -/
theorem allocNode_spec {α : Type} [Inhabited α] (t : Tree α) (hw : PoolWF t.pool)
    {t1 : Tree α} {c : Nat} (halloc : t.allocNode = (t1, c)) :
    t.pool.get (some c) = none ∧
    t1.pool.get (some c) = some defaultNode ∧
    (∀ j, j ≠ c → t1.pool.get (some j) = t.pool.get (some j)) ∧
    t1.root = t.root ∧
    PoolWF t1.pool ∧
    t.pool.slots.length ≤ t1.pool.slots.length ∧
    t1.pool.freeList.Sublist t.pool.freeList := by
  unfold Tree.allocNode Pool.alloc at halloc
  rcases hw with ⟨hnd, hfree⟩
  cases hfl : t.pool.freeList with
  | nil =>
    rw [hfl] at halloc
    cases halloc
    refine ⟨getD_none_of_le _ (Nat.le_refl _), getD_append_len _ _ _, ?_, rfl,
      ⟨List.nodup_nil, by intro i hi; cases hi⟩, by simp, by simp⟩
    intro j hj
    simp only [Pool.get_some]
    rcases Nat.lt_or_ge j t.pool.slots.length with hlt | hge
    · exact getD_append_left _ _ _ _ hlt
    · rw [getD_none_of_le _ hge, getD_none_of_le]
      simp only [List.length_append, List.length_singleton]
      omega
  | cons h0 tl =>
    rw [hfl] at halloc
    cases halloc
    have hh0 := hfree c (hfl ▸ List.mem_cons_self _ _)
    rcases List.nodup_cons.mp (hfl ▸ hnd) with ⟨hnotin, hndtl⟩
    refine ⟨hh0.2, ?_, ?_, rfl, ⟨hndtl, ?_⟩, by simp, by simp⟩
    · simp only [Pool.get_some]
      exact getD_set_self _ _ _ _ hh0.1
    · intro j hj
      simp only [Pool.get_some]
      exact getD_set_ne _ _ _ (fun he => hj he.symm)
    · intro i hi
      have hit := hfree i (hfl ▸ List.mem_cons_of_mem _ hi)
      have hic : i ≠ c := fun he => hnotin (he ▸ hi)
      simp only [List.length_set]
      exact ⟨hit.1, by rw [getD_set_ne _ _ _ (fun he => hic he.symm)]; exact hit.2⟩

theorem poolFree_spec {α : Type} (t : Tree α) (i : Nat) (n : Node α)
    (hocc : t.pool.get (some i) = some n) (hw : PoolWF t.pool) :
    t.poolFree (some i) =
      .ok ⟨t.root, ⟨t.pool.slots.set i none, i :: t.pool.freeList⟩⟩ ∧
    (⟨t.root, ⟨t.pool.slots.set i none, i :: t.pool.freeList⟩⟩ : Tree α).pool.get (some i) = none ∧
    (∀ j, j ≠ i → (⟨t.root, ⟨t.pool.slots.set i none, i :: t.pool.freeList⟩⟩ : Tree α).pool.get (some j) = t.pool.get (some j)) ∧
    PoolWF (⟨t.pool.slots.set i none, i :: t.pool.freeList⟩ : Pool α) := by
  have hlt : i < t.pool.slots.length := t.pool.get_lt_length i n hocc
  simp only [Pool.get_some] at hocc
  refine ⟨?_, ?_, ?_, ?_⟩
  · unfold Tree.poolFree Pool.free
    simp only [hocc]
  · simp only [Pool.get_some]
    exact getD_set_self _ _ _ _ hlt
  · intro j hj
    simp only [Pool.get_some]
    exact getD_set_ne _ _ _ (fun he => hj he.symm)
  · rcases hw with ⟨hnd, hfree⟩
    constructor
    · refine List.nodup_cons.mpr ⟨?_, hnd⟩
      intro hmem
      rw [(hfree i hmem).2] at hocc
      cases hocc
    · intro j hj
      simp only [List.length_set]
      rcases List.mem_cons.mp hj with hj | hj
      · subst hj
        exact ⟨hlt, getD_set_self _ _ _ _ hlt⟩
      · have hjt := hfree j hj
        have hji : j ≠ i := by
          intro he
          rw [he, hocc] at hjt
          cases hjt.2
        exact ⟨hjt.1, by rw [getD_set_ne _ _ _ (fun he => hji he.symm)]; exact hjt.2⟩

theorem PoolWF_modify {α : Type} (t : Tree α) (i : Nat) (f : Node α → Node α)
    (hw : PoolWF t.pool) : PoolWF (t.modify i f).pool := by
  unfold Tree.modify
  cases hg : t.pool.slots.getD i none with
  | none => exact hw
  | some n =>
    rcases hw with ⟨hnd, hfree⟩
    refine ⟨hnd, ?_⟩
    intro j hj
    have hjt := hfree j hj
    have hji : j ≠ i := by
      intro he
      rw [he, hg] at hjt
      cases hjt.2
    simp only [List.length_set]
    exact ⟨hjt.1, by rw [getD_set_ne _ _ _ (fun he => hji he.symm)]; exact hjt.2⟩


theorem Pool.idValid_eq_true {α : Type} {p : Pool α} {id : Option Nat} {n : Node α}
    (h : p.get id = some n) : p.idValid id = true := by
  unfold Pool.idValid
  rw [h]
  rfl

/-- Core behavior of gTree_addExistChild on ids that are not part of each
other's chain: success, the child is re-linked behind the last existing
child (its parent and sibling overwritten), everything else untouched. -/
theorem addExistChild_spec {α : Type} {t : Tree α} {nodeId childId : Nat}
    {nd cd : Node α} {L : List Nat}
    (hnode : t.pool.get (some nodeId) = some nd)
    (hchild : t.pool.get (some childId) = some cd)
    (hch : ChainRel t nd.child L)
    (hcnotL : childId ∉ L) (hcnode : childId ≠ nodeId) (hnnotL : nodeId ∉ L) :
    ∃ t', gTree_addExistChild t nodeId childId = .ok t' ∧
      t'.root = t.root ∧
      t'.pool.slots.length = t.pool.slots.length ∧
      t'.pool.freeList = t.pool.freeList ∧
      t'.pool.get (some childId) = some { cd with parent := some nodeId, sibling := none } ∧
      (∃ nd', t'.pool.get (some nodeId) = some nd' ∧ nd'.data = nd.data ∧
        nd'.parent = nd.parent ∧ nd'.sibling = nd.sibling ∧
        ChainRel t' nd'.child (L ++ [childId])) ∧
      childSeq t' nodeId = some (L ++ [childId]) ∧
      (∀ j, j ≠ nodeId → j ≠ childId → j ∉ L → t'.pool.get (some j) = t.pool.get (some j)) ∧
      (∀ j ∈ L, L.getLast? ≠ some j → t'.pool.get (some j) = t.pool.get (some j)) ∧
      (∀ last lastN, L.getLast? = some last → t.pool.get (some last) = some lastN →
        t'.pool.get (some last) = some { lastN with sibling := some childId }) := by
  unfold gTree_addExistChild
  rw [Pool.idValid_eq_true hnode, Pool.idValid_eq_true hchild]
  simp only [if_true, Res.bind_eq_bind, Tree.getNode_eq_ok _ _ _ hnode, Res.bind_ok,
    Tree.getNode_eq_ok _ _ _ hchild]
  cases hc : nd.child with
  | none =>
    rw [hc] at hch
    cases hch.none_eq_nil
    simp only [Res.bind_ok]
    refine ⟨_, rfl, ?_, ?_, ?_, ?_, ?_, ?_, ?_, ?_, ?_⟩
    · simp [Tree.wChild, Tree.wParent, Tree.wSibling]
    · simp [Tree.wChild, Tree.wParent, Tree.wSibling]
    · simp [Tree.wChild, Tree.wParent, Tree.wSibling]
    · have h1 : (t.wChild nodeId (some childId)).pool.get (some childId) = some cd := by
        rw [t.get_wChild_ne _ _ (Ne.symm hcnode)]; exact hchild
      have h2 := (t.wChild nodeId (some childId)).get_wParent_self childId (some nodeId) _ h1
      exact ((t.wChild nodeId (some childId)).wParent childId (some nodeId)).get_wSibling_self
        childId none _ h2
    · refine ⟨{ nd with child := some childId }, ?_, rfl, rfl, rfl, ?_⟩
      · have h1 := t.get_wChild_self nodeId (some childId) _ hnode
        rw [Tree.get_wSibling_ne _ _ _ hcnode, Tree.get_wParent_ne _ _ _ hcnode]
        exact h1
      · simp only
        have h1 : (t.wChild nodeId (some childId)).pool.get (some childId) = some cd := by
          rw [t.get_wChild_ne _ _ (Ne.symm hcnode)]; exact hchild
        have h2 := (t.wChild nodeId (some childId)).get_wParent_self childId (some nodeId) _ h1
        have h3 := ((t.wChild nodeId (some childId)).wParent childId (some nodeId)).get_wSibling_self
          childId none _ h2
        exact .cons h3 .nil
    · have h1 := t.get_wChild_self nodeId (some childId) _ hnode
      have hnode' : (((t.wChild nodeId (some childId)).wParent childId (some nodeId)).wSibling
          childId none).pool.get (some nodeId) = some { nd with child := some childId } := by
        rw [Tree.get_wSibling_ne _ _ _ hcnode, Tree.get_wParent_ne _ _ _ hcnode]
        exact h1
      refine childSeq_complete hnode' ?_
      simp only
      have h1c : (t.wChild nodeId (some childId)).pool.get (some childId) = some cd := by
        rw [t.get_wChild_ne _ _ (Ne.symm hcnode)]; exact hchild
      have h2 := (t.wChild nodeId (some childId)).get_wParent_self childId (some nodeId) _ h1c
      have h3 := ((t.wChild nodeId (some childId)).wParent childId (some nodeId)).get_wSibling_self
        childId none _ h2
      exact .cons h3 .nil
    · intro j hj1 hj2 _
      rw [Tree.get_wSibling_ne _ _ _ (Ne.symm hj2), Tree.get_wParent_ne _ _ _ (Ne.symm hj2),
        Tree.get_wChild_ne _ _ _ (Ne.symm hj1)]
    · intro j hj
      cases hj
    · intro last lastN hlast
      cases hlast
  | some s =>
    rw [hc] at hch
    have hLne : L ≠ [] := by cases hch; exact List.cons_ne_nil _ _
    obtain ⟨last, hlast⟩ : ∃ last, L.getLast? = some last :=
      ⟨L.getLast hLne, List.getLast?_eq_getLast_of_ne_nil hLne⟩
    have hlastmem : last ∈ L := mem_of_getLast?_eq hlast
    obtain ⟨lastN, hlastN⟩ := hch.mem_get last hlastmem
    have hlc : last ≠ childId := fun he => hcnotL (he ▸ hlastmem)
    have hln : last ≠ nodeId := fun he => hnnotL (he ▸ hlastmem)
    have hwalk : lastSibF t.cfuel t s = .ok last := by
      refine lastSibF_spec hch rfl hlast t.cfuel ?_
      have := hch.length_le
      unfold Tree.cfuel
      omega
    simp only [hwalk, Res.bind_ok]
    set t1 := t.wSibling last (some childId) with ht1
    have h1last : t1.pool.get (some last) = some { lastN with sibling := some childId } :=
      t.get_wSibling_self last (some childId) _ hlastN
    have h1child : t1.pool.get (some childId) = some cd := by
      rw [t.get_wSibling_ne _ _ hlc]; exact hchild
    have h1node : t1.pool.get (some nodeId) = some nd := by
      rw [t.get_wSibling_ne _ _ hln]; exact hnode
    set t2 := t1.wParent childId (some nodeId) with ht2
    have h2child : t2.pool.get (some childId) = some { cd with parent := some nodeId } :=
      t1.get_wParent_self childId (some nodeId) _ h1child
    set tF := t2.wSibling childId none with htF
    have hFchild : tF.pool.get (some childId) =
        some { cd with parent := some nodeId, sibling := none } :=
      t2.get_wSibling_self childId none _ h2child
    have hFnode : tF.pool.get (some nodeId) = some nd := by
      rw [htF, Tree.get_wSibling_ne _ _ _ hcnode, ht2, Tree.get_wParent_ne _ _ _ hcnode]
      exact h1node
    have hFlast : tF.pool.get (some last) = some { lastN with sibling := some childId } := by
      rw [htF, Tree.get_wSibling_ne _ _ _ (Ne.symm hlc), ht2,
        Tree.get_wParent_ne _ _ _ (Ne.symm hlc)]
      exact h1last
    have hframe : ∀ j, j ≠ last → j ≠ childId → tF.pool.get (some j) = t.pool.get (some j) := by
      intro j hj1 hj2
      rw [htF, Tree.get_wSibling_ne _ _ _ (Ne.symm hj2), ht2,
        Tree.get_wParent_ne _ _ _ (Ne.symm hj2), ht1, Tree.get_wSibling_ne _ _ _ (Ne.symm hj1)]
    have hchainF : ChainRel tF (some s) (L ++ [childId]) := by
      refine hch.snoc hlast ?_ ?_ hFchild rfl hcnotL
      · intro i hi hine
        exact hframe i hine (fun he => hcnotL (he ▸ hi))
      · intro n hn
        rw [hlastN] at hn
        cases hn
        exact hFlast
    refine ⟨tF, rfl, ?_, ?_, ?_, hFchild, ⟨nd, hFnode, rfl, rfl, rfl, hc ▸ hchainF⟩, ?_, ?_, ?_, ?_⟩
    · rw [htF, ht2, ht1]; simp [Tree.wSibling, Tree.wParent]
    · rw [htF, ht2, ht1]; simp [Tree.wSibling, Tree.wParent]
    · rw [htF, ht2, ht1]; simp [Tree.wSibling, Tree.wParent]
    · exact childSeq_complete hFnode (hc ▸ hchainF)
    · intro j hj1 hj2 hj3
      exact hframe j (fun he => hj3 (he ▸ hlastmem)) hj2
    · intro j hj hjne
      refine hframe j (fun he => hjne (he ▸ hlast)) (fun he => hcnotL (he ▸ hj))
    · intro l lN hl hlN
      rw [hlast] at hl
      cases hl
      rw [hlastN] at hlN
      cases hlN
      exact hFlast

/-- Core behavior of gTree_addChild on a well-formed pool: a fresh slot
is allocated, filled with the payload, and appended as last child. -/
theorem addChild_spec {α : Type} [Inhabited α] {t : Tree α} {nodeId : Nat}
    {nd : Node α} {L : List Nat} (d : α)
    (hw : PoolWF t.pool)
    (hnode : t.pool.get (some nodeId) = some nd)
    (hch : ChainRel t nd.child L) (hnnotL : nodeId ∉ L) :
    ∃ t' newId, gTree_addChild t nodeId d = .ok (t', newId) ∧
      t.pool.get (some newId) = none ∧
      t'.pool.get (some newId) =
        some { data := d, child := none, parent := some nodeId, sibling := none } ∧
      (∃ nd', t'.pool.get (some nodeId) = some nd' ∧ nd'.data = nd.data ∧
        nd'.parent = nd.parent ∧ nd'.sibling = nd.sibling ∧
        ChainRel t' nd'.child (L ++ [newId])) ∧
      childSeq t' nodeId = some (L ++ [newId]) ∧
      (∀ j, j ≠ nodeId → j ≠ newId → j ∉ L → t'.pool.get (some j) = t.pool.get (some j)) ∧
      (∀ j ∈ L, L.getLast? ≠ some j → t'.pool.get (some j) = t.pool.get (some j)) ∧
      (∀ last lastN, L.getLast? = some last → t.pool.get (some last) = some lastN →
        t'.pool.get (some last) = some { lastN with sibling := some newId }) ∧
      t'.root = t.root ∧
      PoolWF t'.pool ∧
      t.pool.slots.length ≤ t'.pool.slots.length ∧
      t'.pool.freeList.Sublist t.pool.freeList ∧
      (t.pool.freeList = [] →
        newId = t.pool.slots.length ∧
        t'.pool.slots.length = t.pool.slots.length + 1 ∧
        t'.pool.freeList = []) := by
  unfold gTree_addChild
  rw [Pool.idValid_eq_true hnode]
  simp only [if_true]
  cases halloc : t.allocNode with
  | mk t1 newId =>
    obtain ⟨hfresh, h1new, h1frame, h1root, h1wf, h1len, h1sub⟩ := allocNode_spec t hw halloc
    have hnn : nodeId ≠ newId := by
      intro he
      rw [he, hfresh] at hnode
      cases hnode
    have hLnotNew : newId ∉ L := by
      intro hmem
      rcases hch.mem_get newId hmem with ⟨x, hx⟩
      rw [hfresh] at hx
      cases hx
    set t2 := t1.wData newId d with ht2
    have h2new : t2.pool.get (some newId) =
        some { data := d, child := none, parent := none, sibling := none } :=
      t1.get_wData_self newId d _ h1new
    have h2frame : ∀ j, j ≠ newId → t2.pool.get (some j) = t.pool.get (some j) := by
      intro j hj
      rw [ht2, Tree.get_wData_ne _ _ _ (Ne.symm hj)]
      exact h1frame j hj
    have h2node : t2.pool.get (some nodeId) = some nd := by
      rw [h2frame nodeId hnn]; exact hnode
    have h2ch : ChainRel t2 nd.child L := by
      refine hch.congr ?_
      intro i hi
      refine h2frame i (fun he => hLnotNew (he ▸ hi))
    obtain ⟨t3, hok, h3root, h3len, h3fl, h3child, ⟨nd', h3node, hdata, hpar, hsib, h3ch⟩,
      h3seq, h3frame, h3mem, h3last⟩ :=
      addExistChild_spec h2node h2new h2ch hLnotNew (Ne.symm hnn) hnnotL
    rw [Res.bind_eq_bind, Tree.getNode_eq_ok _ _ _ h1new, Res.bind_ok]
    simp only [Res.bind_eq_bind, hok, Res.bind_ok]
    have h2wf : PoolWF t2.pool := PoolWF_modify _ _ _ h1wf
    have h3framefull : ∀ j, j ≠ nodeId → j ≠ newId → j ∉ L →
        t3.pool.get (some j) = t.pool.get (some j) := by
      intro j hj1 hj2 hj3
      rw [h3frame j hj1 hj2 hj3]
      exact h2frame j hj2
    refine ⟨t3, newId, rfl, hfresh, ?_, ⟨nd', h3node, hdata, hpar, hsib, h3ch⟩, h3seq,
      h3framefull, ?_, ?_, ?_, ?_, ?_, ?_, ?_⟩
    · rw [h3child]
    · intro j hj hjne
      rw [h3mem j hj hjne]
      exact h2frame j (fun he => hLnotNew (he ▸ hj))
    · intro last lastN hlast hlastN
      have hlm : last ∈ L := mem_of_getLast?_eq hlast
      have h2lastN : t2.pool.get (some last) = some lastN := by
        rw [h2frame last (fun he => hLnotNew (he ▸ hlm))]
        exact hlastN
      exact h3last last lastN hlast h2lastN
    · rw [h3root, ← h1root, ht2]
      simp [Tree.wData]
    · constructor
      · rw [h3fl, ht2]
        simpa using h2wf.1
      · intro i hi
        rw [h3fl] at hi
        have hit := h2wf.2 i hi
        have hfree2 : t2.pool.get (some i) = none := hit.2
        have hioc : i ≠ nodeId := by
          intro he
          rw [he, h2node] at hfree2
          cases hfree2
        have hinew : i ≠ newId := by
          intro he
          rw [he, h2new] at hfree2
          cases hfree2
        have hinL : i ∉ L := by
          intro hmem
          rcases h2ch.mem_get i hmem with ⟨x, hx⟩
          rw [hx] at hfree2
          cases hfree2
        constructor
        · rw [h3len]
          exact hit.1
        · have hfr := h3frame i hioc hinew hinL
          have hres : t3.pool.get (some i) = none := by rw [hfr]; exact hfree2
          exact hres
    · rw [h3len, ht2]
      simpa [Tree.wData] using h1len
    · rw [h3fl, ht2]
      simpa [Tree.wData] using h1sub
    · intro hemp
      have := allocNode_empty t hemp
      rw [this] at halloc
      cases halloc
      refine ⟨rfl, ?_, ?_⟩
      · rw [h3len, ht2]
        simp [Tree.wData]
      · rw [h3fl, ht2]
        simp [Tree.wData]

/-- C4: on a well-formed pool, a successful gTree_addChild(n, v) yields a
fresh id c whose node has parent n, payload v, child and sibling NONE,
and c becomes the last element of n's child sequence while the existing
children keep their order. -/
theorem gTree_addChild_correct {α : Type} [Inhabited α] {t : Tree α} {n : Nat}
    {nd : Node α} {L : List Nat} (v : α)
    (hw : PoolWF t.pool) (hn : t.pool.get (some n) = some nd)
    (hseq : childSeq t n = some L) (hself : n ∉ L) :
    ∃ t' c, gTree_addChild t n v = .ok (t', c) ∧
      t.pool.get (some c) = none ∧
      t'.pool.get (some c) =
        some { data := v, child := none, parent := some n, sibling := none } ∧
      childSeq t' n = some (L ++ [c]) := by
  obtain ⟨nd0, hnd0, hch⟩ := childSeq_sound hseq
  rw [hn] at hnd0
  cases hnd0
  obtain ⟨t', c, hok, hfresh, hcnode, _, hseq', _⟩ :=
    addChild_spec v hw hn hch hself
  exact ⟨t', c, hok, hfresh, hcnode, hseq'⟩

/-- Witness for C4: adding payload 99 under the root of a two-node tree
appends a node 2 behind child 1. -/
theorem gTree_addChild_correct_witness :
    PoolWF exTree2.pool ∧
    exTree2.pool.get (some 0) = some ⟨0, some 1, none, none⟩ ∧
    childSeq exTree2 0 = some [1] ∧ (0 : Nat) ∉ [1] ∧
    (∃ t' c, gTree_addChild exTree2 0 (99 : Int) = .ok (t', c) ∧
      exTree2.pool.get (some c) = none ∧
      t'.pool.get (some c) =
        some { data := 99, child := none, parent := some 0, sibling := none } ∧
      childSeq t' 0 = some ([1] ++ [c])) := by
  have hw : PoolWF exTree2.pool := ⟨List.nodup_nil, by intro i hi; cases hi⟩
  exact ⟨hw, by decide, by decide, by decide,
    @gTree_addChild_correct Int _ exTree2 0 ⟨0, some 1, none, none⟩ [1] 99 hw
      (by decide) (by decide) (by decide)⟩

/-- C10: gTree_addExistChild succeeds for any pair of allocated ids (not
already in each other's child chain) without any detachment check — the
`gTree_status` enum has no NotDetached-style code — overwriting the
child's parent with nodeId and its sibling with NONE and appending it as
the last child; every other slot, in particular a former parent or
sibling still pointing at childId, is left untouched. -/
theorem gTree_addExistChild_no_detach_check {α : Type} {t : Tree α}
    {nodeId childId : Nat} {nd cd : Node α} {L : List Nat}
    (hnode : t.pool.get (some nodeId) = some nd)
    (hchild : t.pool.get (some childId) = some cd)
    (hseq : childSeq t nodeId = some L)
    (hc1 : childId ∉ L) (hc2 : childId ≠ nodeId) (hc3 : nodeId ∉ L) :
    ∃ t', gTree_addExistChild t nodeId childId = .ok t' ∧
      childSeq t' nodeId = some (L ++ [childId]) ∧
      t'.pool.get (some childId) =
        some { cd with parent := some nodeId, sibling := none } ∧
      (∀ j, j ≠ nodeId → j ≠ childId → j ∉ L →
        t'.pool.get (some j) = t.pool.get (some j)) := by
  obtain ⟨nd0, hnd0, hch⟩ := childSeq_sound hseq
  rw [hnode] at hnd0
  cases hnd0
  obtain ⟨t', hok, _, _, _, hcslot, _, hseq', hframe, _, _⟩ :=
    addExistChild_spec hnode hchild hch hc1 hc2 hc3
  exact ⟨t', hok, hseq', hcslot, hframe⟩

/-- Witness for C10 with an attached child: node 2 is still the child of
node 1 when it is appended under the root; afterwards node 1 still points
at it. -/
theorem gTree_addExistChild_no_detach_check_witness :
    exTree3.pool.get (some 0) = some ⟨0, some 1, none, none⟩ ∧
    exTree3.pool.get (some 2) = some ⟨22, none, some 1, none⟩ ∧
    childSeq exTree3 0 = some [1] ∧
    (2 : Nat) ∉ [1] ∧ (2 : Nat) ≠ 0 ∧ (0 : Nat) ∉ [1] ∧
    (∃ t', gTree_addExistChild exTree3 0 2 = .ok t' ∧
      childSeq t' 0 = some ([1] ++ [2]) ∧
      t'.pool.get (some 2) = some ⟨22, none, some 0, none⟩ ∧
      (∀ j, j ≠ 0 → j ≠ 2 → j ∉ [1] →
        t'.pool.get (some j) = exTree3.pool.get (some j))) :=
  ⟨by decide, by decide, by decide, by decide, by decide, by decide,
    @gTree_addExistChild_no_detach_check Int exTree3 0 2 ⟨0, some 1, none, none⟩
      ⟨22, none, some 1, none⟩ [1] (by decide) (by decide) (by decide)
      (by decide) (by decide) (by decide)⟩

theorem ChainRel.nil_inv {α : Type} {t : Tree α} {c : Option Nat}
    (h : ChainRel t c []) : c = none := by
  cases h
  rfl

/-- The last node of a sibling chain has sibling NONE. -/
theorem ChainRel.last_sibling_none {α : Type} {t : Tree α} {c : Option Nat}
    {M : List Nat} {last : Nat} {lastN : Node α}
    (h : ChainRel t c M) (hlast : M.getLast? = some last)
    (hg : t.pool.get (some last) = some lastN) : lastN.sibling = none := by
  have hmem : last ∈ M := mem_of_getLast?_eq hlast
  rcases h.suffix_of_mem last hmem with ⟨B, hB, P, hP⟩
  have hBnil : B = [] := by
    by_contra hne
    have hnd := h.nodup
    rw [hP] at hnd hlast
    have hlast2 : (last :: B).getLast? = some last := by
      rcases List.exists_cons_of_ne_nil hne with ⟨b, B', hB'⟩
      rw [List.getLast?_append_of_ne_nil] at hlast
      · exact hlast
      · exact List.cons_ne_nil _ _
    have hmemB : last ∈ B := by
      cases hB2 : B with
      | nil => exact absurd hB2 hne
      | cons b B' =>
        rw [hB2] at hlast2
        rw [List.getLast?_cons_cons] at hlast2
        exact mem_of_getLast?_eq hlast2
    have := List.Nodup.of_append_right hnd
    rcases List.nodup_cons.mp this with ⟨hnotin, _⟩
    exact hnotin hmemB
  subst hBnil
  cases hB with
  | cons hg2 htail =>
    rw [hg] at hg2
    cases hg2
    exact htail.nil_inv

/-- C6: gTree_addSibling allocates a node and links it after the LAST
node of the sibling chain walked forward from siblingId (not right after
siblingId), and the new node's parent is the parent of that last
sibling. -/
theorem gTree_addSibling_correct {α : Type} [Inhabited α] {t : Tree α}
    {s : Nat} {M : List Nat} (v : α)
    (hw : PoolWF t.pool)
    (hchain : chainF t.cfuel t (some s) = some M) :
    ∃ t' c last lastN, gTree_addSibling t s v = .ok (t', c) ∧
      t.pool.get (some c) = none ∧
      M.getLast? = some last ∧
      t.pool.get (some last) = some lastN ∧ lastN.sibling = none ∧
      t'.pool.get (some last) = some { lastN with sibling := some c } ∧
      t'.pool.get (some c) =
        some { data := v, child := none, parent := lastN.parent, sibling := none } ∧
      chainF t'.cfuel t' (some s) = some (M ++ [c]) := by
  have hch := chainF_sound hchain
  have hMne : M ≠ [] := by cases hch; exact List.cons_ne_nil _ _
  obtain ⟨last, hlast⟩ : ∃ last, M.getLast? = some last :=
    ⟨M.getLast hMne, List.getLast?_eq_getLast_of_ne_nil hMne⟩
  have hlastmem : last ∈ M := mem_of_getLast?_eq hlast
  obtain ⟨lastN, hlastN⟩ := hch.mem_get last hlastmem
  have hsibnone : lastN.sibling = none := hch.last_sibling_none hlast hlastN
  obtain ⟨n0, hn0⟩ : ∃ n0, t.pool.get (some s) = some n0 := by
    cases hch with
    | cons hg htail => exact ⟨_, hg⟩
  unfold gTree_addSibling
  rw [Pool.idValid_eq_true hn0]
  simp only [if_true]
  cases halloc : t.allocNode with
  | mk t1 c =>
    obtain ⟨hfresh, h1new, h1frame, h1root, h1wf, h1len, h1sub⟩ := allocNode_spec t hw halloc
    have hMnotc : c ∉ M := by
      intro hmem
      rcases hch.mem_get c hmem with ⟨x, hx⟩
      rw [hfresh] at hx
      cases hx
    have hsc : s ≠ c := by
      intro he
      rw [he, hfresh] at hn0
      cases hn0
    have hlc : last ≠ c := fun he => hMnotc (he ▸ hlastmem)
    have h1s : t1.pool.get (some s) = some n0 := by rw [h1frame s hsc]; exact hn0
    have h1last : t1.pool.get (some last) = some lastN := by
      rw [h1frame last hlc]; exact hlastN
    have h1ch : ChainRel t1 (some s) M := by
      refine hch.congr ?_
      intro i hi
      exact h1frame i (fun he => hMnotc (he ▸ hi))
    have hwalk : lastSibF t1.cfuel t1 s = .ok last := by
      refine lastSibF_spec h1ch rfl hlast t1.cfuel ?_
      have := h1ch.length_le
      unfold Tree.cfuel
      omega
    rw [Res.bind_eq_bind, Tree.getNode_eq_ok _ _ _ h1s, Res.bind_ok,
      Res.bind_eq_bind, Tree.getNode_eq_ok _ _ _ h1new, Res.bind_ok,
      Res.bind_eq_bind, hwalk, Res.bind_ok]
    set t2 := t1.wSibling last (some c) with ht2
    have h2last : t2.pool.get (some last) = some { lastN with sibling := some c } :=
      t1.get_wSibling_self last (some c) _ h1last
    have h2c : t2.pool.get (some c) = some defaultNode := by
      rw [ht2, Tree.get_wSibling_ne _ _ _ hlc]
      exact h1new
    rw [Res.bind_eq_bind, Tree.getNode_eq_ok _ _ _ h2last, Res.bind_ok]
    have h3c : (((t2.wParent c lastN.parent).wChild c none).wSibling c none).pool.get (some c) =
        some { data := (defaultNode : Node α).data, child := none, parent := lastN.parent, sibling := none } := by
      have p1 := t2.get_wParent_self c lastN.parent _ h2c
      have p2 := (t2.wParent c lastN.parent).get_wChild_self c none _ p1
      exact ((t2.wParent c lastN.parent).wChild c none).get_wSibling_self c none _ p2
    have hFc : ((((t2.wParent c lastN.parent).wChild c none).wSibling c none).wData c v).pool.get (some c) =
        some { data := v, child := none, parent := lastN.parent, sibling := none } := by
      have := (((t2.wParent c lastN.parent).wChild c none).wSibling c none).get_wData_self c v _ h3c
      exact this
    have hFlast : ((((t2.wParent c lastN.parent).wChild c none).wSibling c none).wData c v).pool.get (some last) =
        some { lastN with sibling := some c } := by
      rw [Tree.get_wData_ne _ _ _ (Ne.symm hlc), Tree.get_wSibling_ne _ _ _ (Ne.symm hlc),
        Tree.get_wChild_ne _ _ _ (Ne.symm hlc), Tree.get_wParent_ne _ _ _ (Ne.symm hlc)]
      exact h2last
    have hFframe : ∀ j, j ≠ last → j ≠ c →
        ((((t2.wParent c lastN.parent).wChild c none).wSibling c none).wData c v).pool.get (some j) =
          t.pool.get (some j) := by
      intro j hj1 hj2
      rw [Tree.get_wData_ne _ _ _ (Ne.symm hj2), Tree.get_wSibling_ne _ _ _ (Ne.symm hj2),
        Tree.get_wChild_ne _ _ _ (Ne.symm hj2), Tree.get_wParent_ne _ _ _ (Ne.symm hj2),
        ht2, Tree.get_wSibling_ne _ _ _ (Ne.symm hj1)]
      exact h1frame j hj2
    have hFchain : ChainRel ((((t2.wParent c lastN.parent).wChild c none).wSibling c none).wData c v)
        (some s) (M ++ [c]) := by
      refine hch.snoc hlast ?_ ?_ hFc rfl hMnotc
      · intro i hi hine
        exact hFframe i hine (fun he => hMnotc (he ▸ hi))
      · intro n hn
        rw [hlastN] at hn
        cases hn
        exact hFlast
    refine ⟨(((t2.wParent c lastN.parent).wChild c none).wSibling c none).wData c v, c,
      last, lastN, rfl, hfresh, hlast, hlastN, hsibnone, hFlast, hFc, ?_⟩
    refine chainF_complete hFchain _ ?_
    have := hFchain.length_le
    unfold Tree.cfuel
    omega

/-- Witness for C6: in exTree1 the chain from child 1 is [1, 2]; the new
sibling is appended after node 2 (not after node 1) and inherits node
2's parent. -/
theorem gTree_addSibling_correct_witness :
    PoolWF exTree1.pool ∧
    chainF exTree1.cfuel exTree1 (some 1) = some [1, 2] ∧
    (∃ t' c last lastN, gTree_addSibling exTree1 1 (55 : Int) = .ok (t', c) ∧
      exTree1.pool.get (some c) = none ∧
      ([1, 2] : List Nat).getLast? = some last ∧
      exTree1.pool.get (some last) = some lastN ∧ lastN.sibling = none ∧
      t'.pool.get (some last) = some { lastN with sibling := some c } ∧
      t'.pool.get (some c) =
        some { data := 55, child := none, parent := lastN.parent, sibling := none } ∧
      chainF t'.cfuel t' (some 1) = some ([1, 2] ++ [c])) := by
  have hw : PoolWF exTree1.pool := ⟨List.nodup_nil, by intro i hi; cases hi⟩
  exact ⟨hw, by decide,
    @gTree_addSibling_correct Int _ exTree1 1 [1, 2] 55 hw (by decide)⟩

theorem extractF_shape {α : Type} {fuel : Nat} {t : Tree α} {id : Nat}
    {rt : Rose (Nat × α)} (h : extractF fuel t id = some rt) :
    ∃ k n cs, fuel = k + 1 ∧ t.pool.get (some id) = some n ∧
      extractChainF k t n.child = some cs ∧ rt = .node (id, n.data) cs := by
  cases fuel with
  | zero => cases h
  | succ k =>
    unfold extractF at h
    cases hg : t.pool.get (some id) with
    | none => rw [hg] at h; cases h
    | some n =>
      rw [hg] at h
      simp only [Option.bind_eq_bind, Option.some_bind] at h
      cases hc : extractChainF k t n.child with
      | none => rw [hc] at h; cases h
      | some cs =>
        rw [hc] at h
        simp only [Option.some_bind, Option.some_inj] at h
        exact ⟨k, n, cs, rfl, rfl, hc, h.symm⟩

theorem extractChainF_shape_cons {α : Type} {fuel : Nat} {t : Tree α} {c : Nat}
    {ks : List (Rose (Nat × α))} (h : extractChainF fuel t (some c) = some ks) :
    ∃ k rt n rest, fuel = k + 1 ∧ extractF k t c = some rt ∧
      t.pool.get (some c) = some n ∧ extractChainF k t n.sibling = some rest ∧
      ks = rt :: rest := by
  cases fuel with
  | zero => cases h
  | succ k =>
    unfold extractChainF at h
    cases hr : extractF k t c with
    | none => rw [hr] at h; cases h
    | some rt =>
      rw [hr] at h
      simp only [Option.bind_eq_bind, Option.some_bind] at h
      cases hg : t.pool.get (some c) with
      | none => rw [hg] at h; cases h
      | some n =>
        rw [hg] at h
        simp only [Option.some_bind] at h
        cases hrest : extractChainF k t n.sibling with
        | none => rw [hrest] at h; cases h
        | some rest =>
          rw [hrest] at h
          simp only [Option.some_bind, Option.some_inj] at h
          exact ⟨k, rt, n, rest, rfl, hr, rfl, hrest, h.symm⟩

theorem extractChainF_none {α : Type} {fuel : Nat} {t : Tree α}
    {ks : List (Rose (Nat × α))} (h : extractChainF fuel t none = some ks) :
    ks = [] := by
  cases fuel with
  | zero => cases h
  | succ k =>
    unfold extractChainF at h
    cases h
    rfl

theorem extractF_topId {α : Type} {fuel : Nat} {t : Tree α} {id : Nat}
    {rt : Rose (Nat × α)} (h : extractF fuel t id = some rt) :
    rt.topId = id := by
  obtain ⟨k, n, cs, _, _, _, hrt⟩ := extractF_shape h
  rw [hrt]
  rfl

theorem extractF_mem_topId {α : Type} {fuel : Nat} {t : Tree α} {id : Nat}
    {rt : Rose (Nat × α)} (h : extractF fuel t id = some rt) :
    id ∈ Rose.ids rt := by
  obtain ⟨k, n, cs, _, _, _, hrt⟩ := extractF_shape h
  rw [hrt]
  unfold Rose.ids
  exact List.mem_cons_self _ _

/-- Reading a subtree only looks at the slots named in the result, so
any tree agreeing on those slots extracts the same subtree. -/
theorem extract_congr {α : Type} (t t' : Tree α) : ∀ fuel : Nat,
    (∀ {id : Nat} {rt : Rose (Nat × α)}, extractF fuel t id = some rt →
      (∀ j ∈ Rose.ids rt, t'.pool.get (some j) = t.pool.get (some j)) →
      extractF fuel t' id = some rt) ∧
    (∀ {cid : Option Nat} {ks : List (Rose (Nat × α))},
      extractChainF fuel t cid = some ks →
      (∀ j ∈ Rose.idsL ks, t'.pool.get (some j) = t.pool.get (some j)) →
      extractChainF fuel t' cid = some ks) := by
  intro fuel
  induction fuel with
  | zero =>
    constructor
    · intro id rt h
      cases h
    · intro cid ks h
      cases h
  | succ k ih =>
    constructor
    · intro id rt h hfr
      obtain ⟨k', n, cs, hk, hg, hc, hrt⟩ := extractF_shape h
      cases hk
      subst hrt
      have hids : ∀ j ∈ Rose.idsL cs, t'.pool.get (some j) = t.pool.get (some j) := by
        intro j hj
        refine hfr j ?_
        unfold Rose.ids
        exact List.mem_cons_of_mem _ hj
      have hg' : t'.pool.get (some id) = some n := by
        rw [hfr id (by unfold Rose.ids; exact List.mem_cons_self _ _)]
        exact hg
      unfold extractF
      rw [hg']
      simp only [Option.bind_eq_bind, Option.some_bind]
      rw [ih.2 hc hids]
      simp only [Option.some_bind]
    · intro cid ks h hfr
      cases cid with
      | none =>
        cases extractChainF_none h
        cases k <;> rfl
      | some c =>
        obtain ⟨k', rt, n, rest, hk, hr, hg, hrest, hks⟩ := extractChainF_shape_cons h
        cases hk
        subst hks
        have hidrt : ∀ j ∈ Rose.ids rt, t'.pool.get (some j) = t.pool.get (some j) := by
          intro j hj
          refine hfr j ?_
          unfold Rose.idsL
          exact List.mem_append_left _ hj
        have hidrest : ∀ j ∈ Rose.idsL rest, t'.pool.get (some j) = t.pool.get (some j) := by
          intro j hj
          refine hfr j ?_
          unfold Rose.idsL
          exact List.mem_append_right _ hj
        have hg' : t'.pool.get (some c) = some n := by
          rw [hidrt c (extractF_mem_topId hr)]
          exact hg
        unfold extractChainF
        rw [ih.1 hr hidrt]
        simp only [Option.bind_eq_bind, Option.some_bind]
        rw [hg']
        simp only [Option.some_bind]
        rw [ih.2 hrest hidrest]
        simp only [Option.some_bind]

/-- Extraction succeeds at any larger fuel with the same result. -/
theorem extract_mono {α : Type} (t : Tree α) : ∀ f' f : Nat, f ≤ f' →
    (∀ {id : Nat} {rt : Rose (Nat × α)}, extractF f t id = some rt →
      extractF f' t id = some rt) ∧
    (∀ {cid : Option Nat} {ks : List (Rose (Nat × α))},
      extractChainF f t cid = some ks → extractChainF f' t cid = some ks) := by
  intro f'
  induction f' with
  | zero =>
    intro f hf
    interval_cases f
    constructor
    · intro id rt h
      exact h
    · intro cid ks h
      exact h
  | succ k ih =>
    intro f hf
    constructor
    · intro id rt h
      obtain ⟨k', n, cs, hk, hg, hc, hrt⟩ := extractF_shape h
      subst hk
      subst hrt
      have hc' : extractChainF k t n.child = some cs :=
        (ih k' (by omega)).2 hc
      unfold extractF
      rw [hg]
      simp only [Option.bind_eq_bind, Option.some_bind]
      rw [hc']
      simp only [Option.some_bind]
    · intro cid ks h
      cases cid with
      | none =>
        cases extractChainF_none h
        rfl
      | some c =>
        obtain ⟨k', rt, n, rest, hk, hr, hg, hrest, hks⟩ := extractChainF_shape_cons h
        subst hk
        subst hks
        have hr' : extractF k t c = some rt := (ih k' (by omega)).1 hr
        have hrest' : extractChainF k t n.sibling = some rest := (ih k' (by omega)).2 hrest
        unfold extractChainF
        rw [hr']
        simp only [Option.bind_eq_bind, Option.some_bind]
        rw [hg]
        simp only [Option.some_bind]
        rw [hrest']
        simp only [Option.some_bind]

/-- Correctness of gTree_killSubtree and its child loop on an extracted,
duplicate-free subtree: every subtree slot is freed and every other slot
is untouched. -/
theorem kill_spec {α : Type} : ∀ fuel : Nat,
    (∀ (t : Tree α) (id : Nat) (rt : Rose (Nat × α)), PoolWF t.pool →
      extractF fuel t id = some rt → (Rose.ids rt).Nodup →
      ∃ t', gTree_killSubtree fuel t id = .ok t' ∧
        (∀ j ∈ Rose.ids rt, t'.pool.get (some j) = none) ∧
        (∀ j, j ∉ Rose.ids rt → t'.pool.get (some j) = t.pool.get (some j)) ∧
        t'.root = t.root ∧ PoolWF t'.pool ∧
        t'.pool.slots.length = t.pool.slots.length) ∧
    (∀ (t : Tree α) (cid : Option Nat) (ks : List (Rose (Nat × α))), PoolWF t.pool →
      extractChainF fuel t cid = some ks → (Rose.idsL ks).Nodup →
      ∃ t', killChain fuel t cid = .ok t' ∧
        (∀ j ∈ Rose.idsL ks, t'.pool.get (some j) = none) ∧
        (∀ j, j ∉ Rose.idsL ks → t'.pool.get (some j) = t.pool.get (some j)) ∧
        t'.root = t.root ∧ PoolWF t'.pool ∧
        t'.pool.slots.length = t.pool.slots.length) := by
  intro fuel
  induction fuel with
  | zero =>
    constructor
    · intro t id rt _ h
      cases h
    · intro t cid ks _ h
      cases h
  | succ k ih =>
    constructor
    · intro t id rt hw h hnd
      obtain ⟨k', n, cs, hk, hg, hc, hrt⟩ := extractF_shape h
      cases hk
      subst hrt
      unfold Rose.ids at hnd
      rcases List.nodup_cons.mp hnd with ⟨hidnot, hndcs⟩
      obtain ⟨t1, hok1, hkilled1, hframe1, hroot1, hwf1, hlen1⟩ :=
        ih.2 t n.child cs hw hc hndcs
      have h1id : t1.pool.get (some id) = some n := by
        rw [hframe1 id hidnot]
        exact hg
      obtain ⟨hfree, hfreenone, hfreeframe, hfreewf⟩ := poolFree_spec t1 id n h1id hwf1
      unfold gTree_killSubtree
      rw [Pool.idValid_eq_true hg]
      simp only [if_true, Res.bind_eq_bind, Tree.getNode_eq_ok _ _ _ hg, Res.bind_ok,
        hok1, hfree]
      refine ⟨_, rfl, ?_, ?_, ?_, ?_, ?_⟩
      · intro j hj
        unfold Rose.ids at hj
        rcases List.mem_cons.mp hj with hj | hj
        · subst hj
          exact hfreenone
        · have hjne : j ≠ id := fun he => hidnot (he ▸ hj)
          rw [hfreeframe j hjne]
          exact hkilled1 j hj
      · intro j hj
        unfold Rose.ids at hj
        have hjne : j ≠ id := fun he => hj (he ▸ List.mem_cons_self _ _)
        have hjnotcs : j ∉ Rose.idsL cs := fun hm => hj (List.mem_cons_of_mem _ hm)
        rw [hfreeframe j hjne]
        exact hframe1 j hjnotcs
      · exact hroot1
      · exact hfreewf
      · simp only [List.length_set]
        exact hlen1
    · intro t cid ks hw h hnd
      cases cid with
      | none =>
        cases extractChainF_none h
        refine ⟨t, rfl, ?_, ?_, rfl, hw, rfl⟩
        · intro j hj
          cases hj
        · intro j _
          rfl
      | some c =>
        obtain ⟨k', rt, n, rest, hk, hr, hg, hrest, hks⟩ := extractChainF_shape_cons h
        cases hk
        subst hks
        unfold Rose.idsL at hnd
        have hdisj := List.disjoint_of_nodup_append hnd
        have hndrt := List.Nodup.of_append_left hnd
        have hndrest := List.Nodup.of_append_right hnd
        obtain ⟨t1, hok1, hkilled1, hframe1, hroot1, hwf1, hlen1⟩ :=
          ih.1 t c rt hw hr hndrt
        have hrest1 : extractChainF k t1 n.sibling = some rest := by
          refine (extract_congr t t1 k).2 hrest ?_
          intro j hj
          refine hframe1 j ?_
          intro hm
          exact hdisj hm hj
        obtain ⟨t2, hok2, hkilled2, hframe2, hroot2, hwf2, hlen2⟩ :=
          ih.2 t1 n.sibling rest hwf1 hrest1 hndrest
        unfold killChain
        rw [Res.bind_eq_bind, Tree.getNode_eq_ok _ _ _ hg, Res.bind_ok,
          Res.bind_eq_bind, hok1, Res.bind_ok, hok2]
        refine ⟨t2, rfl, ?_, ?_, ?_, hwf2, ?_⟩
        · intro j hj
          unfold Rose.idsL at hj
          rcases List.mem_append.mp hj with hj | hj
          · rw [hframe2 j (fun hm => hdisj hj hm)]
            exact hkilled1 j hj
          · exact hkilled2 j hj
        · intro j hj
          unfold Rose.idsL at hj
          have hj1 : j ∉ Rose.ids rt := fun hm => hj (List.mem_append_left _ hm)
          have hj2 : j ∉ Rose.idsL rest := fun hm => hj (List.mem_append_right _ hm)
          rw [hframe2 j hj2]
          exact hframe1 j hj1
        · rw [hroot2, hroot1]
        · rw [hlen2, hlen1]

theorem ChainRel.cons_inv {α : Type} {t : Tree α} {c : Option Nat} {x : Nat}
    {R : List Nat} (h : ChainRel t c (x :: R)) :
    c = some x ∧ ∃ n, t.pool.get (some x) = some n ∧ ChainRel t n.sibling R := by
  cases h with
  | cons hg htail => exact ⟨rfl, _, hg, htail⟩

/-- A chain only depends on the existence and sibling field of its
members. -/
theorem ChainRel.congr_sibling {α : Type} {t t' : Tree α} {c : Option Nat}
    {L : List Nat} (h : ChainRel t c L)
    (hfr : ∀ j ∈ L, ∀ n : Node α, t.pool.get (some j) = some n →
      ∃ n' : Node α, t'.pool.get (some j) = some n' ∧ n'.sibling = n.sibling) :
    ChainRel t' c L := by
  induction h with
  | nil => exact .nil
  | @cons i n L' hg htail ih =>
    obtain ⟨n', hn', hsib⟩ := hfr i (List.mem_cons_self _ _) n hg
    refine .cons hn' ?_
    rw [hsib]
    exact ih fun j hj => hfr j (List.mem_cons_of_mem _ hj)

/-- The predecessor search of gTree_replaceNode / gTree_delSubtree finds
the chain member right before `target`. -/
theorem findPrevSib_spec {α : Type} {t : Tree α} :
    ∀ (P : List Nat) {c : Option Nat} {L : List Nat}, ChainRel t c L →
    ∀ {prev target : Nat} {S : List Nat}, L = P ++ prev :: target :: S →
      target ∉ P → target ≠ prev →
      ∀ f, L.length < f → findPrevSib f t c target = .ok prev := by
  intro P
  induction P with
  | nil =>
    intro c L h prev target S hL hnP hnprev f hf
    subst hL
    obtain ⟨hc, n, hg, htail⟩ := h.cons_inv
    obtain ⟨hsib, m, hgt, _⟩ := htail.cons_inv
    subst hc
    cases f with
    | zero => simp at hf
    | succ k =>
      unfold findPrevSib
      rw [Res.bind_eq_bind, Tree.getNode_eq_ok _ _ _ hg, Res.bind_ok, hsib, if_pos rfl]
  | cons q P' ih =>
    intro c L h prev target S hL hnP hnprev f hf
    subst hL
    obtain ⟨hc, n, hg, htail⟩ := h.cons_inv
    subst hc
    have hnsib : n.sibling ≠ some target := by
      cases hP' : P' with
      | nil =>
        rw [hP'] at htail
        obtain ⟨hsib, _⟩ := htail.cons_inv
        rw [hsib]
        intro he
        cases he
        exact hnprev rfl
      | cons r R =>
        rw [hP'] at htail
        obtain ⟨hsib, _⟩ := htail.cons_inv
        rw [hsib]
        intro he
        cases he
        refine hnP ?_
        rw [hP']
        exact List.mem_cons_of_mem _ (List.mem_cons_self _ _)
    cases f with
    | zero => simp at hf
    | succ k =>
      unfold findPrevSib
      rw [Res.bind_eq_bind, Tree.getNode_eq_ok _ _ _ hg, Res.bind_ok, if_neg hnsib]
      refine ih htail rfl (fun hm => hnP (List.mem_cons_of_mem _ hm)) hnprev k ?_
      simp only [List.append_eq, List.length_append, List.length_cons] at hf ⊢
      omega

/-- Removing the chain member after `prev` by rerouting `prev`'s sibling
link to that member's successor yields the chain without it. -/
theorem ChainRel.removeMid {α : Type} {t t' : Tree α} :
    ∀ (P : List Nat) {c : Option Nat} {L : List Nat}, ChainRel t c L →
    ∀ {prev x : Nat} {S : List Nat} {xN prevN : Node α},
      L = P ++ prev :: x :: S →
      t.pool.get (some x) = some xN →
      t.pool.get (some prev) = some prevN →
      (∀ j ∈ P, t'.pool.get (some j) = t.pool.get (some j)) →
      t'.pool.get (some prev) = some { prevN with sibling := xN.sibling } →
      (∀ j ∈ S, t'.pool.get (some j) = t.pool.get (some j)) →
      ChainRel t' c (P ++ prev :: S) := by
  intro P
  induction P with
  | nil =>
    intro c L h prev x S xN prevN hL hx hprev hfrP hprev' hfrS
    subst hL
    obtain ⟨hc, n, hg, htail⟩ := h.cons_inv
    subst hc
    rw [hprev] at hg
    cases hg
    obtain ⟨hsib, m, hgx, htail2⟩ := htail.cons_inv
    rw [hx] at hgx
    cases hgx
    refine .cons hprev' ?_
    simp only
    refine htail2.congr ?_
    intro j hj
    exact hfrS j hj
  | cons q P' ih =>
    intro c L h prev x S xN prevN hL hx hprev hfrP hprev' hfrS
    subst hL
    obtain ⟨hc, n, hg, htail⟩ := h.cons_inv
    subst hc
    have hq' : t'.pool.get (some q) = some n := by
      rw [hfrP q (List.mem_cons_self _ _)]
      exact hg
    refine .cons hq' ?_
    exact ih htail rfl hx hprev (fun j hj => hfrP j (List.mem_cons_of_mem _ hj)) hprev' hfrS

/-- C5 (amended): gTree_delSubtree never reports a CannotDeleteRoot
error (no such status exists).  For every valid rootId it kills the whole
subtree, unlinks rootId from its parent's child chain when it has a
parent (for the tree root, which is parentless, it succeeds as well and
frees the root), and frees rootId itself: every slot of the subtree is
freed, and the parent's child sequence afterwards is the old sequence
with rootId removed. -/
theorem gTree_delSubtree_spec {α : Type} {fuel : Nat} {t : Tree α} {rootId : Nat}
    {rt : Rose (Nat × α)} {rn : Node α}
    (hw : PoolWF t.pool)
    (hroot : t.pool.get (some rootId) = some rn)
    (hx : extractF (fuel + 1) t rootId = some rt)
    (hnd : (Rose.ids rt).Nodup)
    (hcase : rn.parent = none ∨
      (∃ p pn L, rn.parent = some p ∧ t.pool.get (some p) = some pn ∧
        ChainRel t pn.child L ∧ rootId ∈ L ∧ p ∉ Rose.ids rt ∧
        (∀ j ∈ L, j ≠ rootId → j ∉ Rose.ids rt ∧ j ≠ p))) :
    ∃ t', gTree_delSubtree fuel t rootId = .ok t' ∧
      (∀ j ∈ Rose.ids rt, t'.pool.get (some j) = none) ∧
      t'.root = t.root ∧ PoolWF t'.pool ∧
      (rn.parent = none →
        ∀ j, j ∉ Rose.ids rt → t'.pool.get (some j) = t.pool.get (some j)) ∧
      (∀ p pn L, rn.parent = some p → t.pool.get (some p) = some pn →
        ChainRel t pn.child L → rootId ∈ L →
        childSeq t' p = some (L.erase rootId) ∧
        (∀ j, j ∉ Rose.ids rt → j ≠ p → j ∉ L →
          t'.pool.get (some j) = t.pool.get (some j))) := by
  obtain ⟨k, n, ks, hk, hg, hc, hrt⟩ := extractF_shape hx
  have hfk : k = fuel := by omega
  subst hfk
  rw [hroot] at hg
  cases hg
  subst hrt
  unfold Rose.ids at hnd
  rcases List.nodup_cons.mp hnd with ⟨hrnot, hndks⟩
  obtain ⟨t1, hok1, hkill1, hfr1, hroot1, hwf1, hlen1⟩ :=
    (kill_spec k).2 t rn.child ks hw hc hndks
  have h1root : t1.pool.get (some rootId) = some rn := by
    rw [hfr1 rootId hrnot]
    exact hroot
  set t2 := t1.wChild rootId none with ht2
  have h2root : t2.pool.get (some rootId) = some { rn with child := none } :=
    t1.get_wChild_self rootId none _ h1root
  have h2fr : ∀ j, j ≠ rootId → t2.pool.get (some j) = t1.pool.get (some j) := by
    intro j hj
    rw [ht2, Tree.get_wChild_ne _ _ _ (Ne.symm hj)]
  have h2wf : PoolWF t2.pool := PoolWF_modify _ _ _ hwf1
  have h2root' : t2.root = t.root := by
    rw [ht2]
    simp only [Tree.wChild, Tree.root_modify]
    exact hroot1
  have h2len : t2.pool.slots.length = t.pool.slots.length := by
    rw [ht2]
    simp only [Tree.wChild, Tree.length_modify]
    exact hlen1
  have h2frC : ∀ j, j ≠ rootId → j ∉ Rose.idsL ks →
      t2.pool.get (some j) = t.pool.get (some j) := by
    intro j hj1 hj2
    rw [h2fr j hj1]
    exact hfr1 j hj2
  unfold gTree_delSubtree
  rw [Pool.idValid_eq_true hroot]
  simp only [if_true, Res.bind_eq_bind, Tree.getNode_eq_ok _ _ _ hroot, Res.bind_ok,
    hok1, ← ht2, Tree.getNode_eq_ok _ _ _ h2root, Res.bind_ok]
  rcases hcase with hpnone | ⟨p, pn, L, hpar, hp, hchL, hmemL, hpnot, hLdisj⟩
  · simp only [hpnone]
    obtain ⟨hfree, hfnone, hffr, hfwf⟩ := poolFree_spec t2 rootId _ h2root h2wf
    rw [hfree]
    refine ⟨_, rfl, ?_, ?_, hfwf, ?_, ?_⟩
    · intro j hj
      unfold Rose.ids at hj
      rcases List.mem_cons.mp hj with hj | hj
      · subst hj
        exact hfnone
      · have hjne : j ≠ rootId := fun he => hrnot (he ▸ hj)
        rw [hffr j hjne, h2fr j hjne]
        exact hkill1 j hj
    · exact h2root'
    · intro _ j hj
      unfold Rose.ids at hj
      have hjne : j ≠ rootId := fun he => hj (he ▸ List.mem_cons_self _ _)
      have hjks : j ∉ Rose.idsL ks := fun hm => hj (List.mem_cons_of_mem _ hm)
      rw [hffr j hjne]
      exact h2frC j hjne hjks
    · intro p pn L hpar
      cases hpar
  · simp only [hpar]
    have hndL := hchL.nodup
    obtain ⟨P, S, hPS⟩ := List.append_of_mem hmemL
    have hrNotP : rootId ∉ P := by
      intro hmem
      have := List.disjoint_of_nodup_append (hPS ▸ hndL)
      exact this hmem (List.mem_cons_self _ _)
    have hrNotS : rootId ∉ S := by
      have := List.Nodup.of_append_right (hPS ▸ hndL)
      exact (List.nodup_cons.mp this).1
    have hprootne : p ≠ rootId := by
      intro he
      refine hpnot ?_
      rw [he]
      unfold Rose.ids
      exact List.mem_cons_self _ _
    have h2p : t2.pool.get (some p) = some pn := by
      rw [h2frC p hprootne ?_]
      · exact hp
      · intro hm
        refine hpnot ?_
        unfold Rose.ids
        exact List.mem_cons_of_mem _ hm
    simp only [Tree.getNode_eq_ok _ _ _ h2p, Res.bind_ok]
    -- the sibling chain of p survives the kill (only rootId's child field changed)
    have hchL2 : ChainRel t2 pn.child L := by
      refine hchL.congr_sibling ?_
      intro j hj m hm
      by_cases hjr : j = rootId
      · subst hjr
        rw [hroot] at hm
        cases hm
        exact ⟨_, h2root, rfl⟩
      · refine ⟨m, ?_, rfl⟩
        rw [h2frC j hjr ((hLdisj j hj hjr).1 ∘ ?_)]
        · exact hm
        · intro hmm
          unfold Rose.ids
          exact List.mem_cons_of_mem _ hmm
    cases hP : P with
    | nil =>
      subst hP
      rw [hPS] at hchL2 hchL
      obtain ⟨hpc, _, _, _⟩ := hchL2.cons_inv
      obtain ⟨hpc0, rn2, hgrn2, hSchain⟩ := hchL.cons_inv
      rw [hroot] at hgrn2
      cases hgrn2
      rw [hpc]
      rw [if_pos rfl]
      set t3 := t2.wChild p { rn with child := none }.sibling with ht3
      have h3p : t3.pool.get (some p) = some { pn with child := rn.sibling } :=
        t2.get_wChild_self p _ _ h2p
      have h3fr : ∀ j, j ≠ p → t3.pool.get (some j) = t2.pool.get (some j) := by
        intro j hj
        rw [ht3, Tree.get_wChild_ne _ _ _ (Ne.symm hj)]
      have h3root : t3.pool.get (some rootId) = some { rn with child := none } := by
        rw [h3fr rootId (Ne.symm hprootne)]
        exact h2root
      have h3wf : PoolWF t3.pool := PoolWF_modify _ _ _ h2wf
      obtain ⟨hfree, hfnone, hffr, hfwf⟩ := poolFree_spec t3 rootId _ h3root h3wf
      rw [hfree]
      refine ⟨_, rfl, ?_, ?_, hfwf, ?_, ?_⟩
      · intro j hj
        unfold Rose.ids at hj
        rcases List.mem_cons.mp hj with hj | hj
        · subst hj
          exact hfnone
        · have hjne : j ≠ rootId := fun he => hrnot (he ▸ hj)
          have hjp : j ≠ p := by
            intro he
            refine hpnot ?_
            rw [← he]
            unfold Rose.ids
            exact List.mem_cons_of_mem _ hj
          rw [hffr j hjne, h3fr j hjp, h2fr j hjne]
          exact hkill1 j hj
      · rw [ht3]
        simp only [Tree.wChild, Tree.root_modify]
        exact h2root'
      · intro hco
        simp at hco
      · intro p' pn' L' hpar' hp' hchL' hmemL'
        cases hpar'
        rw [hp] at hp'
        cases hp'
        have hLL : L' = [] ++ rootId :: S := (hchL.deterministic hchL').symm
        subst hLL
        constructor
        · rw [List.nil_append, List.erase_cons_head]
          have hSfinal : ChainRel (⟨t3.root, ⟨t3.pool.slots.set rootId none, rootId :: t3.pool.freeList⟩⟩ : Tree α) rn.sibling S := by
            refine hSchain.congr ?_
            intro j hj
            have hjr : j ≠ rootId := fun he => hrNotS (he ▸ hj)
            have hjL : j ∈ L := by
              rw [hPS]
              exact List.mem_cons_of_mem _ hj
            have hjids := (hLdisj j hjL hjr).1
            have hjp := (hLdisj j hjL hjr).2
            rw [hffr j hjr, h3fr j hjp]
            refine h2frC j hjr ?_
            intro hm
            refine hjids ?_
            unfold Rose.ids
            exact List.mem_cons_of_mem _ hm
          refine @childSeq_complete α _ p { pn with child := rn.sibling } S ?_ hSfinal
          rw [hffr p hprootne]
          exact h3p
        · intro j hjids hjp hjL
          have hjr : j ≠ rootId := by
            intro he
            refine hjids ?_
            rw [he]
            unfold Rose.ids
            exact List.mem_cons_self _ _
          have hjks : j ∉ Rose.idsL ks := by
            intro hm
            refine hjids ?_
            unfold Rose.ids
            exact List.mem_cons_of_mem _ hm
          rw [hffr j hjr, h3fr j hjp]
          exact h2frC j hjr hjks
    | cons q P0 =>
      have hPne : P ≠ [] := by rw [hP]; exact List.cons_ne_nil _ _
      obtain ⟨P', prev, hPdec⟩ : ∃ P' prev, P = P' ++ [prev] := by
        rcases List.eq_nil_or_concat P with h1 | ⟨P', b, h1⟩
        · exact absurd h1 hPne
        · exact ⟨P', b, by rw [h1]; simp [List.concat_eq_append]⟩
      have hLdec : L = P' ++ prev :: rootId :: S := by
        rw [hPS, hPdec]
        simp
      have hprevL : prev ∈ L := by
        rw [hPS, hPdec]
        refine List.mem_append_left _ ?_
        exact List.mem_append_right _ (List.mem_cons_self _ _)
      have hprevroot : prev ≠ rootId := by
        intro he
        refine hrNotP ?_
        rw [hPdec, ← he]
        exact List.mem_append_right _ (List.mem_cons_self _ _)
      obtain ⟨hprevIds, hprevp⟩ := hLdisj prev hprevL hprevroot
      obtain ⟨prevN, hprevN⟩ := hchL.mem_get prev hprevL
      have hrootNotP' : rootId ∉ P' := by
        intro hm
        refine hrNotP ?_
        rw [hPdec]
        exact List.mem_append_left _ hm
      -- the branch test is false: the first child of p is not rootId
      have hheadne : pn.child ≠ some rootId := by
        rw [hPS, hP] at hchL
        obtain ⟨hpc, _, _, _⟩ := hchL.cons_inv
        rw [hpc]
        intro he
        cases he
        refine hrNotP ?_
        rw [hP]
        exact List.mem_cons_self _ _
      rw [if_neg hheadne]
      have hwalk : findPrevSib t2.cfuel t2 pn.child rootId = .ok prev := by
        refine findPrevSib_spec P' hchL2 hLdec hrootNotP' (Ne.symm hprevroot) t2.cfuel ?_
        have := hchL2.length_le
        unfold Tree.cfuel
        omega
      simp only [hwalk, Res.bind_ok]
      set t3 := t2.wSibling prev { rn with child := none }.sibling with ht3
      have h2prev : t2.pool.get (some prev) = some prevN := by
        rw [h2frC prev hprevroot ?_]
        · exact hprevN
        · intro hm
          refine hprevIds ?_
          unfold Rose.ids
          exact List.mem_cons_of_mem _ hm
      have h3prev : t3.pool.get (some prev) = some { prevN with sibling := rn.sibling } :=
        t2.get_wSibling_self prev _ _ h2prev
      have h3fr : ∀ j, j ≠ prev → t3.pool.get (some j) = t2.pool.get (some j) := by
        intro j hj
        rw [ht3, Tree.get_wSibling_ne _ _ _ (Ne.symm hj)]
      have h3root : t3.pool.get (some rootId) = some { rn with child := none } := by
        rw [h3fr rootId (Ne.symm hprevroot)]
        exact h2root
      have h3wf : PoolWF t3.pool := PoolWF_modify _ _ _ h2wf
      have hndL' : (P' ++ prev :: rootId :: S).Nodup := hLdec ▸ hndL
      have hprevNotP' : prev ∉ P' := by
        have hd := List.disjoint_of_nodup_append hndL'
        intro hm
        exact hd hm (List.mem_cons_self _ _)
      have hprevNotS : prev ∉ S := by
        have h2 := List.Nodup.of_append_right hndL'
        have hh := (List.nodup_cons.mp h2).1
        exact fun hm => hh (List.mem_cons_of_mem _ hm)
      obtain ⟨hfree, hfnone, hffr, hfwf⟩ := poolFree_spec t3 rootId _ h3root h3wf
      rw [hfree]
      refine ⟨_, rfl, ?_, ?_, hfwf, ?_, ?_⟩
      · intro j hj
        unfold Rose.ids at hj
        rcases List.mem_cons.mp hj with hj | hj
        · subst hj
          exact hfnone
        · have hjne : j ≠ rootId := fun he => hrnot (he ▸ hj)
          have hjprev : j ≠ prev := by
            intro he
            refine hprevIds ?_
            rw [← he]
            unfold Rose.ids
            exact List.mem_cons_of_mem _ hj
          rw [hffr j hjne, h3fr j hjprev, h2fr j hjne]
          exact hkill1 j hj
      · rw [ht3]
        simp only [Tree.wSibling, Tree.root_modify]
        exact h2root'
      · intro hco
        simp at hco
      · intro p' pn' L' hpar' hp' hchL' hmemL'
        cases hpar'
        rw [hp] at hp'
        cases hp'
        have hLL : L' = L := (hchL.deterministic hchL').symm
        subst hLL
        constructor
        · have hchFinal : ChainRel
              (⟨t3.root, ⟨t3.pool.slots.set rootId none, rootId :: t3.pool.freeList⟩⟩ : Tree α)
              pn.child (P' ++ prev :: S) := by
            refine ChainRel.removeMid P' hchL hLdec hroot hprevN ?_ ?_ ?_
            · intro j hj
              have hjL : j ∈ L' := by
                rw [hLdec]
                exact List.mem_append_left _ hj
              have hjr : j ≠ rootId := fun he => hrootNotP' (he ▸ hj)
              have hjprev : j ≠ prev := fun he => hprevNotP' (he ▸ hj)
              obtain ⟨hjids, hjp⟩ := hLdisj j hjL hjr
              rw [hffr j hjr, h3fr j hjprev]
              refine h2frC j hjr ?_
              intro hm
              refine hjids ?_
              unfold Rose.ids
              exact List.mem_cons_of_mem _ hm
            · rw [hffr prev hprevroot]
              exact h3prev
            · intro j hj
              have hjL : j ∈ L' := by
                rw [hLdec]
                exact List.mem_append_right _
                  (List.mem_cons_of_mem _ (List.mem_cons_of_mem _ hj))
              have hjr : j ≠ rootId := fun he => hrNotS (he ▸ hj)
              have hjprev : j ≠ prev := fun he => hprevNotS (he ▸ hj)
              obtain ⟨hjids, hjp⟩ := hLdisj j hjL hjr
              rw [hffr j hjr, h3fr j hjprev]
              refine h2frC j hjr ?_
              intro hm
              refine hjids ?_
              unfold Rose.ids
              exact List.mem_cons_of_mem _ hm
          have hErase : L'.erase rootId = P' ++ prev :: S := by
            rw [hLdec, List.erase_append_right _ hrootNotP',
              List.erase_cons_tail (by simp [hprevroot]), List.erase_cons_head]
          rw [hErase]
          refine childSeq_complete ?_ hchFinal
          rw [hffr p hprootne, h3fr p (Ne.symm hprevp)]
          exact h2p
        · intro j hjids hjp hjL
          have hjr : j ≠ rootId := by
            intro he
            refine hjids ?_
            rw [he]
            unfold Rose.ids
            exact List.mem_cons_self _ _
          have hjprev : j ≠ prev := fun he => hjL (he ▸ hprevL)
          have hjks : j ∉ Rose.idsL ks := by
            intro hm
            refine hjids ?_
            unfold Rose.ids
            exact List.mem_cons_of_mem _ hm
          rw [hffr j hjr, h3fr j hjprev]
          exact h2frC j hjr hjks

theorem gTree_delSubtree_spec_witness :
    ∃ t', gTree_delSubtree 2 exTree1 1 = .ok t' ∧
      (∀ j ∈ Rose.ids (Rose.node ((1 : Nat), (11 : Int)) []),
        t'.pool.get (some j) = none) ∧
      t'.root = exTree1.root ∧ PoolWF t'.pool ∧
      ((⟨11, none, some 0, some 2⟩ : Node Int).parent = none →
        ∀ j, j ∉ Rose.ids (Rose.node ((1 : Nat), (11 : Int)) []) →
          t'.pool.get (some j) = exTree1.pool.get (some j)) ∧
      (∀ p pn L, (⟨11, none, some 0, some 2⟩ : Node Int).parent = some p →
        exTree1.pool.get (some p) = some pn →
        ChainRel exTree1 pn.child L → 1 ∈ L →
        childSeq t' p = some (L.erase 1) ∧
        (∀ j, j ∉ Rose.ids (Rose.node ((1 : Nat), (11 : Int)) []) → j ≠ p → j ∉ L →
          t'.pool.get (some j) = exTree1.pool.get (some j))) := by
  have hw : PoolWF exTree1.pool := ⟨List.nodup_nil, by intro i hi; cases hi⟩
  have hg1 : exTree1.pool.get (some 1) = some (⟨11, none, some 0, some 2⟩ : Node Int) := by
    decide
  have hg2 : exTree1.pool.get (some 2) = some (⟨22, none, some 0, none⟩ : Node Int) := by
    decide
  have hch : ChainRel exTree1 (some 1) [1, 2] :=
    ChainRel.cons hg1 (ChainRel.cons hg2 ChainRel.nil)
  exact @gTree_delSubtree_spec Int 2 exTree1 1 (Rose.node (1, 11) [])
    ⟨11, none, some 0, some 2⟩ hw hg1 rfl (by decide)
    (Or.inr ⟨0, ⟨0, some 1, none, none⟩, [1, 2], rfl, by decide, hch,
      by decide, by decide, by decide⟩)

/-- Every slot id appearing in an extracted subtree is occupied. -/
theorem extract_occupied {α : Type} (t : Tree α) : ∀ fuel : Nat,
    (∀ {id : Nat} {rt : Rose (Nat × α)}, extractF fuel t id = some rt →
      ∀ j ∈ Rose.ids rt, t.pool.get (some j) ≠ none) ∧
    (∀ {cid : Option Nat} {ks : List (Rose (Nat × α))},
      extractChainF fuel t cid = some ks →
      ∀ j ∈ Rose.idsL ks, t.pool.get (some j) ≠ none) := by
  intro fuel
  induction fuel with
  | zero =>
    constructor
    · intro id rt h
      cases h
    · intro cid ks h
      cases h
  | succ k ih =>
    constructor
    · intro id rt h j hj
      obtain ⟨k', n, cs, hk, hg, hc, hrt⟩ := extractF_shape h
      cases hk
      subst hrt
      unfold Rose.ids at hj
      rcases List.mem_cons.mp hj with hj | hj
      · subst hj
        rw [hg]
        simp
      · exact ih.2 hc j hj
    · intro cid ks h j hj
      cases cid with
      | none =>
        cases extractChainF_none h
        cases hj
      | some c =>
        obtain ⟨k', rt0, n, rest, hk, hr0, hg, hrest, hks⟩ := extractChainF_shape_cons h
        cases hk
        subst hks
        have hjdec : Rose.idsL (rt0 :: rest) = Rose.ids rt0 ++ Rose.idsL rest := rfl
        rw [hjdec] at hj
        rcases List.mem_append.mp hj with hj | hj
        · exact ih.1 hr0 j hj
        · exact ih.2 hrest j hj

/-- Well-formedness of the pool survives any step that keeps the free
list and the slot count and leaves free slots free. -/
theorem PoolWF_of_frames {α : Type} {t t' : Tree α} (h : PoolWF t.pool)
    (hfl : t'.pool.freeList = t.pool.freeList)
    (hlen : t'.pool.slots.length = t.pool.slots.length)
    (hfr : ∀ i, t.pool.get (some i) = none →
      t'.pool.get (some i) = t.pool.get (some i)) :
    PoolWF t'.pool := by
  obtain ⟨hnd, hmem⟩ := h
  refine ⟨hfl ▸ hnd, ?_⟩
  intro i hi
  rw [hfl] at hi
  obtain ⟨hlt, hfree⟩ := hmem i hi
  refine ⟨hlen ▸ hlt, ?_⟩
  have hfree' : t.pool.get (some i) = none := by
    rw [Pool.get_some]
    exact hfree
  have := hfr i hfree'
  rw [hfree'] at this
  rw [Pool.get_some] at this
  exact this

/-- Extraction of a subtree ignores the parent and sibling fields of its
root slot: any tree holding the same data and child there, and the same
slots below, extracts the same subtree. -/
theorem extractF_root_relink {α : Type} {g : Nat} {t t' : Tree α} {id : Nat}
    {v : Nat × α} {ks : List (Rose (Nat × α))} {n n' : Node α}
    (h : extractF g t id = some (.node v ks))
    (hn : t.pool.get (some id) = some n)
    (hn' : t'.pool.get (some id) = some n')
    (hdata : n'.data = n.data) (hchild : n'.child = n.child)
    (hfr : ∀ j ∈ Rose.idsL ks, t'.pool.get (some j) = t.pool.get (some j)) :
    extractF g t' id = some (.node v ks) := by
  obtain ⟨k, n0, cs, hk, hg, hc, heq⟩ := extractF_shape h
  subst hk
  rw [hn] at hg
  cases hg
  injection heq with h1 h2
  subst h1
  subst h2
  have hc' : extractChainF k t' n'.child = some ks := by
    rw [hchild]
    exact (extract_congr t t' k).2 hc hfr
  unfold extractF
  rw [hn']
  simp only [Option.bind_eq_bind, Option.some_bind, hc', hdata]

/-- gTree_cloneSubtree and its child loop, proved together by fuel
induction against the abstract subtree extraction: on a well-formed pool
the clone succeeds, builds a strip-equal subtree entirely out of fresh
slots, and leaves every occupied slot of the original untouched.  The
chain half carries the state of the partially built clone: the new
parent `newNodeId` holding the already finished clone children `M`. -/
theorem clone_spec {α : Type} [Inhabited α] : ∀ fuel : Nat,
    (∀ (t : Tree α) (id : Nat) (rt : Rose (Nat × α)), PoolWF t.pool →
      extractF fuel t id = some rt → (Rose.ids rt).Nodup →
      ∃ t' c rt', gTree_cloneSubtree fuel t id = .ok (t', c) ∧
        t'.root = t.root ∧ PoolWF t'.pool ∧
        t.pool.get (some c) = none ∧
        (∀ j, t.pool.get (some j) ≠ none →
          t'.pool.get (some j) = t.pool.get (some j)) ∧
        (∃ cn, t'.pool.get (some c) = some cn ∧
          cn.parent = none ∧ cn.sibling = none) ∧
        (∃ g, extractF g t' c = some rt') ∧
        Rose.strip rt' = Rose.strip rt ∧
        (∀ j ∈ Rose.ids rt', t.pool.get (some j) = none) ∧
        (Rose.ids rt').Nodup ∧
        (∀ j ∈ Rose.ids rt', t'.pool.get (some j) ≠ none)) ∧
    (∀ (t : Tree α) (newNodeId : Nat) (nN : Node α) (cid : Option Nat)
        (ks : List (Rose (Nat × α))) (M : List Nat), PoolWF t.pool →
      extractChainF fuel t cid = some ks → (Rose.idsL ks).Nodup →
      t.pool.get (some newNodeId) = some nN →
      ChainRel t nN.child M →
      newNodeId ∉ M →
      (∀ j ∈ Rose.idsL ks, j ≠ newNodeId ∧ j ∉ M) →
      ∃ t' newIds ks', cloneChildren fuel t newNodeId cid = .ok t' ∧
        t'.root = t.root ∧ PoolWF t'.pool ∧
        (∀ j, t.pool.get (some j) ≠ none → j ≠ newNodeId → j ∉ M →
          t'.pool.get (some j) = t.pool.get (some j)) ∧
        (∃ nd', t'.pool.get (some newNodeId) = some nd' ∧ nd'.data = nN.data ∧
          nd'.parent = nN.parent ∧ nd'.sibling = nN.sibling ∧
          ChainRel t' nd'.child (M ++ newIds)) ∧
        (∀ m mN, m ∈ M → t.pool.get (some m) = some mN →
          ∃ mN', t'.pool.get (some m) = some mN' ∧ mN'.data = mN.data ∧
            mN'.child = mN.child ∧ mN'.parent = mN.parent) ∧
        (∀ j ∈ Rose.idsL ks', t.pool.get (some j) = none) ∧
        (Rose.idsL ks').Nodup ∧
        (∀ j ∈ Rose.idsL ks', t'.pool.get (some j) ≠ none) ∧
        (∃ g, ∀ hd, ChainRel t' hd newIds → extractChainF g t' hd = some ks') ∧
        Rose.stripL ks' = Rose.stripL ks) := by
  intro fuel
  induction fuel with
  | zero =>
    constructor
    · intro t id rt _ h
      cases h
    · intro t newNodeId nN cid ks M _ h
      cases h
  | succ k ih =>
    obtain ⟨ihS, ihC⟩ := ih
    constructor
    · intro t id rt hw hx hnd
      obtain ⟨k', n, cs, hk, hg, hc, hrt⟩ := extractF_shape hx
      cases hk
      subst hrt
      unfold Rose.ids at hnd
      rcases List.nodup_cons.mp hnd with ⟨hidnot, hndcs⟩
      rcases halloc : t.allocNode with ⟨t1, c⟩
      obtain ⟨hcfresh, hcdef, hafr, haroot, hawf, halen, hasub⟩ :=
        allocNode_spec t hw halloc
      have hidc : id ≠ c := by
        intro he
        rw [he, hcfresh] at hg
        cases hg
      have h1g : t1.pool.get (some id) = some n := by
        rw [hafr id hidc]
        exact hg
      set t2 := (((t1.wData c n.data).wChild c none).wSibling c none).wParent c none
        with ht2
      have h2c : t2.pool.get (some c) =
          some (⟨n.data, none, none, none⟩ : Node α) := by
        have s1 := t1.get_wData_self c n.data _ hcdef
        have s2 := (t1.wData c n.data).get_wChild_self c none _ s1
        have s3 := ((t1.wData c n.data).wChild c none).get_wSibling_self c none _ s2
        exact (((t1.wData c n.data).wChild c none).wSibling c none).get_wParent_self
          c none _ s3
      have h2fr : ∀ j, j ≠ c → t2.pool.get (some j) = t.pool.get (some j) := by
        intro j hj
        rw [ht2, Tree.get_wParent_ne _ _ _ (Ne.symm hj),
          Tree.get_wSibling_ne _ _ _ (Ne.symm hj),
          Tree.get_wChild_ne _ _ _ (Ne.symm hj),
          Tree.get_wData_ne _ _ _ (Ne.symm hj)]
        exact hafr j hj
      have h2wf : PoolWF t2.pool :=
        PoolWF_modify _ _ _ (PoolWF_modify _ _ _
          (PoolWF_modify _ _ _ (PoolWF_modify _ _ _ hawf)))
      have h2root : t2.root = t.root := by
        rw [ht2]
        simp only [Tree.wParent, Tree.wSibling, Tree.wChild, Tree.wData,
          Tree.root_modify]
        exact haroot
      have hcsocc : ∀ j ∈ Rose.idsL cs, t.pool.get (some j) ≠ none :=
        (extract_occupied t k).2 hc
      have hcsc : ∀ j ∈ Rose.idsL cs, j ≠ c := by
        intro j hj he
        rw [he] at hj
        exact hcsocc _ hj (he ▸ hcfresh)
      have hc2 : extractChainF k t2 n.child = some cs := by
        refine (extract_congr t t2 k).2 hc ?_
        intro j hj
        exact h2fr j (hcsc j hj)
      obtain ⟨t3, newIds, ks', hok3, h3root, h3wf, h3fr,
          ⟨nd', h3nd, hndata, hnpar, hnsib, h3ch⟩, h3M, h3fresh, h3ndks, h3occ,
          ⟨g, h3ext⟩, h3strip⟩ :=
        ihC t2 c ⟨n.data, none, none, none⟩ n.child cs [] h2wf hc2 hndcs h2c
          ChainRel.nil (by simp)
          (fun j hj => ⟨hcsc j hj, by simp⟩)
      refine ⟨t3, c, .node (c, n.data) ks', ?_, ?_, h3wf, hcfresh, ?_, ?_, ?_, ?_,
        ?_, ?_, ?_⟩
      · unfold gTree_cloneSubtree
        rw [Pool.idValid_eq_true hg]
        simp only [if_true, halloc, h1g, Res.bind_eq_bind, hok3, Res.bind_ok]
      · exact h3root.trans h2root
      · intro j hocc
        have hjc : j ≠ c := by
          intro he
          exact hocc (he ▸ hcfresh)
        rw [h3fr j (by rw [h2fr j hjc]; exact hocc) hjc (by simp), h2fr j hjc]
      · exact ⟨nd', h3nd, hnpar, hnsib⟩
      · refine ⟨g + 1, ?_⟩
        have hchain : extractChainF g t3 nd'.child = some ks' :=
          h3ext nd'.child (List.nil_append newIds ▸ h3ch)
        unfold extractF
        rw [h3nd]
        simp only [Option.bind_eq_bind, Option.some_bind, hchain, hndata]
      · have h3strip' : Rose.mapRL Prod.snd ks' = Rose.mapRL Prod.snd cs := h3strip
        unfold Rose.strip Rose.mapR
        rw [h3strip']
      · intro j hj
        unfold Rose.ids at hj
        rcases List.mem_cons.mp hj with hj | hj
        · subst hj
          exact hcfresh
        · have h2n : t2.pool.get (some j) = none := h3fresh j hj
          have hjc : j ≠ c := by
            intro he
            rw [he, h2c] at h2n
            cases h2n
          rw [← h2fr j hjc]
          exact h2n
      · unfold Rose.ids
        refine List.nodup_cons.mpr ⟨?_, h3ndks⟩
        intro hmem
        have := h3fresh c hmem
        rw [h2c] at this
        cases this
      · intro j hj
        unfold Rose.ids at hj
        rcases List.mem_cons.mp hj with hj | hj
        · subst hj
          rw [h3nd]
          simp
        · exact h3occ j hj
    · intro t newNodeId nN cid ks M hw hx hnd hnew hch hnotM hdisj
      cases cid with
      | none =>
        cases extractChainF_none hx
        refine ⟨t, [], [], rfl, rfl, hw, fun j _ _ _ => rfl,
          ⟨nN, hnew, rfl, rfl, rfl, by rw [List.append_nil]; exact hch⟩,
          fun m mN _ hget => ⟨mN, hget, rfl, rfl, rfl⟩, ?_, ?_, ?_, ⟨1, ?_⟩, rfl⟩
        · intro j hj
          unfold Rose.idsL at hj
          cases hj
        · unfold Rose.idsL
          exact List.nodup_nil
        · intro j hj
          unfold Rose.idsL at hj
          cases hj
        · intro hd hchn
          cases hchn.nil_inv
          rfl
      | some c0 =>
        obtain ⟨k', rt0, cn0, rest, hk, hx0, hgc0, hrest, hksdec⟩ :=
          extractChainF_shape_cons hx
        cases hk
        subst hksdec
        have hidsdec : Rose.idsL (rt0 :: rest) = Rose.ids rt0 ++ Rose.idsL rest := rfl
        rw [hidsdec] at hnd
        have hnd0 : (Rose.ids rt0).Nodup := List.Nodup.of_append_left hnd
        have hndrest : (Rose.idsL rest).Nodup := List.Nodup.of_append_right hnd
        obtain ⟨t1, nc, rt0', hok1, h1root, h1wf, hncfresh, h1fr,
            ⟨cn', h1nc, hncpar, hncsib⟩, ⟨g0, h1ext⟩, h1strip, h1fresh,
            h1ndids, h1occ⟩ := ihS t c0 rt0 hw hx0 hnd0
        have hoccT : ∀ j ∈ Rose.idsL (rt0 :: rest), t.pool.get (some j) ≠ none :=
          (extract_occupied t (k + 1)).2 hx
        have h1new : t1.pool.get (some newNodeId) = some nN := by
          rw [h1fr newNodeId (by rw [hnew]; simp)]
          exact hnew
        have hch1 : ChainRel t1 nN.child M := by
          refine hch.congr ?_
          intro i hi
          obtain ⟨mn, hmn⟩ := hch.mem_get i hi
          rw [h1fr i (by rw [hmn]; simp)]
        have hncM : nc ∉ M := by
          intro hm
          obtain ⟨mn, hmn⟩ := hch.mem_get nc hm
          rw [hmn] at hncfresh
          cases hncfresh
        have hncnew : nc ≠ newNodeId := by
          intro he
          rw [he, hnew] at hncfresh
          cases hncfresh
        obtain ⟨t2, hok2, h2root, h2len, h2fl, h2nc,
            ⟨nd2, h2nn, h2data, h2par, h2sib, h2ch⟩, h2seq, h2fr, h2frL, h2last⟩ :=
          addExistChild_spec h1new h1nc hch1 hncM hncnew hnotM
        have h2wf : PoolWF t2.pool := by
          refine PoolWF_of_frames h1wf h2fl h2len ?_
          intro i hfree
          have hinew : i ≠ newNodeId := by
            intro he
            rw [he, h1new] at hfree
            cases hfree
          have hinc : i ≠ nc := by
            intro he
            rw [he, h1nc] at hfree
            cases hfree
          have hiM : i ∉ M := by
            intro hm
            obtain ⟨mn, hmn⟩ := hch1.mem_get i hm
            rw [hmn] at hfree
            cases hfree
          exact h2fr i hinew hinc hiM
        have h2old : ∀ j, t.pool.get (some j) ≠ none → j ≠ newNodeId → j ∉ M →
            t2.pool.get (some j) = t.pool.get (some j) := by
          intro j hocc hjn hjM
          have hjnc : j ≠ nc := by
            intro he
            exact hocc (he ▸ hncfresh)
          rw [h2fr j hjn hjnc hjM, h1fr j hocc]
        have hc0mem : c0 ∈ Rose.idsL (rt0 :: rest) := by
          rw [hidsdec]
          exact List.mem_append_left _ (extractF_mem_topId hx0)
        have hc0occ : t.pool.get (some c0) ≠ none := by
          rw [hgc0]
          simp
        have h2c0 : t2.pool.get (some c0) = some cn0 := by
          rw [h2old c0 hc0occ (hdisj c0 hc0mem).1 (hdisj c0 hc0mem).2]
          exact hgc0
        have hrest2 : extractChainF k t2 cn0.sibling = some rest := by
          refine (extract_congr t t2 k).2 hrest ?_
          intro j hj
          have hjfull : j ∈ Rose.idsL (rt0 :: rest) := by
            rw [hidsdec]
            exact List.mem_append_right _ hj
          exact h2old j (hoccT j hjfull) (hdisj j hjfull).1 (hdisj j hjfull).2
        have hnotM' : newNodeId ∉ M ++ [nc] := by
          intro hm
          rcases List.mem_append.mp hm with hm | hm
          · exact hnotM hm
          · have he : newNodeId = nc := by simpa using hm
            exact hncnew he.symm
        have hdisj' : ∀ j ∈ Rose.idsL rest, j ≠ newNodeId ∧ j ∉ M ++ [nc] := by
          intro j hj
          have hjfull : j ∈ Rose.idsL (rt0 :: rest) := by
            rw [hidsdec]
            exact List.mem_append_right _ hj
          refine ⟨(hdisj j hjfull).1, ?_⟩
          intro hm
          rcases List.mem_append.mp hm with hm | hm
          · exact (hdisj j hjfull).2 hm
          · have he : j = nc := by simpa using hm
            exact hoccT j hjfull (he ▸ hncfresh)
        obtain ⟨t3, newIds', ks'', hok3, h3root, h3wf, h3fr,
            ⟨nd3, h3nn, h3data, h3par, h3sib, h3ch⟩, h3M, h3fresh, h3nd, h3occ,
            ⟨g1, h3ext⟩, h3strip⟩ :=
          ihC t2 newNodeId nd2 cn0.sibling rest (M ++ [nc]) h2wf hrest2 hndrest
            h2nn h2ch hnotM' hdisj'
        obtain ⟨g0', nc0N, ks0, hg0k, h1ncN, h1chain0, hrt0'⟩ := extractF_shape h1ext
        subst hg0k
        rw [h1nc] at h1ncN
        cases h1ncN
        subst hrt0'
        unfold Rose.ids at h1fresh h1ndids h1occ
        have hncmem' : nc ∈ M ++ [nc] :=
          List.mem_append_right _ (List.mem_singleton.mpr rfl)
        obtain ⟨ncN3, h3ncg, h3ncdata, h3ncchild, h3ncpar⟩ := h3M nc _ hncmem' h2nc
        have hintfr : ∀ j ∈ Rose.idsL ks0,
            t3.pool.get (some j) = t1.pool.get (some j) := by
          intro j hj
          have hjfreshT : t.pool.get (some j) = none :=
            h1fresh j (List.mem_cons_of_mem _ hj)
          have hjnew : j ≠ newNodeId := by
            intro he
            rw [he, hnew] at hjfreshT
            cases hjfreshT
          have hjnc : j ≠ nc := by
            intro he
            exact (List.nodup_cons.mp h1ndids).1 (he ▸ hj)
          have hjM : j ∉ M := by
            intro hm
            obtain ⟨mn, hmn⟩ := hch.mem_get j hm
            rw [hmn] at hjfreshT
            cases hjfreshT
          have hjMnc : j ∉ M ++ [nc] := by
            intro hm
            rcases List.mem_append.mp hm with hm | hm
            · exact hjM hm
            · exact hjnc (by simpa using hm)
          have h21 : t2.pool.get (some j) = t1.pool.get (some j) :=
            h2fr j hjnew hjnc hjM
          have hjocc2 : t2.pool.get (some j) ≠ none := by
            rw [h21]
            exact h1occ j (List.mem_cons_of_mem _ hj)
          rw [h3fr j hjocc2 hjnew hjMnc, h21]
        have hext3first : extractF (g0' + 1) t3 nc =
            some (.node (nc, cn'.data) ks0) :=
          extractF_root_relink h1ext h1nc h3ncg h3ncdata h3ncchild hintfr
        refine ⟨t3, nc :: newIds', Rose.node (nc, cn'.data) ks0 :: ks'',
          ?_, ?_, h3wf, ?_, ?_, ?_, ?_, ?_, ?_, ?_, ?_⟩
        · unfold cloneChildren
          simp only [Res.bind_eq_bind, hok1, Res.bind_ok, hok2, Res.bind_ok,
            Tree.getNode_eq_ok _ _ _ h2c0, Res.bind_ok, hok3]
        · exact h3root.trans (h2root.trans h1root)
        · intro j hocc hjnew hjM
          have h2j : t2.pool.get (some j) = t.pool.get (some j) :=
            h2old j hocc hjnew hjM
          have hjnc : j ≠ nc := by
            intro he
            exact hocc (he ▸ hncfresh)
          have hjMnc : j ∉ M ++ [nc] := by
            intro hm
            rcases List.mem_append.mp hm with hm | hm
            · exact hjM hm
            · exact hjnc (by simpa using hm)
          rw [h3fr j (by rw [h2j]; exact hocc) hjnew hjMnc, h2j]
        · refine ⟨nd3, h3nn, h3data.trans h2data, h3par.trans h2par,
            h3sib.trans h2sib, ?_⟩
          simp only [List.append_assoc, List.singleton_append] at h3ch
          exact h3ch
        · intro m mN hm hget
          have hmocc : t.pool.get (some m) ≠ none := by
            rw [hget]
            simp
          have hm1 : t1.pool.get (some m) = some mN := by
            rw [h1fr m hmocc]
            exact hget
          by_cases hlast : M.getLast? = some m
          · have h2m := h2last m mN hlast hm1
            obtain ⟨mN3, h3mg, h3md, h3mc, h3mp⟩ :=
              h3M m _ (List.mem_append_left _ hm) h2m
            exact ⟨mN3, h3mg, h3md, h3mc, h3mp⟩
          · have h2m : t2.pool.get (some m) = some mN := by
              rw [h2frL m hm hlast]
              exact hm1
            obtain ⟨mN3, h3mg, h3md, h3mc, h3mp⟩ :=
              h3M m mN (List.mem_append_left _ hm) h2m
            exact ⟨mN3, h3mg, h3md, h3mc, h3mp⟩
        · intro j hj
          unfold Rose.idsL Rose.ids at hj
          rcases List.mem_append.mp hj with hj | hj
          · rcases List.mem_cons.mp hj with hj | hj
            · subst hj
              exact hncfresh
            · exact h1fresh j (List.mem_cons_of_mem _ hj)
          · have h2n : t2.pool.get (some j) = none := h3fresh j hj
            by_contra hocc
            have hjnew : j ≠ newNodeId := by
              intro he
              rw [he, h2nn] at h2n
              cases h2n
            have hjM : j ∉ M := by
              intro hm
              obtain ⟨mn2, hmn2⟩ := h2ch.mem_get j (List.mem_append_left _ hm)
              rw [hmn2] at h2n
              cases h2n
            exact hocc (by rw [← h2old j hocc hjnew hjM]; exact h2n)
        · unfold Rose.idsL Rose.ids
          refine List.nodup_append.mpr ⟨h1ndids, h3nd, ?_⟩
          intro a ha hb
          have h2n : t2.pool.get (some a) = none := h3fresh a hb
          rcases List.mem_cons.mp ha with ha | ha
          · subst ha
            rw [h2nc] at h2n
            cases h2n
          · have hafreshT : t.pool.get (some a) = none :=
              h1fresh a (List.mem_cons_of_mem _ ha)
            have hanew : a ≠ newNodeId := by
              intro he
              rw [he, hnew] at hafreshT
              cases hafreshT
            have hanc : a ≠ nc := by
              intro he
              exact (List.nodup_cons.mp h1ndids).1 (he ▸ ha)
            have haM : a ∉ M := by
              intro hm
              obtain ⟨mn, hmn⟩ := hch.mem_get a hm
              rw [hmn] at hafreshT
              cases hafreshT
            rw [h2fr a hanew hanc haM] at h2n
            exact h1occ a (List.mem_cons_of_mem _ ha) h2n
        · intro j hj
          unfold Rose.idsL Rose.ids at hj
          rcases List.mem_append.mp hj with hj | hj
          · rcases List.mem_cons.mp hj with hj | hj
            · subst hj
              rw [h3ncg]
              simp
            · rw [hintfr j hj]
              exact h1occ j (List.mem_cons_of_mem _ hj)
          · exact h3occ j hj
        · refine ⟨max (g0' + 1) g1 + 1, ?_⟩
          intro hd hchHd
          obtain ⟨hhd, ncN', hgncN', htail⟩ := hchHd.cons_inv
          subst hhd
          have hfirst : extractF (max (g0' + 1) g1) t3 nc =
              some (.node (nc, cn'.data) ks0) :=
            (extract_mono t3 _ _ (le_max_left _ _)).1 hext3first
          have hrest3 : extractChainF (max (g0' + 1) g1) t3 ncN'.sibling =
              some ks'' :=
            (extract_mono t3 _ _ (le_max_right _ _)).2 (h3ext ncN'.sibling htail)
          unfold extractChainF
          simp only [hfirst, Option.bind_eq_bind, Option.some_bind, hgncN', hrest3]
        · have e1 : Rose.mapR Prod.snd (Rose.node (nc, cn'.data) ks0) =
              Rose.mapR Prod.snd rt0 := h1strip
          have e2 : Rose.mapRL Prod.snd ks'' = Rose.mapRL Prod.snd rest := h3strip
          show Rose.stripL _ = Rose.stripL _
          unfold Rose.stripL Rose.mapRL
          rw [e1, e2]

/-- C7: gTree_cloneSubtree on a valid node id succeeds with a new id c
whose parent and sibling fields are NONE; the cloned subtree reachable
from c has the same shape, child order and payloads as the original
(equal id-stripped extractions), is built entirely out of slots that
were free in the original tree, and every occupied slot of the original,
in particular the whole subtree under nodeId, is left untouched. -/
theorem gTree_cloneSubtree_correct {α : Type} [Inhabited α] {fuel : Nat}
    {t : Tree α} {nodeId : Nat} {rt : Rose (Nat × α)}
    (hw : PoolWF t.pool)
    (hx : extractF fuel t nodeId = some rt)
    (hnd : (Rose.ids rt).Nodup) :
    ∃ t' c rt', gTree_cloneSubtree fuel t nodeId = .ok (t', c) ∧
      t'.root = t.root ∧ PoolWF t'.pool ∧
      t.pool.get (some c) = none ∧
      (∀ j, t.pool.get (some j) ≠ none →
        t'.pool.get (some j) = t.pool.get (some j)) ∧
      (∃ cn, t'.pool.get (some c) = some cn ∧
        cn.parent = none ∧ cn.sibling = none) ∧
      (∃ g, extractF g t' c = some rt') ∧
      Rose.strip rt' = Rose.strip rt ∧
      (∀ j ∈ Rose.ids rt', t.pool.get (some j) = none) := by
  obtain ⟨t', c, rt', h1, h2, h3, h4, h5, h6, h7, h8, h9, _, _⟩ :=
    (clone_spec fuel).1 t nodeId rt hw hx hnd
  exact ⟨t', c, rt', h1, h2, h3, h4, h5, h6, h7, h8, h9⟩

theorem gTree_cloneSubtree_correct_witness :
    ∃ t' c rt', gTree_cloneSubtree 4 exTree2 0 = .ok (t', c) ∧
      t'.root = exTree2.root ∧ PoolWF t'.pool ∧
      exTree2.pool.get (some c) = none ∧
      (∀ j, exTree2.pool.get (some j) ≠ none →
        t'.pool.get (some j) = exTree2.pool.get (some j)) ∧
      (∃ cn, t'.pool.get (some c) = some cn ∧
        cn.parent = none ∧ cn.sibling = none) ∧
      (∃ g, extractF g t' c = some rt') ∧
      Rose.strip rt' =
        Rose.strip (Rose.node ((0 : Nat), (0 : Int)) [Rose.node (1, 7) []]) ∧
      (∀ j ∈ Rose.ids rt', exTree2.pool.get (some j) = none) :=
  gTree_cloneSubtree_correct
    ⟨List.nodup_nil, by intro i hi; cases hi⟩ rfl (by decide)

/-- Leading tabs are whitespace to consistsOnly. -/
theorem dropWhile_replicate_tab (l : Nat) (xs : List Char) :
    List.dropWhile isSpaceC (List.replicate l '\t' ++ xs) =
      List.dropWhile isSpaceC xs := by
  induction l with
  | zero => rfl
  | succ k ih =>
    rw [List.replicate_succ, List.cons_append, List.dropWhile_cons_of_pos]
    · exact ih
    · decide

/-- A tab-indented line holds the same token content as the bare line. -/
theorem consistsOnly_tabs (l : Nat) (A B : String) :
    consistsOnly (tabs l ++ A) B = consistsOnlyL A.toList B.toList := by
  unfold consistsOnly
  have h1 : (tabs l ++ A).toList = List.replicate l '\t' ++ A.toList := rfl
  rw [h1]
  unfold consistsOnlyL
  rw [dropWhile_replicate_tab]

theorem tok_open_open (l : Nat) : consistsOnly (tabs l ++ "\x7b") "\x7b" = true := by
  rw [consistsOnly_tabs]
  decide

theorem tok_close_open (l : Nat) : consistsOnly (tabs l ++ "\x7d") "\x7b" = false := by
  rw [consistsOnly_tabs]
  decide

theorem tok_close_close (l : Nat) : consistsOnly (tabs l ++ "\x7d") "\x7d" = true := by
  rw [consistsOnly_tabs]
  decide

theorem tok_bracket_open (l : Nat) : consistsOnly (tabs l ++ "[") "\x7b" = false := by
  rw [consistsOnly_tabs]
  decide

theorem tok_bracket_close (l : Nat) : consistsOnly (tabs l ++ "[") "\x7d" = false := by
  rw [consistsOnly_tabs]
  decide

theorem tok_bracket_bracket (l : Nat) : consistsOnly (tabs l ++ "[") "[" = true := by
  rw [consistsOnly_tabs]
  decide

/-- Storing a subtree emits exactly the canonical line format of its
id-stripped extraction; the child loop likewise, in sibling order. -/
theorem store_spec {α : Type} (w : α → Nat → List String) : ∀ fuel : Nat,
    (∀ (t : Tree α) (id : Nat) (rt : Rose (Nat × α)) (lvl : Nat),
      extractF fuel t id = some rt →
      gTree_storeSubTree w fuel t id lvl = .ok (roseStore w (Rose.strip rt) lvl)) ∧
    (∀ (t : Tree α) (cid : Option Nat) (ks : List (Rose (Nat × α))) (lvl : Nat),
      extractChainF fuel t cid = some ks →
      storeChildren w fuel t cid lvl =
        .ok (roseStoreList w (Rose.stripL ks) lvl)) := by
  intro fuel
  induction fuel with
  | zero =>
    constructor
    · intro t id rt lvl h
      cases h
    · intro t cid ks lvl h
      cases h
  | succ k ih =>
    constructor
    · intro t id rt lvl h
      obtain ⟨k', n, cs, hk, hg, hc, hrt⟩ := extractF_shape h
      cases hk
      subst hrt
      unfold gTree_storeSubTree
      rw [Pool.idValid_eq_true hg]
      simp only [if_true, Res.bind_eq_bind, Tree.getNode_eq_ok _ _ _ hg, Res.bind_ok,
        ih.2 t n.child cs (lvl + 1) hc, Res.bind_ok]
      rfl
    · intro t cid ks lvl h
      cases cid with
      | none =>
        cases extractChainF_none h
        rfl
      | some c =>
        obtain ⟨k', rt0, n, rest, hk, hr0, hg, hrest, hks⟩ :=
          extractChainF_shape_cons h
        cases hk
        subst hks
        unfold storeChildren
        simp only [Res.bind_eq_bind, ih.1 t c rt0 lvl hr0, Res.bind_ok,
          Tree.getNode_eq_ok _ _ _ hg, Res.bind_ok, ih.2 t n.sibling rest lvl hrest,
          Res.bind_ok]
        rfl

/-- The restore loop at a closing brace: consume it, drop the bracket
counter to zero and return the tree unchanged with the remaining input. -/
theorem restore_loop_nil {α : Type} [Inhabited α]
    (r : List String → Option (α × List String))
    (fuel : Nat) (t : Tree α) (nodeId : Nat) (n0 : Node α) (C : List Nat)
    (curChild : Option Nat) (lvl : Nat) (rest : List String)
    (hf : 2 ≤ fuel)
    (hw : PoolWF t.pool) (hfl : t.pool.freeList = [])
    (hn0 : t.pool.get (some nodeId) = some n0)
    (hch : ChainRel t n0.child C) :
    ∃ (t' : Tree α) (newIds : List Nat) (ks' : List (Rose (Nat × α))),
      restoreLoop r fuel t nodeId curChild 1 ((tabs lvl ++ "\x7d") :: rest) =
        .ok (t', rest) ∧
      t'.root = t.root ∧ PoolWF t'.pool ∧ t'.pool.freeList = [] ∧
      t.pool.slots.length ≤ t'.pool.slots.length ∧
      (∀ j, j < t.pool.slots.length → j ≠ nodeId → j ∉ C →
        t'.pool.get (some j) = t.pool.get (some j)) ∧
      (∀ m mN, m ∈ C → t.pool.get (some m) = some mN →
        ∃ mN', t'.pool.get (some m) = some mN' ∧ mN'.data = mN.data ∧
          mN'.child = mN.child ∧ mN'.parent = mN.parent) ∧
      (∃ n', t'.pool.get (some nodeId) = some n' ∧ n'.data = n0.data ∧
        n'.parent = n0.parent ∧ n'.sibling = n0.sibling ∧
        ChainRel t' n'.child (C ++ newIds)) ∧
      (∀ j ∈ Rose.idsL ks', t.pool.slots.length ≤ j) ∧
      (∃ g, ∀ hd, ChainRel t' hd newIds → extractChainF g t' hd = some ks') ∧
      Rose.stripL ks' = ([] : List (Rose α)) := by
  obtain ⟨f, rfl⟩ : ∃ f, fuel = f + 2 := ⟨fuel - 2, by omega⟩
  refine ⟨t, [], [], ?_, rfl, hw, hfl, Nat.le_refl _, fun j _ _ _ => rfl,
    fun m mN _ hget => ⟨mN, hget, rfl, rfl, rfl⟩,
    ⟨n0, hn0, rfl, rfl, rfl, by rw [List.append_nil]; exact hch⟩,
    ?_, ⟨1, ?_⟩, rfl⟩
  · show restoreLoop r (f + 1 + 1) t nodeId curChild 1 _ = _
    unfold restoreLoop
    simp only [tok_close_open, tok_close_close, Bool.false_eq_true, if_false,
      if_true, Nat.one_ne_zero, ite_false, ite_true]
    unfold restoreLoop
    simp
  · intro j hj
    unfold Rose.idsL at hj
    cases hj
  · intro hd hchn
    cases hchn.nil_inv
    rfl

/-- gTree_restoreSubTree and its line loop, proved together by strong
induction on the rose size: feeding them the canonical line format of a
rose tree (over any lossless hook pair) rebuilds, out of fresh
sequentially allocated slots, a subtree whose extraction strips back to
that rose.  The loop half restores the remaining child roses `cl` behind
the already rebuilt children `C` of `nodeId`. -/
theorem restore_spec {α : Type} [Inhabited α] {w : α → Nat → List String}
    {r : List String → Option (α × List String)} (hl : Lossless w r) :
    ∀ N : Nat,
    (∀ (v : α) (cs : List (Rose α)), Rose.sizeR (.node v cs) ≤ N →
      ∀ (fuel : Nat) (t : Tree α) (nodeId : Nat) (n0 : Node α) (lvl : Nat)
        (rest : List String),
      2 * Rose.sizeR (Rose.node v cs) + 2 ≤ fuel →
      PoolWF t.pool → t.pool.freeList = [] →
      t.pool.get (some nodeId) = some n0 → n0.child = none →
      ∃ t', gTree_restoreSubTree r fuel t nodeId (roseBody w v cs lvl ++ rest) =
          .ok (t', rest) ∧
        t'.root = t.root ∧ PoolWF t'.pool ∧ t'.pool.freeList = [] ∧
        t.pool.slots.length ≤ t'.pool.slots.length ∧
        (∀ j, j < t.pool.slots.length → j ≠ nodeId →
          t'.pool.get (some j) = t.pool.get (some j)) ∧
        (∃ n' ks' g, t'.pool.get (some nodeId) = some n' ∧
          n'.data = v ∧ n'.parent = n0.parent ∧ n'.sibling = n0.sibling ∧
          extractF g t' nodeId = some (.node (nodeId, v) ks') ∧
          Rose.stripL ks' = cs ∧
          (∀ j ∈ Rose.idsL ks', t.pool.slots.length ≤ j))) ∧
    (∀ (cl : List (Rose α)), Rose.sizeL cl ≤ N →
      ∀ (fuel : Nat) (t : Tree α) (nodeId : Nat) (n0 : Node α) (C : List Nat)
        (curChild : Option Nat) (lvl : Nat) (rest : List String),
      2 * Rose.sizeL cl + 2 ≤ fuel →
      PoolWF t.pool → t.pool.freeList = [] →
      t.pool.get (some nodeId) = some n0 →
      ChainRel t n0.child C →
      nodeId ∉ C →
      curChild = C.getLast? →
      ∃ t' newIds ks',
        restoreLoop r fuel t nodeId curChild 1
            (roseStoreList w cl (lvl + 1) ++ (tabs lvl ++ "\x7d") :: rest) =
          .ok (t', rest) ∧
        t'.root = t.root ∧ PoolWF t'.pool ∧ t'.pool.freeList = [] ∧
        t.pool.slots.length ≤ t'.pool.slots.length ∧
        (∀ j, j < t.pool.slots.length → j ≠ nodeId → j ∉ C →
          t'.pool.get (some j) = t.pool.get (some j)) ∧
        (∀ m mN, m ∈ C → t.pool.get (some m) = some mN →
          ∃ mN', t'.pool.get (some m) = some mN' ∧ mN'.data = mN.data ∧
            mN'.child = mN.child ∧ mN'.parent = mN.parent) ∧
        (∃ n', t'.pool.get (some nodeId) = some n' ∧ n'.data = n0.data ∧
          n'.parent = n0.parent ∧ n'.sibling = n0.sibling ∧
          ChainRel t' n'.child (C ++ newIds)) ∧
        (∀ j ∈ Rose.idsL ks', t.pool.slots.length ≤ j) ∧
        (∃ g, ∀ hd, ChainRel t' hd newIds → extractChainF g t' hd = some ks') ∧
        Rose.stripL ks' = cl) := by
  intro N
  induction N with
  | zero =>
    constructor
    · intro v cs hsz
      unfold Rose.sizeR at hsz
      omega
    · intro cl hsz
      cases cl with
      | nil =>
        intro fuel t nodeId n0 C curChild lvl rest hf hw hfl hn0 hch hnC hcur
        exact restore_loop_nil r fuel t nodeId n0 C curChild lvl rest
          (by omega) hw hfl hn0 hch
      | cons c cs' =>
        unfold Rose.sizeL at hsz
        cases c with
        | node cv ccs =>
          unfold Rose.sizeR at hsz
          omega
  | succ N ihN =>
    obtain ⟨ihS, ihL⟩ := ihN
    constructor
    · intro v cs hsz fuel t nodeId n0 lvl rest hf hw hfl hn0 hchild
      unfold Rose.sizeR at hsz hf
      have hinput : roseBody w v cs lvl ++ rest =
          (tabs (lvl + 1) ++ "[") :: (w v (lvl + 2) ++ ((tabs (lvl + 1) ++ "]") ::
            (roseStoreList w cs (lvl + 1) ++ (tabs lvl ++ "\x7d") :: rest))) := by
        unfold roseBody
        simp [List.append_assoc]
      obtain ⟨f1, rfl⟩ : ∃ f1, fuel = f1 + 1 + 1 := ⟨fuel - 2, by omega⟩
      unfold gTree_restoreSubTree
      rw [Pool.idValid_eq_true hn0]
      simp only [if_true, Res.bind_eq_bind, Tree.getNode_eq_ok _ _ _ hn0,
        Res.bind_ok]
      rw [hinput]
      unfold restoreLoop
      simp only [tok_bracket_open, tok_bracket_close, tok_bracket_bracket,
        Bool.false_eq_true, if_false, if_true, Nat.one_ne_zero, ite_false,
        ite_true, hl v lvl]
      set t1 := t.wData nodeId v with ht1
      have h1n : t1.pool.get (some nodeId) = some { n0 with data := v } :=
        t.get_wData_self nodeId v _ hn0
      have h1fr : ∀ j, j ≠ nodeId → t1.pool.get (some j) = t.pool.get (some j) := by
        intro j hj
        rw [ht1, Tree.get_wData_ne _ _ _ (Ne.symm hj)]
      have h1wf : PoolWF t1.pool := PoolWF_modify _ _ _ hw
      have h1fl : t1.pool.freeList = [] := by
        rw [ht1]
        simp only [Tree.wData, Tree.freeList_modify]
        exact hfl
      have h1len : t1.pool.slots.length = t.pool.slots.length := by
        rw [ht1]
        simp only [Tree.wData, Tree.length_modify]
      have hch1 : ChainRel t1 ({ n0 with data := v } : Node α).child [] := by
        rw [show ({ n0 with data := v } : Node α).child = n0.child from rfl, hchild]
        exact .nil
      obtain ⟨t2', newIds, ks', hok, hroot2, hwf2, hfl2, hlen2, hfr2, hpres2,
          ⟨n', hn', hdata', hpar', hsib', hch'⟩, hbound2, ⟨g, hext2⟩, hstrip2⟩ :=
        ihL cs (by omega) f1 t1 nodeId { n0 with data := v } [] none lvl rest
          (by omega) h1wf h1fl h1n hch1 (by simp) rfl
      refine ⟨t2', hok, ?_, hwf2, hfl2, ?_, ?_, ?_⟩
      · rw [hroot2, ht1]
        simp only [Tree.wData, Tree.root_modify]
      · rw [← h1len]
        exact hlen2
      · intro j hjlt hjne
        rw [hfr2 j (by rw [h1len]; exact hjlt) hjne (by simp), h1fr j hjne]
      · refine ⟨n', ks', g + 1, hn', hdata', hpar', hsib', ?_, hstrip2, ?_⟩
        · have hchain : extractChainF g t2' n'.child = some ks' :=
            hext2 n'.child (List.nil_append newIds ▸ hch')
          unfold extractF
          rw [hn']
          simp only [Option.bind_eq_bind, Option.some_bind, hchain, hdata']
        · intro j hj
          rw [← h1len]
          exact hbound2 j hj
    · intro cl hsz
      cases cl with
      | nil =>
        intro fuel t nodeId n0 C curChild lvl rest hf hw hfl hn0 hch hnC hcur
        exact restore_loop_nil r fuel t nodeId n0 C curChild lvl rest
          (by omega) hw hfl hn0 hch
      | cons c cs' =>
        cases c with
        | node cv ccs =>
        intro fuel t nodeId n0 C curChild lvl rest hf hw hfl hn0 hch hnC hcur
        unfold Rose.sizeL at hsz hf
        unfold Rose.sizeR at hsz hf
        have hinput : roseStoreList w (Rose.node cv ccs :: cs') (lvl + 1) ++
              (tabs lvl ++ "\x7d") :: rest =
            (tabs (lvl + 1) ++ "\x7b") :: (roseBody w cv ccs (lvl + 1) ++
              (roseStoreList w cs' (lvl + 1) ++ (tabs lvl ++ "\x7d") :: rest)) := by
          rw [show roseStoreList w (Rose.node cv ccs :: cs') (lvl + 1) =
                roseStore w (Rose.node cv ccs) (lvl + 1) ++
                  roseStoreList w cs' (lvl + 1) from rfl,
            show roseStore w (Rose.node cv ccs) (lvl + 1) =
                (tabs (lvl + 1) ++ "\x7b") :: roseBody w cv ccs (lvl + 1) from rfl]
          simp [List.append_assoc]
        obtain ⟨f1, rfl⟩ : ∃ f1, fuel = f1 + 1 := ⟨fuel - 1, by omega⟩
        rw [hinput]
        unfold restoreLoop
        simp only [tok_open_open, if_true, Nat.one_ne_zero, ite_false, ite_true,
          Bool.false_eq_true, if_false]
        obtain ⟨t1, newId, hok1, hfresh1, h1new,
            ⟨nd', h1node, hdata', hpar', hsib', hch1'⟩, hseq1, h1fr, h1frL, h1last,
            h1root, h1wf, h1len, h1sub, h1empty⟩ :=
          addChild_spec default hw hn0 hch hnC
        obtain ⟨hnewEq, h1lenEq, h1fl⟩ := h1empty hfl
        simp only [Res.bind_eq_bind, hok1, Res.bind_ok]
        set t2 := (t1.wParent newId (some nodeId)).wChild newId none with ht2
        have h2new : t2.pool.get (some newId) =
            some (⟨default, none, some nodeId, none⟩ : Node α) := by
          have s1 := t1.get_wParent_self newId (some nodeId) _ h1new
          exact (t1.wParent newId (some nodeId)).get_wChild_self newId none _ s1
        have h2fr : ∀ j, j ≠ newId →
            t2.pool.get (some j) = t1.pool.get (some j) := by
          intro j hj
          rw [ht2, Tree.get_wChild_ne _ _ _ (Ne.symm hj),
            Tree.get_wParent_ne _ _ _ (Ne.symm hj)]
        have h2wf : PoolWF t2.pool :=
          PoolWF_modify _ _ _ (PoolWF_modify _ _ _ h1wf)
        have h2fl : t2.pool.freeList = [] := by
          rw [ht2]
          simp only [Tree.wChild, Tree.wParent, Tree.freeList_modify]
          exact h1fl
        have h2len : t2.pool.slots.length = t.pool.slots.length + 1 := by
          rw [ht2]
          simp only [Tree.wChild, Tree.wParent, Tree.length_modify]
          exact h1lenEq
        have h2root : t2.root = t.root := by
          rw [ht2]
          simp only [Tree.wChild, Tree.wParent, Tree.root_modify]
          exact h1root
        have hnidlt : nodeId < t.pool.slots.length := t.pool.get_lt_length _ _ hn0
        have hnodenew : nodeId ≠ newId := by omega
        obtain ⟨t3, hok3, h3root, h3wf, h3fl, h3len, h3fr,
            ⟨n3c, ks0, g0, h3cn, h3cdata, h3cpar, h3csib, h3ext, h3strip,
              h3bound⟩⟩ :=
          ihS cv ccs (by unfold Rose.sizeR; omega) f1 t2 newId
            ⟨default, none, some nodeId, none⟩
            (lvl + 1) (roseStoreList w cs' (lvl + 1) ++ (tabs lvl ++ "\x7d") :: rest)
            (by unfold Rose.sizeR; omega) h2wf h2fl h2new rfl
        simp only [hok3, Res.bind_ok]
        have h3nodeId : t3.pool.get (some nodeId) = some nd' := by
          rw [h3fr nodeId (by omega) hnodenew, h2fr nodeId hnodenew]
          exact h1node
        have hCnew : ∀ m ∈ C, m ≠ newId := by
          intro m hm
          have := hch.mem_lt m hm
          omega
        have h3C : ∀ m ∈ C, t3.pool.get (some m) = t1.pool.get (some m) := by
          intro m hm
          rw [h3fr m (by have := hch.mem_lt m hm; omega) (hCnew m hm),
            h2fr m (hCnew m hm)]
        have h3newval : t3.pool.get (some newId) = some n3c := h3cn
        suffices hcont : ∀ t4 : Tree α, t4.root = t3.root → PoolWF t4.pool →
            t4.pool.freeList = [] →
            t4.pool.slots.length = t3.pool.slots.length →
            (∃ n4, t4.pool.get (some nodeId) = some n4 ∧ n4.data = nd'.data ∧
              n4.parent = nd'.parent ∧ n4.sibling = nd'.sibling ∧
              ChainRel t4 n4.child (C ++ [newId])) →
            (∀ j, j ≠ nodeId → j ∉ C →
              t4.pool.get (some j) = t3.pool.get (some j)) →
            (∀ m mN, m ∈ C → t3.pool.get (some m) = some mN →
              ∃ mN4, t4.pool.get (some m) = some mN4 ∧ mN4.data = mN.data ∧
                mN4.child = mN.child ∧ mN4.parent = mN.parent) →
            ∃ t' newIds ks',
              restoreLoop r f1 t4 nodeId (some newId) (1 + 1 - 1)
                  (roseStoreList w cs' (lvl + 1) ++ (tabs lvl ++ "\x7d") :: rest) =
                .ok (t', rest) ∧
              t'.root = t.root ∧ PoolWF t'.pool ∧ t'.pool.freeList = [] ∧
              t.pool.slots.length ≤ t'.pool.slots.length ∧
              (∀ j, j < t.pool.slots.length → j ≠ nodeId → j ∉ C →
                t'.pool.get (some j) = t.pool.get (some j)) ∧
              (∀ m mN, m ∈ C → t.pool.get (some m) = some mN →
                ∃ mN', t'.pool.get (some m) = some mN' ∧ mN'.data = mN.data ∧
                  mN'.child = mN.child ∧ mN'.parent = mN.parent) ∧
              (∃ n', t'.pool.get (some nodeId) = some n' ∧ n'.data = n0.data ∧
                n'.parent = n0.parent ∧ n'.sibling = n0.sibling ∧
                ChainRel t' n'.child (C ++ newIds)) ∧
              (∀ j ∈ Rose.idsL ks', t.pool.slots.length ≤ j) ∧
              (∃ g, ∀ hd, ChainRel t' hd newIds →
                extractChainF g t' hd = some ks') ∧
              Rose.stripL ks' = Rose.node cv ccs :: cs' by
          cases hcurv : curChild with
          | none =>
            have hCnil : C = [] := List.getLast?_eq_none_iff.mp (hcurv ▸ hcur).symm
            subst hCnil
            refine hcont (t3.wChild nodeId (some newId)) ?_ ?_ ?_ ?_ ?_ ?_ ?_
            · simp only [Tree.wChild, Tree.root_modify]
            · exact PoolWF_modify _ _ _ h3wf
            · simp only [Tree.wChild, Tree.freeList_modify]
              exact h3fl
            · simp only [Tree.wChild, Tree.length_modify]
            · refine ⟨{ nd' with child := some newId },
                t3.get_wChild_self nodeId _ _ h3nodeId, rfl, rfl, rfl, ?_⟩
              show ChainRel _ (some newId) ([] ++ [newId])
              rw [List.nil_append]
              refine @ChainRel.cons α _ newId n3c [] ?_ ?_
              · rw [Tree.get_wChild_ne _ _ _ hnodenew]
                exact h3cn
              · have hsib3 : n3c.sibling = none := h3csib
                rw [hsib3]
                exact .nil
            · intro j hjne _
              rw [Tree.get_wChild_ne _ _ _ (Ne.symm hjne)]
            · intro m mN hm
              cases hm
          | some prev =>
            have hlastC : C.getLast? = some prev := (hcurv ▸ hcur).symm
            have hprevC : prev ∈ C := mem_of_getLast?_eq hlastC
            obtain ⟨prevN, hprevN⟩ := hch.mem_get prev hprevC
            have hprevNe : prev ≠ newId := hCnew prev hprevC
            have hprevNode : prev ≠ nodeId := by
              intro he
              exact hnC (he ▸ hprevC)
            have h1prev : t1.pool.get (some prev) =
                some { prevN with sibling := some newId } :=
              h1last prev prevN hlastC hprevN
            have h3prev : t3.pool.get (some prev) =
                some { prevN with sibling := some newId } := by
              rw [h3C prev hprevC]
              exact h1prev
            refine hcont (t3.wSibling prev (some newId)) ?_ ?_ ?_ ?_ ?_ ?_ ?_
            · simp only [Tree.wSibling, Tree.root_modify]
            · exact PoolWF_modify _ _ _ h3wf
            · simp only [Tree.wSibling, Tree.freeList_modify]
              exact h3fl
            · simp only [Tree.wSibling, Tree.length_modify]
            · refine ⟨nd', ?_, rfl, rfl, rfl, ?_⟩
              · rw [Tree.get_wSibling_ne _ _ _ hprevNode]
                exact h3nodeId
              · refine hch1'.congr_sibling ?_
                intro j hj n hn
                by_cases hjprev : j = prev
                · subst hjprev
                  rw [h1prev] at hn
                  cases hn
                  exact ⟨_, t3.get_wSibling_self j (some newId) _ h3prev, rfl⟩
                · by_cases hjnew : j = newId
                  · subst hjnew
                    rw [h1new] at hn
                    cases hn
                    refine ⟨n3c, ?_, h3csib⟩
                    rw [Tree.get_wSibling_ne _ _ _ hprevNe]
                    exact h3cn
                  · have hjC : j ∈ C := by
                      rcases List.mem_append.mp hj with h | h
                      · exact h
                      · exact absurd (by simpa using h) hjnew
                    refine ⟨n, ?_, rfl⟩
                    rw [Tree.get_wSibling_ne _ _ _ (Ne.symm hjprev), h3C j hjC]
                    exact hn
            · intro j hjne hjC
              have hpj : prev ≠ j := fun he => hjC (he ▸ hprevC)
              rw [Tree.get_wSibling_ne _ _ _ hpj]
            · intro m mN hm hmg
              by_cases hmp : m = prev
              · subst hmp
                exact ⟨_, t3.get_wSibling_self m (some newId) _ hmg,
                  rfl, rfl, rfl⟩
              · refine ⟨mN, ?_, rfl, rfl, rfl⟩
                rw [Tree.get_wSibling_ne _ _ _ (fun he => hmp he.symm)]
                exact hmg
        intro t4 h4root h4wf h4fl h4len h4pack h4fr h4pres
        obtain ⟨n4, h4n, h4data, h4par, h4sib, h4ch⟩ := h4pack
        have hnC' : nodeId ∉ C ++ [newId] := by
          intro hm
          rcases List.mem_append.mp hm with hm | hm
          · exact hnC hm
          · exact hnodenew (by simpa using hm)
        have hlast' : (some newId : Option Nat) = (C ++ [newId]).getLast? := by
          rw [List.getLast?_concat]
        obtain ⟨t5, newIds', ks'', hok5, h5root, h5wf, h5fl, h5len, h5fr, h5pres,
            ⟨n5, h5n, h5data, h5par, h5sib, h5ch⟩, h5bound, ⟨g1, h5ext⟩,
            h5strip⟩ :=
          ihL cs' (by omega) f1 t4 nodeId n4 (C ++ [newId]) (some newId) lvl rest
            (by omega) h4wf h4fl h4n h4ch hnC' hlast'
        have hocc3 := (extract_occupied t3 g0).1 h3ext
        have hint : ∀ j ∈ Rose.idsL ks0,
            t5.pool.get (some j) = t3.pool.get (some j) := by
          intro j hj
          have hjb : t2.pool.slots.length ≤ j := h3bound j hj
          have hjnode : j ≠ nodeId := by omega
          have hjC : j ∉ C := by
            intro hm
            have := hch.mem_lt j hm
            omega
          have hjnew : j ≠ newId := by omega
          have hjCne : j ∉ C ++ [newId] := by
            intro hm
            rcases List.mem_append.mp hm with hm | hm
            · exact hjC hm
            · exact hjnew (by simpa using hm)
          have hjocc : t3.pool.get (some j) ≠ none := by
            refine hocc3 j ?_
            unfold Rose.ids
            exact List.mem_cons_of_mem _ hj
          have hjlt : j < t3.pool.slots.length := by
            rcases ho : t3.pool.get (some j) with _ | nn
            · exact absurd ho hjocc
            · exact t3.pool.get_lt_length j nn ho
          rw [h5fr j (by rw [h4len]; exact hjlt) hjnode hjCne, h4fr j hjnode hjC]
        have hnewmem : newId ∈ C ++ [newId] :=
          List.mem_append_right _ (List.mem_singleton.mpr rfl)
        have h4new : t4.pool.get (some newId) = some n3c := by
          rw [h4fr newId (Ne.symm hnodenew) (fun hm => hCnew newId hm rfl)]
          exact h3cn
        obtain ⟨nn5, h5new, h5ndata, h5nchild, h5npar⟩ := h5pres newId n3c hnewmem h4new
        have hext5 : extractF g0 t5 newId = some (.node (newId, cv) ks0) :=
          extractF_root_relink h3ext h3cn h5new h5ndata h5nchild hint
        refine ⟨t5, newId :: newIds', Rose.node (newId, cv) ks0 :: ks'', hok5,
          ?_, h5wf, h5fl, ?_, ?_, ?_, ?_, ?_, ?_, ?_⟩
        · rw [h5root, h4root, h3root, h2root]
        · have h45 := h5len
          rw [h4len] at h45
          omega
        · intro j hjlt hjnode hjC
          have hjnew : j ≠ newId := by omega
          have hjCne : j ∉ C ++ [newId] := by
            intro hm
            rcases List.mem_append.mp hm with hm | hm
            · exact hjC hm
            · exact hjnew (by simpa using hm)
          have hjlt3 : j < t3.pool.slots.length := by omega
          rw [h5fr j (by rw [h4len]; exact hjlt3) hjnode hjCne,
            h4fr j hjnode hjC, h3fr j (by omega) hjnew, h2fr j hjnew,
            h1fr j hjnode hjnew hjC]
        · intro m mN hm hmg
          have hm1 : ∃ mN1, t1.pool.get (some m) = some mN1 ∧ mN1.data = mN.data ∧
              mN1.child = mN.child ∧ mN1.parent = mN.parent := by
            by_cases hlm : C.getLast? = some m
            · exact ⟨_, h1last m mN hlm hmg, rfl, rfl, rfl⟩
            · refine ⟨mN, ?_, rfl, rfl, rfl⟩
              rw [h1frL m hm hlm]
              exact hmg
          obtain ⟨mN1, hm1g, hm1d, hm1c, hm1p⟩ := hm1
          have hm3 : t3.pool.get (some m) = some mN1 := by
            rw [h3C m hm]
            exact hm1g
          obtain ⟨mN4, hm4g, hm4d, hm4c, hm4p⟩ := h4pres m mN1 hm hm3
          obtain ⟨mN5, hm5g, hm5d, hm5c, hm5p⟩ :=
            h5pres m mN4 (List.mem_append_left _ hm) hm4g
          exact ⟨mN5, hm5g, by rw [hm5d, hm4d, hm1d], by rw [hm5c, hm4c, hm1c],
            by rw [hm5p, hm4p, hm1p]⟩
        · refine ⟨n5, h5n, ?_, ?_, ?_, ?_⟩
          · rw [h5data, h4data, hdata']
          · rw [h5par, h4par, hpar']
          · rw [h5sib, h4sib, hsib']
          · have hchf := h5ch
            rw [List.append_assoc] at hchf
            simpa [List.singleton_append] using hchf
        · intro j hj
          unfold Rose.idsL Rose.ids at hj
          rcases List.mem_append.mp hj with hj | hj
          · rcases List.mem_cons.mp hj with hj | hj
            · subst hj
              omega
            · have := h3bound j hj
              omega
          · have := h5bound j hj
            have h45 := h4len
            omega
        · refine ⟨max g0 g1 + 1, ?_⟩
          intro hd hchHd
          obtain ⟨hhd, ncN', hgncN', htail⟩ := hchHd.cons_inv
          subst hhd
          have hfirst := (extract_mono t5 _ _ (le_max_left g0 g1)).1 hext5
          have hrest5 := (extract_mono t5 _ _ (le_max_right g0 g1)).2
            (h5ext ncN'.sibling htail)
          unfold extractChainF
          simp only [hfirst, Option.bind_eq_bind, Option.some_bind, hgncN', hrest5]
        · have e2 : Rose.mapRL Prod.snd ks0 = ccs := h3strip
          have e3 : Rose.mapRL Prod.snd ks'' = cs' := h5strip
          show Rose.stripL _ = _
          unfold Rose.stripL Rose.mapRL
          rw [show Rose.mapR Prod.snd (Rose.node (newId, cv) ks0) =
            Rose.node cv (Rose.mapRL Prod.snd ks0) from rfl, e2, e3]

/-- C2: storing a tree from its root with any lossless hook pair and
restoring the resulting text yields a tree whose root subtree extraction
has the same id-stripped rose tree — the same shape, the same child
order at every node, and the same payloads — while the slot ids assigned
by the restore may differ. -/
theorem gTree_storeRestore_roundTrip {α : Type} [Inhabited α]
    {w : α → Nat → List String} {r : List String → Option (α × List String)}
    (hl : Lossless w r)
    {fuel : Nat} {t : Tree α} {rt : Rose (Nat × α)}
    (hx : extractF fuel t t.root = some rt) :
    ∃ lines, gTree_storeSubTree w fuel t t.root 0 = .ok lines ∧
      ∀ F, 2 * Rose.sizeR (Rose.strip rt) + 2 ≤ F →
      ∃ t' rt' g, gTree_restoreTree r F lines = .ok t' ∧
        extractF g t' t'.root = some rt' ∧
        Rose.strip rt' = Rose.strip rt := by
  obtain ⟨k, n, cs, hk, hg, hc, hrt⟩ := extractF_shape hx
  subst hrt
  have hstore := (store_spec w fuel).1 t t.root _ 0 hx
  have hstrip : Rose.strip (Rose.node (t.root, n.data) cs) =
      Rose.node n.data (Rose.stripL cs) := rfl
  refine ⟨_, hstore, ?_⟩
  intro F hF
  rw [hstrip] at hF
  have hctor : (gTree_ctor α).pool.get (some (gTree_ctor α).root) =
      some ⟨default, none, none, none⟩ := rfl
  have hwf0 : PoolWF (gTree_ctor α).pool :=
    ⟨List.nodup_nil, fun i hi => absurd hi (List.not_mem_nil i)⟩
  obtain ⟨t', hok, hroot', hwf', hfl', hlen', hfr',
      ⟨n', ks', g, hn', hdata', hpar', hsib', hext', hstrip', hbound'⟩⟩ :=
    (restore_spec hl (Rose.sizeR (Rose.node n.data (Rose.stripL cs)))).1
      n.data (Rose.stripL cs) (Nat.le_refl _) F (gTree_ctor α)
      (gTree_ctor α).root ⟨default, none, none, none⟩ 0 [] hF hwf0 rfl hctor rfl
  rw [List.append_nil] at hok
  refine ⟨t', Rose.node ((gTree_ctor α).root, n.data) ks', g, ?_, ?_, ?_⟩
  · show gTree_restoreTree r F
      (roseStore w (Rose.node n.data (Rose.stripL cs)) 0) = .ok t'
    unfold gTree_restoreTree
    rw [show roseStore w (Rose.node n.data (Rose.stripL cs)) 0 =
      (tabs 0 ++ "\x7b") :: roseBody w n.data (Rose.stripL cs) 0 from rfl]
    simp only [tok_open_open, if_true, ite_true, Res.bind_eq_bind, hok,
      Res.bind_ok]
  · rw [hroot']
    exact hext'
  · rw [hstrip]
    show Rose.node n.data (Rose.mapRL Prod.snd ks') = _
    rw [show Rose.stripL ks' = Rose.mapRL Prod.snd ks' from rfl] at hstrip'
    rw [hstrip']

theorem gTree_storeRestore_roundTrip_witness :
    ∃ lines, gTree_storeSubTree hookW 4 exTree4 exTree4.root 0 = .ok lines ∧
      ∀ F, 2 * Rose.sizeR
          (Rose.strip (Rose.node ((0 : Nat), "r") [Rose.node (1, "a") []])) + 2 ≤ F →
      ∃ t' rt' g, gTree_restoreTree hookR F lines = .ok t' ∧
        extractF g t' t'.root = some rt' ∧
        Rose.strip rt' =
          Rose.strip (Rose.node ((0 : Nat), "r") [Rose.node (1, "a") []]) :=
  gTree_storeRestore_roundTrip (fun _ _ _ => rfl) rfl

theorem Res.bind_assoc {β γ δ : Type} (x : Res β) (f : β → Res γ)
    (g : γ → Res δ) : (x.bind f).bind g = x.bind fun a => (f a).bind g := by
  cases x <;> rfl

theorem Res.bind_ok_inv {β γ : Type} {x : Res β} {f : β → Res γ} {b : γ}
    (h : x.bind f = .ok b) : ∃ a, x = .ok a ∧ f a = .ok b := by
  cases x with
  | ok a => exact ⟨a, rfl, h⟩
  | err e => cases h
  | dv => cases h

theorem Tree.getNode_ok_inv {α : Type} {t : Tree α} {id : Option Nat} {n : Node α}
    (h : t.getNode id = .ok n) : t.pool.get id = some n := by
  unfold Tree.getNode at h
  cases hg : t.pool.get id with
  | none =>
    rw [hg] at h
    cases h
  | some m =>
    rw [hg] at h
    cases h
    rfl

theorem Tree.poolFree_ok_inv {α : Type} {t : Tree α} {i : Nat} {t' : Tree α}
    (h : t.poolFree (some i) = .ok t') :
    ∃ n, t.pool.get (some i) = some n ∧
      t' = ⟨t.root, ⟨t.pool.slots.set i none, i :: t.pool.freeList⟩⟩ := by
  unfold Tree.poolFree at h
  cases hp : t.pool.free (some i) with
  | none =>
    rw [hp] at h
    cases h
  | some p =>
    rw [hp] at h
    cases h
    simp only [Pool.free] at hp
    cases hg : t.pool.slots.getD i none with
    | none =>
      rw [hg] at hp
      cases hp
    | some n =>
      rw [hg] at hp
      cases hp
      exact ⟨n, hg, rfl⟩

theorem Tree.modify_free {α : Type} {t : Tree α} {i : Nat} (f : Node α → Node α)
    (h : t.pool.get (some i) = none) : t.modify i f = t := by
  rw [Pool.get_some] at h
  unfold Tree.modify
  rw [h]

/-- The root invariant survives a slot update whose new node points
neither child nor sibling at the root, and keeps the root parentless and
siblingless when the root slot itself is rewritten. -/
theorem RootInv_modify {α : Type} {t : Tree α} {i : Nat} {f : Node α → Node α}
    (hInv : RootInv t)
    (hf : ∀ n, t.pool.get (some i) = some n →
      (f n).child ≠ some t.root ∧ (f n).sibling ≠ some t.root ∧
      (i = t.root → (f n).parent = none ∧ (f n).sibling = none)) :
    RootInv (t.modify i f) ∧ (t.modify i f).root = t.root := by
  obtain ⟨hwf, ⟨rn, hrn, hrp, hrs⟩, hptr⟩ := hInv
  refine ⟨⟨PoolWF_modify _ _ _ hwf, ?_, ?_⟩, Tree.root_modify _ _ _⟩
  · rw [Tree.root_modify]
    by_cases hi : i = t.root
    · subst hi
      obtain ⟨h1, h2, h3⟩ := hf rn hrn
      exact ⟨f rn, t.get_modify_self t.root f rn hrn, (h3 rfl).1, (h3 rfl).2⟩
    · refine ⟨rn, ?_, hrp, hrs⟩
      rw [t.get_modify_ne i f hi]
      exact hrn
  · intro j n' hj
    rw [Tree.root_modify]
    by_cases hji : j = i
    · subst hji
      cases hocc : t.pool.get (some j) with
      | none =>
        rw [Tree.modify_free f hocc] at hj
        rw [hj] at hocc
        cases hocc
      | some m =>
        rw [t.get_modify_self j f m hocc] at hj
        cases hj
        obtain ⟨h1, h2, _⟩ := hf m hocc
        exact ⟨h1, h2⟩
    · rw [t.get_modify_ne i f (fun he => hji he.symm)] at hj
      exact hptr j n' hj

theorem RootInv_wData {α : Type} {t : Tree α} (i : Nat) (v : α)
    (hInv : RootInv t) :
    RootInv (t.wData i v) ∧ (t.wData i v).root = t.root := by
  refine RootInv_modify hInv ?_
  intro n hn
  obtain ⟨h1, h2⟩ := hInv.2.2 i n hn
  refine ⟨h1, h2, ?_⟩
  intro hi
  subst hi
  obtain ⟨rn, hrn, hrp, hrs⟩ := hInv.2.1
  rw [hn] at hrn
  cases hrn
  exact ⟨hrp, hrs⟩

theorem RootInv_wChild {α : Type} {t : Tree α} (i : Nat) (v : Option Nat)
    (hv : v ≠ some t.root) (hInv : RootInv t) :
    RootInv (t.wChild i v) ∧ (t.wChild i v).root = t.root := by
  refine RootInv_modify hInv ?_
  intro n hn
  obtain ⟨h1, h2⟩ := hInv.2.2 i n hn
  refine ⟨hv, h2, ?_⟩
  intro hi
  subst hi
  obtain ⟨rn, hrn, hrp, hrs⟩ := hInv.2.1
  rw [hn] at hrn
  cases hrn
  exact ⟨hrp, hrs⟩

theorem RootInv_wParent {α : Type} {t : Tree α} (i : Nat) (v : Option Nat)
    (hv : i = t.root → v = none) (hInv : RootInv t) :
    RootInv (t.wParent i v) ∧ (t.wParent i v).root = t.root := by
  refine RootInv_modify hInv ?_
  intro n hn
  obtain ⟨h1, h2⟩ := hInv.2.2 i n hn
  refine ⟨h1, h2, ?_⟩
  intro hi
  subst hi
  obtain ⟨rn, hrn, hrp, hrs⟩ := hInv.2.1
  rw [hn] at hrn
  cases hrn
  exact ⟨hv rfl, hrs⟩

theorem RootInv_wSibling {α : Type} {t : Tree α} (i : Nat) (v : Option Nat)
    (hv : v ≠ some t.root) (hvr : i = t.root → v = none) (hInv : RootInv t) :
    RootInv (t.wSibling i v) ∧ (t.wSibling i v).root = t.root := by
  refine RootInv_modify hInv ?_
  intro n hn
  obtain ⟨h1, h2⟩ := hInv.2.2 i n hn
  refine ⟨h1, hv, ?_⟩
  intro hi
  subst hi
  obtain ⟨rn, hrn, hrp, hrs⟩ := hInv.2.1
  rw [hn] at hrn
  cases hrn
  exact ⟨hrp, hvr rfl⟩

/-- Allocation never yields the root slot (the root is occupied, free
slots are not) and preserves the root invariant: the fresh node carries
no pointers at all. -/
theorem RootInv_alloc {α : Type} [Inhabited α] {t : Tree α} {t1 : Tree α} {c : Nat}
    (hInv : RootInv t) (halloc : t.allocNode = (t1, c)) :
    RootInv t1 ∧ t1.root = t.root ∧ c ≠ t.root := by
  obtain ⟨hwf, ⟨rn, hrn, hrp, hrs⟩, hptr⟩ := hInv
  obtain ⟨hfresh, hnew, hfr, hroot, hwf1, hlen, hsub⟩ := allocNode_spec t hwf halloc
  have hcr : c ≠ t.root := by
    intro he
    rw [he, hrn] at hfresh
    cases hfresh
  refine ⟨⟨hwf1, ?_, ?_⟩, hroot, hcr⟩
  · rw [hroot]
    refine ⟨rn, ?_, hrp, hrs⟩
    rw [hfr t.root (Ne.symm hcr)]
    exact hrn
  · intro j n' hj
    rw [hroot]
    by_cases hjc : j = c
    · subst hjc
      rw [hnew] at hj
      cases hj
      constructor
      · intro h
        simp [defaultNode] at h
      · intro h
        simp [defaultNode] at h
    · rw [hfr j hjc] at hj
      exact hptr j n' hj

/-- Freeing a non-root slot preserves the root invariant. -/
theorem RootInv_free {α : Type} {t : Tree α} {i : Nat} {t' : Tree α}
    (hInv : RootInv t) (hir : i ≠ t.root)
    (h : t.poolFree (some i) = .ok t') :
    RootInv t' ∧ t'.root = t.root := by
  obtain ⟨n, hocc, ht'⟩ := Tree.poolFree_ok_inv h
  have hocc' : t.pool.get (some i) = some n := hocc
  obtain ⟨hfree, hfnone, hffr, hfwf⟩ :=
    poolFree_spec t i n (by rw [Pool.get_some]; exact hocc) hInv.1
  subst ht'
  obtain ⟨hwf, ⟨rn, hrn, hrp, hrs⟩, hptr⟩ := hInv
  refine ⟨⟨hfwf, ⟨rn, ?_, hrp, hrs⟩, ?_⟩, rfl⟩
  · rw [show (⟨t.root, ⟨t.pool.slots.set i none, i :: t.pool.freeList⟩⟩ : Tree α).root
      = t.root from rfl]
    have := hffr t.root (Ne.symm hir)
    rw [this]
    exact hrn
  · intro j n' hj
    by_cases hji : j = i
    · subst hji
      rw [show (⟨t.root, ⟨t.pool.slots.set j none, j :: t.pool.freeList⟩⟩ :
        Tree α).pool.get (some j) = none from hfnone] at hj
      cases hj
    · rw [hffr j hji] at hj
      exact hptr j n' hj

/-- Walking to the end of a sibling chain that does not start at the
root never reaches the root: nothing points at it. -/
theorem lastSibF_ne_root {α : Type} {t : Tree α} (hInv : RootInv t) :
    ∀ {f : Nat} {s last : Nat}, s ≠ t.root → lastSibF f t s = .ok last →
    last ≠ t.root := by
  intro f
  induction f with
  | zero =>
    intro s last _ h
    cases h
  | succ k ih =>
    intro s last hs h
    unfold lastSibF at h
    obtain ⟨n, hg, h2⟩ := Res.bind_ok_inv h
    have hgn := Tree.getNode_ok_inv hg
    cases hsib : n.sibling with
    | none =>
      rw [hsib] at h2
      cases h2
      exact hs
    | some nxt =>
      rw [hsib] at h2
      refine ih ?_ h2
      intro he
      exact (hInv.2.2 s n hgn).2 (by rw [hsib, he])

/-- The previous-sibling search, started on a chain whose head is not the
root, never returns the root. -/
theorem findPrevSib_ne_root {α : Type} {t : Tree α} (hInv : RootInv t) :
    ∀ {f : Nat} {c : Option Nat} {target prev : Nat}, c ≠ some t.root →
    findPrevSib f t c target = .ok prev → prev ≠ t.root := by
  intro f
  induction f with
  | zero =>
    intro c target prev _ h
    cases h
  | succ k ih =>
    intro c target prev hc h
    cases c with
    | none => cases h
    | some c0 =>
      unfold findPrevSib at h
      obtain ⟨n, hg, h2⟩ := Res.bind_ok_inv h
      have hgn := Tree.getNode_ok_inv hg
      by_cases hhit : n.sibling = some target
      · rw [if_pos hhit] at h2
        cases h2
        intro he
        exact hc (by rw [he])
      · rw [if_neg hhit] at h2
        refine ih ?_ h2
        intro he
        exact (hInv.2.2 c0 n hgn).2 (he ▸ rfl)

/-- Advancing along sibling links from a non-root position never lands on
the root. -/
theorem walkSteps_ne_root {α : Type} {t : Tree α} (hInv : RootInv t) :
    ∀ {k : Nat} {c res : Option Nat}, c ≠ some t.root →
    walkSteps t c k = .ok res → res ≠ some t.root := by
  intro k
  induction k with
  | zero =>
    intro c res hc h
    cases h
    exact hc
  | succ k' ih =>
    intro c res hc h
    unfold walkSteps at h
    obtain ⟨n, hg, h2⟩ := Res.bind_ok_inv h
    have hgn := Tree.getNode_ok_inv hg
    cases c with
    | none => cases hgn
    | some c0 =>
      refine ih ?_ h2
      intro he
      exact (hInv.2.2 c0 n hgn).2 he

/-- gTree_addExistChild with a non-root child preserves the root
invariant: every pointer it writes names the child. -/
theorem RootInv_addExistChild {α : Type} {t t' : Tree α} {nodeId childId : Nat}
    (hInv : RootInv t) (hc : childId ≠ t.root)
    (h : gTree_addExistChild t nodeId childId = .ok t') :
    RootInv t' ∧ t'.root = t.root := by
  unfold gTree_addExistChild at h
  by_cases h1 : t.pool.idValid (some nodeId) = true
  · rw [if_pos h1] at h
    by_cases h2 : t.pool.idValid (some childId) = true
    · rw [if_pos h2] at h
      obtain ⟨node, hgn, h3⟩ := Res.bind_ok_inv h
      have hgnode := Tree.getNode_ok_inv hgn
      obtain ⟨cnode, hgc, h4⟩ := Res.bind_ok_inv h3
      have hvne : (some childId : Option Nat) ≠ some t.root := by
        intro he
        exact hc (by injection he)
      cases hchild : node.child with
      | none =>
        rw [hchild] at h4
        have h4' : Res.ok (((t.wChild nodeId (some childId)).wParent childId
            (some nodeId)).wSibling childId none) = .ok t' := h4
        cases h4'
        obtain ⟨hinv1, hroot1⟩ := RootInv_wChild nodeId (some childId) hvne hInv
        obtain ⟨hinv2, hroot2⟩ := RootInv_wParent childId (some nodeId)
          (fun he => absurd (he.trans hroot1) hc) hinv1
        obtain ⟨hinv3, hroot3⟩ := RootInv_wSibling childId none
          (fun he => by cases he) (fun _ => rfl) hinv2
        exact ⟨hinv3, by rw [hroot3, hroot2, hroot1]⟩
      | some s =>
        rw [hchild] at h4
        have h4' : ((lastSibF t.cfuel t s).bind fun lastId =>
            Res.ok (((t.wSibling lastId (some childId)).wParent childId
              (some nodeId)).wSibling childId none)) = .ok t' := h4
        obtain ⟨lastId, hlast, h5⟩ := Res.bind_ok_inv h4'
        cases h5
        have hsne : s ≠ t.root := by
          intro he
          exact (hInv.2.2 nodeId node hgnode).1 (by rw [hchild, he])
        have hlne : lastId ≠ t.root := lastSibF_ne_root hInv hsne hlast
        obtain ⟨hinv1, hroot1⟩ := RootInv_wSibling lastId (some childId) hvne
          (fun he => absurd he hlne) hInv
        obtain ⟨hinv2, hroot2⟩ := RootInv_wParent childId (some nodeId)
          (fun he => absurd (he.trans hroot1) hc) hinv1
        obtain ⟨hinv3, hroot3⟩ := RootInv_wSibling childId none
          (fun he => by cases he) (fun _ => rfl) hinv2
        exact ⟨hinv3, by rw [hroot3, hroot2, hroot1]⟩
    · rw [if_neg h2] at h
      cases h
  · rw [if_neg h1] at h
    cases h

/-- gTree_addChild preserves the root invariant unconditionally: the new
node is allocated off the free store, never the root. -/
theorem RootInv_addChild {α : Type} [Inhabited α] {t t' : Tree α}
    {nodeId c : Nat} {d : α}
    (hInv : RootInv t) (h : gTree_addChild t nodeId d = .ok (t', c)) :
    RootInv t' ∧ t'.root = t.root ∧ c ≠ t.root := by
  unfold gTree_addChild at h
  by_cases h1 : t.pool.idValid (some nodeId) = true
  · rw [if_pos h1] at h
    rcases halloc : t.allocNode with ⟨t1, newId⟩
    rw [halloc] at h
    obtain ⟨hinv1, hroot1, hnr⟩ := RootInv_alloc hInv halloc
    obtain ⟨x, hx, h2⟩ := Res.bind_ok_inv h
    obtain ⟨t3, ht3, h3⟩ := Res.bind_ok_inv h2
    cases h3
    obtain ⟨hinv2, hroot2⟩ := RootInv_wData c d hinv1
    have hcr : c ≠ (t1.wData c d).root := by
      rw [hroot2, hroot1]
      exact hnr
    obtain ⟨hinv3, hroot3⟩ := RootInv_addExistChild hinv2 hcr ht3
    exact ⟨hinv3, by rw [hroot3, hroot2, hroot1], hnr⟩
  · rw [if_neg h1] at h
    cases h

/-- gTree_addSibling on a non-root chain preserves the root invariant. -/
theorem RootInv_addSibling {α : Type} [Inhabited α] {t t' : Tree α}
    {siblingId c : Nat} {d : α}
    (hInv : RootInv t) (hs : siblingId ≠ t.root)
    (h : gTree_addSibling t siblingId d = .ok (t', c)) :
    RootInv t' ∧ t'.root = t.root := by
  unfold gTree_addSibling at h
  by_cases h1 : t.pool.idValid (some siblingId) = true
  · rw [if_pos h1] at h
    rcases halloc : t.allocNode with ⟨t1, childId⟩
    rw [halloc] at h
    obtain ⟨hinv1, hroot1, hnr⟩ := RootInv_alloc hInv halloc
    obtain ⟨x1, hx1, h2⟩ := Res.bind_ok_inv h
    obtain ⟨x2, hx2, h3⟩ := Res.bind_ok_inv h2
    obtain ⟨lastId, hlast, h4⟩ := Res.bind_ok_inv h3
    have hlne : lastId ≠ t1.root :=
      lastSibF_ne_root hinv1 (by rw [hroot1]; exact hs) hlast
    have hcne : (some childId : Option Nat) ≠ some t1.root := by
      intro he
      rw [hroot1] at he
      exact hnr (by injection he)
    obtain ⟨hinv2, hroot2⟩ := RootInv_wSibling lastId (some childId) hcne
      (fun he => absurd he hlne) hinv1
    obtain ⟨lastNow, hlastNow, h5⟩ := Res.bind_ok_inv h4
    have hcr2 : childId ≠ (t1.wSibling lastId (some childId)).root := by
      rw [hroot2, hroot1]
      exact hnr
    obtain ⟨hinv3, hroot3⟩ := RootInv_wParent childId lastNow.parent
      (fun he => absurd he.symm (Ne.symm hcr2)) hinv2
    obtain ⟨hinv4, hroot4⟩ := RootInv_wChild childId none
      (fun he => by cases he) hinv3
    obtain ⟨hinv5, hroot5⟩ := RootInv_wSibling childId none
      (fun he => by cases he) (fun _ => rfl) hinv4
    obtain ⟨hinv6, hroot6⟩ := RootInv_wData childId d hinv5
    cases h5
    refine ⟨hinv6, ?_⟩
    rw [hroot6, hroot5, hroot4, hroot3, hroot2, hroot1]
  · rw [if_neg h1] at h
    cases h

/-- gTree_replaceNode with a non-root replacement preserves the root
invariant: the splice writes point at the replacement, and the detached
node's links are cleared to NONE. -/
theorem RootInv_replaceNode {α : Type} {t t' : Tree α} {currentId replaceId : Nat}
    (hInv : RootInv t) (hrep : replaceId ≠ t.root)
    (h : gTree_replaceNode t currentId replaceId = .ok t') :
    RootInv t' ∧ t'.root = t.root := by
  unfold gTree_replaceNode at h
  by_cases h1 : t.pool.idValid (some currentId) = true
  · rw [if_pos h1] at h
    by_cases h2 : t.pool.idValid (some replaceId) = true
    · rw [if_pos h2] at h
      obtain ⟨current, hgc, h3⟩ := Res.bind_ok_inv h
      have hgcur := Tree.getNode_ok_inv hgc
      obtain ⟨rnode, hgr, h4⟩ := Res.bind_ok_inv h3
      cases hpar : current.parent with
      | none =>
        rw [hpar] at h4
        cases h4
        exact ⟨hInv, rfl⟩
      | some pId =>
        rw [hpar] at h4
        obtain ⟨parent, hgp, h5⟩ := Res.bind_ok_inv h4
        have hgpar := Tree.getNode_ok_inv hgp
        have hvne : (some replaceId : Option Nat) ≠ some t.root := by
          intro he
          exact hrep (by injection he)
        suffices hcont : ∀ u : Tree α, RootInv u → u.root = t.root →
            ((u.getNode (some currentId)).bind fun curNow =>
              Res.ok ((((u.wParent replaceId (some pId)).wSibling replaceId
                curNow.sibling).wParent currentId none).wSibling currentId
                  none)) = .ok t' →
            RootInv t' ∧ t'.root = t.root by
          by_cases hhead : parent.child = some currentId
          · rw [if_pos hhead] at h5
            have h5' : ((Res.ok (t.wChild pId (some replaceId))).bind fun u =>
                (u.getNode (some currentId)).bind fun curNow =>
                  Res.ok ((((u.wParent replaceId (some pId)).wSibling replaceId
                    curNow.sibling).wParent currentId none).wSibling currentId
                      none)) = .ok t' := h5
            obtain ⟨u, hu, h6⟩ := Res.bind_ok_inv h5'
            cases hu
            obtain ⟨hinvu, hrootu⟩ := RootInv_wChild pId (some replaceId) hvne hInv
            exact hcont _ hinvu hrootu h6
          · rw [if_neg hhead] at h5
            have h5' : ((findPrevSib t.cfuel t parent.child currentId).bind
                fun prevId => (Res.ok (t.wSibling prevId (some replaceId))).bind
                  fun u => (u.getNode (some currentId)).bind fun curNow =>
                    Res.ok ((((u.wParent replaceId (some pId)).wSibling replaceId
                      curNow.sibling).wParent currentId none).wSibling currentId
                        none)) = .ok t' := h5
            obtain ⟨prevId, hprev, h6⟩ := Res.bind_ok_inv h5'
            obtain ⟨u, hu, h7⟩ := Res.bind_ok_inv h6
            cases hu
            have hheadne : parent.child ≠ some t.root := (hInv.2.2 pId parent hgpar).1
            have hpne : prevId ≠ t.root := findPrevSib_ne_root hInv hheadne hprev
            obtain ⟨hinvu, hrootu⟩ := RootInv_wSibling prevId (some replaceId) hvne
              (fun he => absurd he hpne) hInv
            exact hcont _ hinvu hrootu h7
        intro u hinvu hrootu hrun
        obtain ⟨curNow, hgcn, h8⟩ := Res.bind_ok_inv hrun
        have hgcnow := Tree.getNode_ok_inv hgcn
        cases h8
        obtain ⟨hinv1, hroot1⟩ := RootInv_wParent replaceId (some pId)
          (fun he => absurd (he.trans hrootu) hrep) hinvu
        have hsibne : curNow.sibling ≠ some ((u.wParent replaceId
            (some pId)).root) := by
          rw [hroot1, hrootu]
          exact (hinvu.2.2 currentId curNow hgcnow).2.imp fun he => hrootu ▸ he
        obtain ⟨hinv2, hroot2⟩ := RootInv_wSibling replaceId curNow.sibling
          (by rw [hroot1, hrootu]
              have := (hinvu.2.2 currentId curNow hgcnow).2
              rw [hrootu] at this
              exact this)
          (fun he => absurd (he.trans (hroot1.trans hrootu)) hrep) hinv1
        obtain ⟨hinv3, hroot3⟩ := RootInv_wParent currentId none
          (fun _ => rfl) hinv2
        obtain ⟨hinv4, hroot4⟩ := RootInv_wSibling currentId none
          (fun he => by cases he) (fun _ => rfl) hinv3
        refine ⟨hinv4, ?_⟩
        rw [hroot4, hroot3, hroot2, hroot1, hrootu]
    · rw [if_neg h2] at h
      cases h
  · rw [if_neg h1] at h
    cases h

/-- The promotion loop only rewrites parent fields of chain members
(none of which is the root) and returns a chain member. -/
theorem promoteLoop_inv {α : Type} :
    ∀ {f : Nat} {t : Tree α} {c parentId : Nat} {t' : Tree α} {last : Nat},
    RootInv t → c ≠ t.root → promoteLoop f t c parentId = .ok (t', last) →
    RootInv t' ∧ t'.root = t.root ∧ last ≠ t.root := by
  intro f
  induction f with
  | zero =>
    intro t c parentId t' last _ _ h
    cases h
  | succ k ih =>
    intro t c parentId t' last hInv hcr h
    unfold promoteLoop at h
    obtain ⟨n, hg, h2⟩ := Res.bind_ok_inv h
    have hgn := Tree.getNode_ok_inv hg
    obtain ⟨hinv1, hroot1⟩ := RootInv_wParent c (some parentId)
      (fun he => absurd he hcr) hInv
    cases hsib : n.sibling with
    | none =>
      rw [hsib] at h2
      cases h2
      exact ⟨hinv1, hroot1, hcr⟩
    | some nxt =>
      rw [hsib] at h2
      have hnxt : nxt ≠ (t.wParent c (some parentId)).root := by
        rw [hroot1]
        intro he
        exact (hInv.2.2 c n hgn).2 (by rw [hsib, he])
      obtain ⟨hinv2, hroot2, hlast2⟩ := ih hinv1 hnxt h2
      exact ⟨hinv2, hroot2.trans hroot1, fun he => hlast2 (by rw [he, hroot1])⟩

/-- gTree_delChild preserves the root invariant unconditionally: the
removed node and every spliced pointer target sit inside a child chain,
which the root never does. -/
theorem RootInv_delChild {α : Type} {t t' : Tree α} {parentId pos : Nat} {d : α}
    (hInv : RootInv t) (h : gTree_delChild t parentId pos = .ok (t', d)) :
    RootInv t' ∧ t'.root = t.root := by
  unfold gTree_delChild at h
  by_cases h1 : t.pool.idValid (some parentId) = true
  · rw [if_pos h1] at h
    cases hgp : t.pool.get (some parentId) with
    | none =>
      rw [Tree.getNode_eq_err _ _ hgp] at h
      simp only [Res.bind_eq_bind, Res.bind_err] at h
      cases h
    | some parent =>
      rw [Tree.getNode_eq_ok _ _ _ hgp] at h
      simp only [Res.bind_eq_bind, Res.bind_ok] at h
      suffices hcont : ∀ (t1 : Tree α) (sibPtrId nId : Nat) (childId : Option Nat),
          RootInv t1 → t1.root = t.root → sibPtrId ≠ t.root → nId ≠ t.root →
          childId ≠ some t.root →
          (do
            let t2 ←
              match childId with
              | some c => do
                let (tp, lastSub) ← promoteLoop t1.cfuel t1 c parentId
                let nodeNow ← tp.getNode (some nId)
                Res.ok (tp.wSibling lastSub nodeNow.sibling)
              | none => do
                let nodeNow ← t1.getNode (some nId)
                Res.ok ((t1.wSibling sibPtrId nodeNow.sibling).wSibling nId none)
            let nodeFinal ← t2.getNode (some nId)
            let t3 ← t2.poolFree (some nId)
            (Res.ok (t3, nodeFinal.data) : Res (Tree α × α))) = .ok (t', d) →
          RootInv t' ∧ t'.root = t.root by
        by_cases hpos : pos = 0
        · simp only [if_pos hpos] at h
          cases hchild : parent.child with
          | none =>
            simp only [hchild, Res.bind_eq_bind, Res.bind_err] at h
            cases h
          | some nId0 =>
            simp only [hchild, Res.bind_eq_bind] at h
            cases hg0 : t.pool.get (some nId0) with
            | none =>
              rw [Tree.getNode_eq_err _ _ hg0] at h
              simp only [Res.bind_eq_bind, Res.bind_err] at h
              cases h
            | some node =>
              rw [Tree.getNode_eq_ok _ _ _ hg0] at h
              simp only [Res.bind_eq_bind, Res.bind_ok] at h
              have hnr : nId0 ≠ t.root := by
                intro he
                exact (hInv.2.2 parentId parent hgp).1 (by rw [hchild, he])
              have hcne : node.child ≠ some t.root := (hInv.2.2 nId0 node hg0).1
              obtain ⟨hinv1, hroot1⟩ :=
                RootInv_wChild parentId node.child hcne hInv
              exact hcont _ _ _ _ hinv1 hroot1 hnr hnr hcne h
        · simp only [if_neg hpos, Res.bind_eq_bind] at h
          cases hwalk : walkSteps t parent.child (pos - 1) with
          | err e =>
            rw [hwalk] at h
            simp only [Res.bind_eq_bind, Res.bind_err] at h
            cases h
          | dv =>
            rw [hwalk] at h
            simp only [Res.bind_eq_bind, Res.bind_dv] at h
            cases h
          | ok sibOpt =>
          have hheadne : parent.child ≠ some t.root :=
            (hInv.2.2 parentId parent hgp).1
          have hsibne := walkSteps_ne_root hInv hheadne hwalk
          cases sibOpt with
          | none =>
            rw [hwalk] at h
            simp only [Res.bind_eq_bind, Res.bind_ok, Res.bind_err] at h
            cases h
          | some sibId =>
            rw [hwalk] at h
            simp only [Res.bind_eq_bind, Res.bind_ok] at h
            have h2 := h
            have hsr : sibId ≠ t.root := by
              intro he
              exact hsibne (by rw [he])
            cases hgs : t.pool.get (some sibId) with
            | none =>
              rw [Tree.getNode_eq_err _ _ hgs] at h2
              simp only [Res.bind_eq_bind, Res.bind_err] at h2
              cases h2
            | some sibling =>
              rw [Tree.getNode_eq_ok _ _ _ hgs] at h2
              simp only [Res.bind_eq_bind, Res.bind_ok] at h2
              cases hsib2 : sibling.sibling with
              | none =>
                simp only [hsib2, Res.bind_eq_bind, Res.bind_err] at h2
                cases h2
              | some nId0 =>
                simp only [hsib2, Res.bind_eq_bind] at h2
                cases hg0 : t.pool.get (some nId0) with
                | none =>
                  rw [Tree.getNode_eq_err _ _ hg0] at h2
                  simp only [Res.bind_eq_bind, Res.bind_err] at h2
                  cases h2
                | some node =>
                  rw [Tree.getNode_eq_ok _ _ _ hg0] at h2
                  simp only [Res.bind_eq_bind, Res.bind_ok] at h2
                  have hnr : nId0 ≠ t.root := by
                    intro he
                    exact (hInv.2.2 sibId sibling hgs).2 (by rw [hsib2, he])
                  have hcne : node.child ≠ some t.root :=
                    (hInv.2.2 nId0 node hg0).1
                  obtain ⟨hinv1, hroot1⟩ :=
                    RootInv_wSibling sibId node.child hcne
                      (fun he => absurd he hsr) hInv
                  exact hcont _ _ _ _ hinv1 hroot1 hsr hnr hcne h2
      intro t1 sibPtrId nId childId hinv1 hroot1 hsibPtr hnId hchildId hrun
      have htail : ∀ t2 : Tree α, RootInv t2 → t2.root = t.root →
          ((t2.getNode (some nId)).bind fun nodeFinal =>
            (t2.poolFree (some nId)).bind fun t3 =>
              (Res.ok (t3, nodeFinal.data) : Res (Tree α × α))) = .ok (t', d) →
          RootInv t' ∧ t'.root = t.root := by
        intro t2 hinv2 hroot2 htl
        obtain ⟨nodeFinal, hgnf, h10⟩ := Res.bind_ok_inv htl
        obtain ⟨t3, ht3, h11⟩ := Res.bind_ok_inv h10
        cases h11
        have hn2 : nId ≠ t2.root := by
          rw [hroot2]
          exact hnId
        obtain ⟨hinv3, hroot3⟩ := RootInv_free hinv2 hn2 ht3
        exact ⟨hinv3, by rw [hroot3, hroot2]⟩
      cases hcid : childId with
      | some c0 =>
        simp only [hcid] at hrun
        cases hpr : promoteLoop t1.cfuel t1 c0 parentId with
        | err e =>
          rw [hpr] at hrun
          simp only [Res.bind_eq_bind, Res.bind_err] at hrun
          cases hrun
        | dv =>
          rw [hpr] at hrun
          simp only [Res.bind_eq_bind, Res.bind_dv] at hrun
          cases hrun
        | ok pr =>
          rcases pr with ⟨tp, lastSub⟩
          rw [hpr] at hrun
          simp only [Res.bind_eq_bind, Res.bind_ok] at hrun
          have hc0 : c0 ≠ t1.root := by
            rw [hroot1]
            intro he
            exact hchildId (by rw [hcid, he])
          obtain ⟨hinvp, hrootp, hlastp⟩ := promoteLoop_inv hinv1 hc0 hpr
          cases hgnn : tp.pool.get (some nId) with
          | none =>
            rw [Tree.getNode_eq_err _ _ hgnn] at hrun
            simp only [Res.bind_eq_bind, Res.bind_err] at hrun
            cases hrun
          | some nodeNow =>
            rw [Tree.getNode_eq_ok _ _ _ hgnn] at hrun
            simp only [Res.bind_eq_bind, Res.bind_ok] at hrun
            have hvne : nodeNow.sibling ≠ some tp.root :=
              (hinvp.2.2 nId nodeNow hgnn).2
            have hl2 : lastSub ≠ tp.root := by
              rw [hrootp, hroot1]
              intro he
              exact hlastp (by rw [he, ← hroot1])
            obtain ⟨hinvs, hroots⟩ := RootInv_wSibling lastSub nodeNow.sibling
              hvne (fun he => absurd he hl2) hinvp
            exact htail _ hinvs (by rw [hroots, hrootp, hroot1]) hrun
      | none =>
        simp only [hcid] at hrun
        cases hgnn : t1.pool.get (some nId) with
        | none =>
          rw [Tree.getNode_eq_err _ _ hgnn] at hrun
          simp only [Res.bind_eq_bind, Res.bind_err] at hrun
          cases hrun
        | some nodeNow =>
          rw [Tree.getNode_eq_ok _ _ _ hgnn] at hrun
          simp only [Res.bind_eq_bind, Res.bind_ok] at hrun
          have hvne : nodeNow.sibling ≠ some t1.root :=
            (hinv1.2.2 nId nodeNow hgnn).2
          have hsp1 : sibPtrId ≠ t1.root := by
            rw [hroot1]
            exact hsibPtr
          obtain ⟨hinvs, hroots⟩ := RootInv_wSibling sibPtrId nodeNow.sibling
            hvne (fun he => absurd he hsp1) hinv1
          obtain ⟨hinvs2, hroots2⟩ := RootInv_wSibling nId none
            (fun he => by cases he) (fun _ => rfl) hinvs
          exact htail _ hinvs2 (by rw [hroots2, hroots, hroot1]) hrun
  · rw [if_neg h1] at h
    cases h

/-- gTree_killSubtree frees only slots reached through child and sibling
pointers, which by the root invariant never name the root. -/
theorem kill_inv {α : Type} : ∀ fuel : Nat,
    (∀ (t : Tree α) (rootId : Nat) (t' : Tree α), RootInv t → rootId ≠ t.root →
      gTree_killSubtree fuel t rootId = .ok t' → RootInv t' ∧ t'.root = t.root) ∧
    (∀ (t : Tree α) (cid : Option Nat) (t' : Tree α), RootInv t →
      cid ≠ some t.root → killChain fuel t cid = .ok t' →
      RootInv t' ∧ t'.root = t.root) := by
  intro fuel
  induction fuel with
  | zero =>
    constructor
    · intro t rootId t' _ _ h
      cases h
    · intro t cid t' _ _ h
      cases h
  | succ k ih =>
    constructor
    · intro t rootId t' hInv hne h
      unfold gTree_killSubtree at h
      by_cases h1 : t.pool.idValid (some rootId) = true
      · rw [if_pos h1] at h
        cases hg : t.pool.get (some rootId) with
        | none =>
          rw [Tree.getNode_eq_err _ _ hg] at h
          simp only [Res.bind_eq_bind, Res.bind_err] at h
          cases h
        | some n =>
          rw [Tree.getNode_eq_ok _ _ _ hg] at h
          simp only [Res.bind_eq_bind, Res.bind_ok] at h
          cases hk1 : killChain k t n.child with
          | err e =>
            rw [hk1] at h
            simp only [Res.bind_eq_bind, Res.bind_err] at h
            cases h
          | dv =>
            rw [hk1] at h
            simp only [Res.bind_eq_bind, Res.bind_dv] at h
            cases h
          | ok t1 =>
            rw [hk1] at h
            simp only [Res.bind_eq_bind, Res.bind_ok] at h
            have hchne : n.child ≠ some t.root := (hInv.2.2 rootId n hg).1
            obtain ⟨hinv1, hroot1⟩ := ih.2 t n.child t1 hInv hchne hk1
            have hne1 : rootId ≠ t1.root := by
              rw [hroot1]
              exact hne
            obtain ⟨hinv2, hroot2⟩ := RootInv_free hinv1 hne1 h
            exact ⟨hinv2, hroot2.trans hroot1⟩
      · rw [if_neg h1] at h
        cases h
    · intro t cid t' hInv hne h
      cases cid with
      | none =>
        unfold killChain at h
        cases h
        exact ⟨hInv, rfl⟩
      | some c =>
        unfold killChain at h
        cases hg : t.pool.get (some c) with
        | none =>
          rw [Tree.getNode_eq_err _ _ hg] at h
          simp only [Res.bind_eq_bind, Res.bind_err] at h
          cases h
        | some n =>
          rw [Tree.getNode_eq_ok _ _ _ hg] at h
          simp only [Res.bind_eq_bind, Res.bind_ok] at h
          cases hks : gTree_killSubtree k t c with
          | err e =>
            rw [hks] at h
            simp only [Res.bind_eq_bind, Res.bind_err] at h
            cases h
          | dv =>
            rw [hks] at h
            simp only [Res.bind_eq_bind, Res.bind_dv] at h
            cases h
          | ok t1 =>
            rw [hks] at h
            simp only [Res.bind_eq_bind, Res.bind_ok] at h
            have hcne : c ≠ t.root := by
              intro he
              exact hne (by rw [he])
            obtain ⟨hinv1, hroot1⟩ := ih.1 t c t1 hInv hcne hks
            have hsne : n.sibling ≠ some t1.root := by
              rw [hroot1]
              exact (hInv.2.2 c n hg).2
            obtain ⟨hinv2, hroot2⟩ := ih.2 t1 n.sibling t' hinv1 hsne h
            exact ⟨hinv2, hroot2.trans hroot1⟩

/-- gTree_delSubtree on a non-root target preserves the root invariant. -/
theorem RootInv_delSubtree {α : Type} {fuel : Nat} {t t' : Tree α} {rootId : Nat}
    (hInv : RootInv t) (hne : rootId ≠ t.root)
    (h : gTree_delSubtree fuel t rootId = .ok t') :
    RootInv t' ∧ t'.root = t.root := by
  unfold gTree_delSubtree at h
  by_cases h1 : t.pool.idValid (some rootId) = true
  · rw [if_pos h1] at h
    cases hg : t.pool.get (some rootId) with
    | none =>
      rw [Tree.getNode_eq_err _ _ hg] at h
      simp only [Res.bind_eq_bind, Res.bind_err] at h
      cases h
    | some node0 =>
      rw [Tree.getNode_eq_ok _ _ _ hg] at h
      simp only [Res.bind_eq_bind, Res.bind_ok] at h
      cases hk1 : killChain fuel t node0.child with
      | err e =>
        rw [hk1] at h
        simp only [Res.bind_eq_bind, Res.bind_err] at h
        cases h
      | dv =>
        rw [hk1] at h
        simp only [Res.bind_eq_bind, Res.bind_dv] at h
        cases h
      | ok t1 =>
        rw [hk1] at h
        simp only [Res.bind_eq_bind, Res.bind_ok] at h
        have hchne : node0.child ≠ some t.root := (hInv.2.2 rootId node0 hg).1
        obtain ⟨hinv1, hroot1⟩ := (kill_inv fuel).2 t node0.child t1 hInv hchne hk1
        obtain ⟨hinv2, hroot2⟩ := RootInv_wChild rootId none
          (fun he => by cases he) hinv1
        cases hg2 : (t1.wChild rootId none).pool.get (some rootId) with
        | none =>
          rw [Tree.getNode_eq_err _ _ hg2] at h
          simp only [Res.bind_eq_bind, Res.bind_err] at h
          cases h
        | some node =>
          rw [Tree.getNode_eq_ok _ _ _ hg2] at h
          simp only [Res.bind_eq_bind, Res.bind_ok] at h
          have hroot12 : (t1.wChild rootId none).root = t.root :=
            hroot2.trans hroot1
          have hne2 : rootId ≠ (t1.wChild rootId none).root := by
            rw [hroot12]
            exact hne
          cases hpar : node.parent with
          | none =>
            simp only [hpar] at h
            obtain ⟨hinv3, hroot3⟩ := RootInv_free hinv2 hne2 h
            exact ⟨hinv3, hroot3.trans hroot12⟩
          | some pId =>
            simp only [hpar] at h
            cases hgp : (t1.wChild rootId none).pool.get (some pId) with
            | none =>
              rw [Tree.getNode_eq_err _ _ hgp] at h
              simp only [Res.bind_eq_bind, Res.bind_err] at h
              cases h
            | some parent =>
              rw [Tree.getNode_eq_ok _ _ _ hgp] at h
              simp only [Res.bind_eq_bind, Res.bind_ok] at h
              have hsibne : node.sibling ≠ some (t1.wChild rootId none).root :=
                (hinv2.2.2 rootId node hg2).2
              by_cases hhead : parent.child = some rootId
              · rw [if_pos hhead] at h
                obtain ⟨hinv3, hroot3⟩ := RootInv_wChild pId node.sibling
                  hsibne hinv2
                have hne3 : rootId ≠
                    ((t1.wChild rootId none).wChild pId node.sibling).root := by
                  rw [hroot3, hroot12]
                  exact hne
                obtain ⟨hinv4, hroot4⟩ := RootInv_free hinv3 hne3 h
                exact ⟨hinv4, (hroot4.trans hroot3).trans hroot12⟩
              · rw [if_neg hhead] at h
                cases hprev : findPrevSib (t1.wChild rootId none).cfuel
                    (t1.wChild rootId none) parent.child rootId with
                | err e =>
                  rw [hprev] at h
                  simp only [Res.bind_eq_bind, Res.bind_err] at h
                  cases h
                | dv =>
                  rw [hprev] at h
                  simp only [Res.bind_eq_bind, Res.bind_dv] at h
                  cases h
                | ok prevId =>
                  rw [hprev] at h
                  simp only [Res.bind_eq_bind, Res.bind_ok] at h
                  have hheadne : parent.child ≠
                      some (t1.wChild rootId none).root :=
                    (hinv2.2.2 pId parent hgp).1
                  have hpne : prevId ≠ (t1.wChild rootId none).root :=
                    findPrevSib_ne_root hinv2 hheadne hprev
                  obtain ⟨hinv3, hroot3⟩ := RootInv_wSibling prevId node.sibling
                    hsibne (fun he => absurd he hpne) hinv2
                  have hne3 : rootId ≠
                      ((t1.wChild rootId none).wSibling prevId
                        node.sibling).root := by
                    rw [hroot3, hroot12]
                    exact hne
                  obtain ⟨hinv4, hroot4⟩ := RootInv_free hinv3 hne3 h
                  exact ⟨hinv4, (hroot4.trans hroot3).trans hroot12⟩
  · rw [if_neg h1] at h
    cases h

/-- gTree_cloneSubtree writes only to freshly allocated slots and links
them among themselves, so the root invariant survives and the returned
clone id is never the root. -/
theorem clone_inv {α : Type} [Inhabited α] : ∀ fuel : Nat,
    (∀ (t : Tree α) (nodeId : Nat) (t' : Tree α) (c : Nat), RootInv t →
      gTree_cloneSubtree fuel t nodeId = .ok (t', c) →
      RootInv t' ∧ t'.root = t.root ∧ c ≠ t.root) ∧
    (∀ (t : Tree α) (newNodeId : Nat) (cid : Option Nat) (t' : Tree α),
      RootInv t → cloneChildren fuel t newNodeId cid = .ok t' →
      RootInv t' ∧ t'.root = t.root) := by
  intro fuel
  induction fuel with
  | zero =>
    constructor
    · intro t nodeId t' c _ h
      cases h
    · intro t newNodeId cid t' _ h
      cases h
  | succ k ih =>
    constructor
    · intro t nodeId t' c hInv h
      unfold gTree_cloneSubtree at h
      by_cases h1 : t.pool.idValid (some nodeId) = true
      · rw [if_pos h1] at h
        rcases halloc : t.allocNode with ⟨t1, newId⟩
        rw [halloc] at h
        obtain ⟨hinv1, hroot1, hnr⟩ := RootInv_alloc hInv halloc
        cases hg1 : t1.pool.get (some nodeId) with
        | none =>
          simp only [hg1] at h
          cases h
        | some node =>
          simp only [hg1, Res.bind_eq_bind] at h
          obtain ⟨hinv2, hroot2⟩ := RootInv_wData newId node.data hinv1
          obtain ⟨hinv3, hroot3⟩ := RootInv_wChild newId none
            (fun he => by cases he) hinv2
          obtain ⟨hinv4, hroot4⟩ := RootInv_wSibling newId none
            (fun he => by cases he) (fun _ => rfl) hinv3
          obtain ⟨hinv5, hroot5⟩ := RootInv_wParent newId none
            (fun _ => rfl) hinv4
          cases hcc : cloneChildren k
              ((((t1.wData newId node.data).wChild newId none).wSibling newId
                none).wParent newId none) newId node.child with
          | err e =>
            rw [hcc] at h
            simp only [Res.bind_err] at h
            cases h
          | dv =>
            rw [hcc] at h
            simp only [Res.bind_dv] at h
            cases h
          | ok t3 =>
            rw [hcc] at h
            simp only [Res.bind_ok] at h
            cases h
            obtain ⟨hinv6, hroot6⟩ := ih.2 _ c node.child t' hinv5 hcc
            refine ⟨hinv6, ?_, hnr⟩
            rw [hroot6, hroot5, hroot4, hroot3, hroot2, hroot1]
      · rw [if_neg h1] at h
        cases h
    · intro t newNodeId cid t' hInv h
      cases cid with
      | none =>
        unfold cloneChildren at h
        cases h
        exact ⟨hInv, rfl⟩
      | some c0 =>
        unfold cloneChildren at h
        cases hcs : gTree_cloneSubtree k t c0 with
        | err e =>
          rw [hcs] at h
          simp only [Res.bind_eq_bind, Res.bind_err] at h
          cases h
        | dv =>
          rw [hcs] at h
          simp only [Res.bind_eq_bind, Res.bind_dv] at h
          cases h
        | ok pr =>
          rcases pr with ⟨t1, newChildId⟩
          rw [hcs] at h
          simp only [Res.bind_eq_bind, Res.bind_ok] at h
          obtain ⟨hinv1, hroot1, hncr⟩ := ih.1 t c0 t1 newChildId hInv hcs
          cases hadd : gTree_addExistChild t1 newNodeId newChildId with
          | err e =>
            rw [hadd] at h
            simp only [Res.bind_eq_bind, Res.bind_err] at h
            cases h
          | dv =>
            rw [hadd] at h
            simp only [Res.bind_eq_bind, Res.bind_dv] at h
            cases h
          | ok t2 =>
            rw [hadd] at h
            simp only [Res.bind_eq_bind, Res.bind_ok] at h
            have hnc1 : newChildId ≠ t1.root := by
              rw [hroot1]
              exact hncr
            obtain ⟨hinv2, hroot2⟩ := RootInv_addExistChild hinv1 hnc1 hadd
            cases hgc : t2.pool.get (some c0) with
            | none =>
              rw [Tree.getNode_eq_err _ _ hgc] at h
              simp only [Res.bind_eq_bind, Res.bind_err] at h
              cases h
            | some cn =>
              rw [Tree.getNode_eq_ok _ _ _ hgc] at h
              simp only [Res.bind_eq_bind, Res.bind_ok] at h
              obtain ⟨hinv3, hroot3⟩ := ih.2 t2 newNodeId cn.sibling t' hinv2 h
              refine ⟨hinv3, ?_⟩
              rw [hroot3, hroot2, hroot1]
      
/-- gTree_restoreSubTree builds fresh children and links them among
themselves under `nodeId`; the root invariant survives. -/
theorem restore_inv {α : Type} [Inhabited α]
    (r : List String → Option (α × List String)) : ∀ fuel : Nat,
    (∀ (t : Tree α) (nodeId : Nat) (input : List String) (t' : Tree α)
        (rest : List String), RootInv t →
      gTree_restoreSubTree r fuel t nodeId input = .ok (t', rest) →
      RootInv t' ∧ t'.root = t.root) ∧
    (∀ (t : Tree α) (nodeId : Nat) (curChild : Option Nat) (bracketCnt : Nat)
        (input : List String) (t' : Tree α) (rest : List String), RootInv t →
      curChild ≠ some t.root →
      restoreLoop r fuel t nodeId curChild bracketCnt input = .ok (t', rest) →
      RootInv t' ∧ t'.root = t.root) := by
  intro fuel
  induction fuel with
  | zero =>
    constructor
    · intro t nodeId input t' rest _ h
      cases h
    · intro t nodeId curChild bracketCnt input t' rest _ _ h
      cases h
  | succ k ih =>
    constructor
    · intro t nodeId input t' rest hInv h
      unfold gTree_restoreSubTree at h
      by_cases h1 : t.pool.idValid (some nodeId) = true
      · rw [if_pos h1] at h
        cases hg : t.pool.get (some nodeId) with
        | none =>
          rw [Tree.getNode_eq_err _ _ hg] at h
          simp only [Res.bind_eq_bind, Res.bind_err] at h
          cases h
        | some n =>
          rw [Tree.getNode_eq_ok _ _ _ hg] at h
          simp only [Res.bind_eq_bind, Res.bind_ok] at h
          exact ih.2 t nodeId none 1 input t' rest hInv (fun he => by cases he) h
      · rw [if_neg h1] at h
        cases h
    · intro t nodeId curChild bracketCnt input t' rest hInv hcur h
      unfold restoreLoop at h
      by_cases hb0 : bracketCnt = 0
      · rw [if_pos hb0] at h
        cases h
        exact ⟨hInv, rfl⟩
      · rw [if_neg hb0] at h
        cases input with
        | nil => cases h
        | cons line rest0 =>
          by_cases hopen : consistsOnly line "\x7b" = true
          · simp only [hopen, eq_self_iff_true, if_true, ite_true] at h
            cases haddc : gTree_addChild t nodeId default with
            | err e =>
              rw [haddc] at h
              simp only [Res.bind_eq_bind, Res.bind_err] at h
              cases h
            | dv =>
              rw [haddc] at h
              simp only [Res.bind_eq_bind, Res.bind_dv] at h
              cases h
            | ok pr =>
              rcases pr with ⟨t1, newId⟩
              rw [haddc] at h
              simp only [Res.bind_eq_bind, Res.bind_ok] at h
              obtain ⟨hinv1, hroot1, hnewr⟩ := RootInv_addChild hInv haddc
              obtain ⟨hinv2, hroot2⟩ := RootInv_wParent newId (some nodeId)
                (fun he => absurd (he.trans hroot1) hnewr) hinv1
              obtain ⟨hinv3, hroot3⟩ := RootInv_wChild newId none
                (fun he => by cases he) hinv2
              cases hrs : gTree_restoreSubTree r k
                  ((t1.wParent newId (some nodeId)).wChild newId none) newId
                  rest0 with
              | err e =>
                rw [hrs] at h
                simp only [Res.bind_eq_bind, Res.bind_err] at h
                cases h
              | dv =>
                rw [hrs] at h
                simp only [Res.bind_eq_bind, Res.bind_dv] at h
                cases h
              | ok pr2 =>
                rcases pr2 with ⟨t3, rest1⟩
                rw [hrs] at h
                simp only [Res.bind_eq_bind, Res.bind_ok] at h
                obtain ⟨hinv4, hroot4⟩ := ih.1 _ newId rest0 t3 rest1 hinv3 hrs
                have hroott3 : t3.root = t.root := by
                  rw [hroot4, hroot3, hroot2, hroot1]
                have ht4 : ∀ t4 : Tree α, RootInv t4 → t4.root = t.root →
                    restoreLoop r k t4 nodeId (some newId)
                      (bracketCnt + 1 - 1) rest1 = .ok (t', rest) →
                    RootInv t' ∧ t'.root = t.root := by
                  intro t4 hinv5 hroot5 hrun
                  have hcur4 : (some newId : Option Nat) ≠ some t4.root := by
                    rw [hroot5]
                    intro he
                    exact hnewr (by injection he)
                  obtain ⟨hinv6, hroot6⟩ :=
                    ih.2 t4 nodeId (some newId) (bracketCnt + 1 - 1) rest1 t'
                      rest hinv5 hcur4 hrun
                  exact ⟨hinv6, hroot6.trans hroot5⟩
                cases hcc : curChild with
                | some prev =>
                  simp only [hcc] at h
                  have hprevr : prev ≠ t3.root := by
                    rw [hroott3]
                    intro he
                    exact hcur (by rw [hcc, he])
                  have hnewr3 : (some newId : Option Nat) ≠ some t3.root := by
                    rw [hroott3]
                    intro he
                    exact hnewr (by injection he)
                  obtain ⟨hinv5, hroot5⟩ := RootInv_wSibling prev (some newId)
                    hnewr3 (fun he => absurd he hprevr) hinv4
                  exact ht4 _ hinv5 (hroot5.trans hroott3) h
                | none =>
                  simp only [hcc] at h
                  have hnewr3 : (some newId : Option Nat) ≠ some t3.root := by
                    rw [hroott3]
                    intro he
                    exact hnewr (by injection he)
                  obtain ⟨hinv5, hroot5⟩ := RootInv_wChild nodeId (some newId)
                    hnewr3 hinv4
                  exact ht4 _ hinv5 (hroot5.trans hroott3) h
          · rw [Bool.not_eq_true] at hopen
            simp only [hopen, Bool.false_eq_true, if_false, ite_false] at h
            by_cases hclose : consistsOnly line "\x7d" = true
            · simp only [hclose, eq_self_iff_true, if_true, ite_true] at h
              exact ih.2 t nodeId curChild (bracketCnt - 1) rest0 t' rest hInv
                hcur h
            · rw [Bool.not_eq_true] at hclose
              simp only [hclose, Bool.false_eq_true, if_false, ite_false] at h
              by_cases hbr : consistsOnly line "[" = true
              · simp only [hbr, eq_self_iff_true, if_true, ite_true] at h
                cases hr : r rest0 with
                | none =>
                  simp only [hr] at h
                  cases h
                | some pr =>
                  rcases pr with ⟨v, rest1⟩
                  simp only [hr] at h
                  obtain ⟨hinv1, hroot1⟩ := RootInv_wData nodeId v hInv
                  have hcur1 : curChild ≠ some (t.wData nodeId v).root := by
                    rw [hroot1]
                    exact hcur
                  obtain ⟨hinv2, hroot2⟩ :=
                    ih.2 (t.wData nodeId v) nodeId curChild bracketCnt rest1 t'
                      rest hinv1 hcur1 h
                  exact ⟨hinv2, hroot2.trans hroot1⟩
              · rw [Bool.not_eq_true] at hbr
                simp only [hbr, Bool.false_eq_true, if_false, ite_false] at h
                exact ih.2 t nodeId curChild bracketCnt rest0 t' rest hInv hcur h

/-- gTree_ctor establishes the root invariant. -/
theorem RootInv_ctor {α : Type} [Inhabited α] : RootInv (gTree_ctor α) := by
  refine ⟨⟨List.nodup_nil, fun i hi => absurd hi (List.not_mem_nil i)⟩, ?_, ?_⟩
  · exact ⟨⟨default, none, none, none⟩, rfl, rfl, rfl⟩
  · intro i n h
    cases i with
    | zero =>
      have h0 : (gTree_ctor α).pool.get (some 0) =
          some (⟨default, none, none, none⟩ : Node α) := rfl
      rw [h0] at h
      cases h
      constructor
      · intro he
        cases he
      · intro he
        cases he
    | succ j =>
      have hs : (gTree_ctor α).pool.slots =
          [some (⟨default, none, none, none⟩ : Node α)] := rfl
      rw [Pool.get_some, hs] at h
      simp [List.getD] at h

/-- Each public operation, under its amended side condition, preserves
the root invariant and the root id. -/
theorem applyOp_inv {α : Type} [Inhabited α]
    (r : List String → Option (α × List String)) (op : Op α) {t t1 : Tree α}
    (hInv : RootInv t) (hall : allowedOp t.root op = true)
    (h : applyOp r t op = .ok t1) : RootInv t1 ∧ t1.root = t.root := by
  cases op with
  | addChild n d =>
    simp only [applyOp] at h
    cases hc : gTree_addChild t n d with
    | err e =>
      rw [hc] at h
      simp only [Res.bind_eq_bind, Res.bind_err] at h
      cases h
    | dv =>
      rw [hc] at h
      simp only [Res.bind_eq_bind, Res.bind_dv] at h
      cases h
    | ok pr =>
      rcases pr with ⟨ta, ca⟩
      rw [hc] at h
      simp only [Res.bind_eq_bind, Res.bind_ok] at h
      cases h
      obtain ⟨h1, h2, _⟩ := RootInv_addChild hInv hc
      exact ⟨h1, h2⟩
  | addSibling s d =>
    simp only [applyOp] at h
    have hs : s ≠ t.root := by
      have := hall
      unfold allowedOp at this
      exact of_decide_eq_true this
    cases hc : gTree_addSibling t s d with
    | err e =>
      rw [hc] at h
      simp only [Res.bind_eq_bind, Res.bind_err] at h
      cases h
    | dv =>
      rw [hc] at h
      simp only [Res.bind_eq_bind, Res.bind_dv] at h
      cases h
    | ok pr =>
      rcases pr with ⟨ta, ca⟩
      rw [hc] at h
      simp only [Res.bind_eq_bind, Res.bind_ok] at h
      cases h
      exact RootInv_addSibling hInv hs hc
  | addExistChild n c =>
    simp only [applyOp] at h
    have hcn : c ≠ t.root := by
      have := hall
      unfold allowedOp at this
      exact of_decide_eq_true this
    exact RootInv_addExistChild hInv hcn h
  | replaceNode a b =>
    simp only [applyOp] at h
    have hbn : b ≠ t.root := by
      have := hall
      unfold allowedOp at this
      exact of_decide_eq_true this
    exact RootInv_replaceNode hInv hbn h
  | delChild p pos =>
    simp only [applyOp] at h
    cases hc : gTree_delChild t p pos with
    | err e =>
      rw [hc] at h
      simp only [Res.bind_eq_bind, Res.bind_err] at h
      cases h
    | dv =>
      rw [hc] at h
      simp only [Res.bind_eq_bind, Res.bind_dv] at h
      cases h
    | ok pr =>
      rcases pr with ⟨ta, da⟩
      rw [hc] at h
      simp only [Res.bind_eq_bind, Res.bind_ok] at h
      cases h
      exact RootInv_delChild hInv hc
  | delSubtree f rid =>
    simp only [applyOp] at h
    have hrn : rid ≠ t.root := by
      have := hall
      unfold allowedOp at this
      exact of_decide_eq_true this
    exact RootInv_delSubtree hInv hrn h
  | cloneSubtree f n =>
    simp only [applyOp] at h
    cases hc : gTree_cloneSubtree f t n with
    | err e =>
      rw [hc] at h
      simp only [Res.bind_eq_bind, Res.bind_err] at h
      cases h
    | dv =>
      rw [hc] at h
      simp only [Res.bind_eq_bind, Res.bind_dv] at h
      cases h
    | ok pr =>
      rcases pr with ⟨ta, ca⟩
      rw [hc] at h
      simp only [Res.bind_eq_bind, Res.bind_ok] at h
      cases h
      obtain ⟨h1, h2, _⟩ := (clone_inv f).1 t n t1 ca hInv hc
      exact ⟨h1, h2⟩
  | restoreSubTree f n input =>
    simp only [applyOp] at h
    cases hc : gTree_restoreSubTree r f t n input with
    | err e =>
      rw [hc] at h
      simp only [Res.bind_eq_bind, Res.bind_err] at h
      cases h
    | dv =>
      rw [hc] at h
      simp only [Res.bind_eq_bind, Res.bind_dv] at h
      cases h
    | ok pr =>
      rcases pr with ⟨ta, resta⟩
      rw [hc] at h
      simp only [Res.bind_eq_bind, Res.bind_ok] at h
      cases h
      exact (restore_inv r f).1 t n input t1 resta hInv hc

/-- The root invariant survives any successful run of allowed public
operations. -/
theorem runOps_inv {α : Type} [Inhabited α]
    (r : List String → Option (α × List String)) :
    ∀ (ops : List (Op α)) (t t' : Tree α), RootInv t →
    (∀ op ∈ ops, allowedOp t.root op = true) →
    runOps r ops t = .ok t' → RootInv t' ∧ t'.root = t.root := by
  intro ops
  induction ops with
  | nil =>
    intro t t' hInv _ h
    unfold runOps at h
    cases h
    exact ⟨hInv, rfl⟩
  | cons op ops' ih =>
    intro t t' hInv hall h
    unfold runOps at h
    cases happ : applyOp r t op with
    | err e =>
      rw [happ] at h
      simp only [Res.bind_eq_bind, Res.bind_err] at h
      cases h
    | dv =>
      rw [happ] at h
      simp only [Res.bind_eq_bind, Res.bind_dv] at h
      cases h
    | ok t1 =>
      rw [happ] at h
      simp only [Res.bind_eq_bind, Res.bind_ok] at h
      obtain ⟨hinv1, hroot1⟩ :=
        applyOp_inv r op hInv (hall op (List.mem_cons_self _ _)) happ
      obtain ⟨hinv2, hroot2⟩ := ih t1 t' hinv1
        (fun o ho => by rw [hroot1]; exact hall o (List.mem_cons_of_mem _ ho)) h
      exact ⟨hinv2, hroot2.trans hroot1⟩

/-- C3 (amended): starting from a constructed tree, any successful
sequence of public operations in which the root id is never passed as
the addSibling target, the addExistChild child, the replaceNode
replacement, or the delSubtree target, leaves the root id unchanged with
its parent and sibling fields NONE and its slot still occupied, and no
occupied slot's child or sibling pointer names the root: the root heads
no sibling chain, belongs to none, and is never freed. -/
theorem gTree_root_invariant {α : Type} [Inhabited α]
    (r : List String → Option (α × List String)) (ops : List (Op α))
    {t' : Tree α}
    (hallowed : ∀ op ∈ ops, allowedOp (gTree_ctor α).root op = true)
    (hrun : runOps r ops (gTree_ctor α) = .ok t') :
    t'.root = (gTree_ctor α).root ∧
    (∃ rn, t'.pool.get (some t'.root) = some rn ∧
      rn.parent = none ∧ rn.sibling = none) ∧
    ∀ i n, t'.pool.get (some i) = some n →
      n.child ≠ some t'.root ∧ n.sibling ≠ some t'.root := by
  obtain ⟨hinv, hroot⟩ := runOps_inv r ops _ t' RootInv_ctor hallowed hrun
  exact ⟨hroot, hinv.2.1, hinv.2.2⟩

theorem gTree_root_invariant_witness :
    ∃ t' : Tree Int,
      runOps (fun _ => none)
        [Op.addChild 0 5, Op.addChild 0 7, Op.addSibling 1 9,
          Op.delChild 0 0] (gTree_ctor Int) = .ok t' ∧
      (t'.root = (gTree_ctor Int).root ∧
        (∃ rn, t'.pool.get (some t'.root) = some rn ∧
          rn.parent = none ∧ rn.sibling = none) ∧
        ∀ i n, t'.pool.get (some i) = some n →
          n.child ≠ some t'.root ∧ n.sibling ≠ some t'.root) :=
  ⟨⟨0, ⟨[some ⟨0, none, none, none⟩, none,
      some ⟨7, none, some 0, some 3⟩,
      some ⟨9, none, some 0, none⟩], [1]⟩⟩, by decide,
    gTree_root_invariant (fun _ => none)
      [Op.addChild 0 5, Op.addChild 0 7, Op.addSibling 1 9, Op.delChild 0 0]
      (by decide) (by decide)⟩

end GT
